import Mathlib

/-!
SITH: set-up and post-processing of the lattice tumour simulation

A shallow embedding of `src/setup.h` and `src/postproc.cpp`.

Conventions of the embedding
* C++ `int` values are `Int`; the `short int` coordinates of a cell go through
  `short_of_int`, the 16-bit two's-complement conversion.  Signed `int`
  arithmetic that overflows is undefined in C++ and is not modelled.
* `double` values.  The claims on the logic of the set-up read the configuration
  parameters as exact rationals (`gv_init`, `initial_cell`).  The claims that
  depend on what a `double` holds (NaN, the rounding of a sum) are settled on
  `gv_init_double` and `initial_cell_double`, the same statements over `Double`,
  the values of IEEE 754 binary64 with the sum rounded to nearest, ties to even;
  on finite parameters both raise the same message and set the same lattice
  (`gv_init_double_finite`).  The coordinate table holds reals: its first five
  columns are integers, which a double holds exactly below `2^53`, and the
  square-root routine is a parameter; `double_sqrt` is the square root of
  IEEE 754 on those integers.
* The process-wide globals are an explicit record `Globals` that every function
  receives, and returns when it assigns to one.
* `Rcpp::stop` raises an exception: `gv_init` returns the globals as they are at
  the moment of the throw together with the message raised (`none` when the
  function returns normally).
* Vector and matrix accesses are unchecked in the source.  The embedding is
  total: a read outside the range yields the default value and a write outside
  the range leaves the buffer as it is.  `write_results_checked` repeats
  `write_results` with every access checked.
* `std::next_permutation` is library code: `next_permutation` models its standard
  algorithm and is proved to meet the contract of the standard.  The loop of
  `get_perms` takes a bound on its number of rounds.
-/

namespace SITH

/-! ## Data model (`setup.h`) -/

/-- A specie is a unique genotype in the cell population (`struct specie`). -/
structure specie where
  id : Int
  count : Int
  genotype : List Int
  d : ℚ
  b : ℚ
deriving DecidableEq

instance : Inhabited specie := ⟨⟨0, 0, [], 0, 0⟩⟩

/-- A cell is specified by its coordinates and specie type (`struct cell`). -/
structure cell where
  x : Int
  y : Int
  z : Int
  id : Int
deriving DecidableEq

/-- The global variables of `setup.h`. -/
structure Globals where
  p_max : ℚ
  drivers : List Int
  total_mutations : Int
  x_dim : Int
  y_dim : Int
  z_dim : Int
deriving DecidableEq

/-- Conversion of an `int` to `short int`: reduction modulo 2^16 into
`[-32768, 32767]`. -/
def short_of_int (v : Int) : Int := (v + 32768) % 65536 - 32768

/-! ## `gv_init` -/

/-- The function `gv_init`: resets the run-wide globals, validates the configuration and
sets the lattice dimensions.  The second component is the message of the
exception raised by `Rcpp::stop`, if any. -/
def gv_init (g : Globals) (N : Int) (wt_br wt_dr u du s : ℚ) : Globals × Option String :=
  let g1 : Globals := { g with total_mutations := 0, drivers := [], p_max := wt_br + wt_dr }
  if N < 1 then (g1, some "N must be at least 2.")
  else if wt_dr > wt_br then (g1, some "Death rate can not be greater than birth rate.")
  else if (wt_br < 0) ∨ (wt_dr < 0) then (g1, some "Birth and death rates must be non-negative.")
  else if u < 0 then (g1, some "u must be non-negative")
  else if du < 0 ∨ du > 1 then (g1, some "du must be in [0,1]")
  else if s < 0 then (g1, some "s must be non-negative")
  else if N > 100000000 then
    ({ g1 with x_dim := 2000, y_dim := 2000, z_dim := 2000 }, none)
  else if N > 10000000 then
    ({ g1 with x_dim := 1000, y_dim := 1000, z_dim := 1000 }, none)
  else
    ({ g1 with x_dim := 500, y_dim := 500, z_dim := 500 }, none)

/-- The six constraints that `gv_init` checks, in the order of its `if` statements. -/
inductive Constraint where
  | population
  | death_le_birth
  | rates_nonneg
  | u_nonneg
  | du_unit
  | s_nonneg
deriving DecidableEq

/-- The message `gv_init` passes to `Rcpp::stop` in the `if` statement of the constraint. -/
def Constraint.message : Constraint → String
  | .population => "N must be at least 2."
  | .death_le_birth => "Death rate can not be greater than birth rate."
  | .rates_nonneg => "Birth and death rates must be non-negative."
  | .u_nonneg => "u must be non-negative"
  | .du_unit => "du must be in [0,1]"
  | .s_nonneg => "s must be non-negative"

/-! ## `init_lattice`, `initial_cell`, `max_mut` -/

/-- The occupancy lattice `bool***`: `lattice[i][j][k]`. -/
abbrev Lattice := List (List (List Bool))

/-- Read of `lattice[i][j][k]`. -/
def lattice_get (lat : Lattice) (i j k : Nat) : Bool :=
  ((lat.getD i []).getD j []).getD k false

/-- Assignment `lattice[i][j][k] = v`; `none` when the site does not exist. -/
def lattice_set (lat : Lattice) (i j k : Int) (v : Bool) : Option Lattice :=
  if i < 0 ∨ j < 0 ∨ k < 0 then none
  else
    match lat[i.toNat]? with
    | none => none
    | some plane =>
      match plane[j.toNat]? with
      | none => none
      | some row =>
        if k.toNat < row.length then
          some (lat.set i.toNat (plane.set j.toNat (row.set k.toNat v)))
        else none

/-- Number of occupied sites of a lattice. -/
def occupied_sites (lat : Lattice) : Nat :=
  (lat.map fun plane => (plane.map fun row => row.count true).sum).sum

/-- The function `init_lattice`: allocates `x_dim * y_dim * z_dim` sites, sets all of them to
0, then occupies the centre `lattice[x_dim/2][y_dim/2][z_dim/2]`.  The result is
`none` when the centre is not a site of the allocated lattice (a dimension that
is not positive). -/
def init_lattice (g : Globals) : Option Lattice :=
  let lattice : Lattice :=
    List.replicate g.x_dim.toNat
      (List.replicate g.y_dim.toNat (List.replicate g.z_dim.toNat false))
  lattice_set lattice (g.x_dim.tdiv 2) (g.y_dim.tdiv 2) (g.z_dim.tdiv 2) true

/-- The function `initial_cell`: the founder cell at the centre of the lattice, of a new
wild-type specie that is pushed onto `species`.  Returns the cell and the
species vector after the call. -/
def initial_cell (g : Globals) (species : List specie) (wt_br wt_dr : ℚ) :
    cell × List specie :=
  let x := short_of_int (g.x_dim.tdiv 2)
  let y := short_of_int (g.y_dim.tdiv 2)
  let z := short_of_int (g.z_dim.tdiv 2)
  let initial_type : specie :=
    { b := wt_br, d := wt_dr, id := 0, count := 1, genotype := [] ++ [0] }
  let species := species ++ [initial_type]
  ({ x := x, y := y, z := z, id := initial_type.id }, species)

/-- Read of `species[k]` for an `int` index. -/
def species_at (species : List specie) (k : Int) : specie :=
  if 0 ≤ k then species.getD k.toNat default else default

/-- The function `max_mut`: the running maximum of the genotype sizes, starting from 0. -/
def max_mut (species : List specie) : Int :=
  (List.range species.length).foldl
    (fun (max : Int) (i : Nat) =>
      if ((species_at species i).genotype.length : Int) > max then
        ((species_at species i).genotype.length : Int)
      else max)
    0

/-! ## Output buffers of the post-processing (`Rcpp` matrices and vectors) -/

/-- An `Rcpp` matrix: its dimensions and its entries `(i, j)`. -/
structure RMatrix (α : Type) where
  nrow : Nat
  ncol : Nat
  entry : Nat → Nat → α

/-- Read of `m(i, j)`. -/
def RMatrix.get {α : Type} [Zero α] (m : RMatrix α) (i j : Int) : α :=
  if 0 ≤ i ∧ i < m.nrow ∧ 0 ≤ j ∧ j < m.ncol then m.entry i.toNat j.toNat else 0

/-- Assignment `m(i, j) = v`. -/
def RMatrix.set {α : Type} (m : RMatrix α) (i j : Int) (v : α) : RMatrix α :=
  if 0 ≤ i ∧ i < m.nrow ∧ 0 ≤ j ∧ j < m.ncol then
    { m with entry := fun a b => if a = i.toNat ∧ b = j.toNat then v else m.entry a b }
  else m

/-- Row `i` of a matrix, all columns in order. -/
def RMatrix.row {α : Type} (m : RMatrix α) (i : Nat) : List α :=
  (List.range m.ncol).map (m.entry i)

/-- The first `n` entries of column `j` of a matrix. -/
def RMatrix.col {α : Type} (m : RMatrix α) (j n : Nat) : List α :=
  (List.range n).map (fun i => m.entry i j)

/-- Compound assignment `v[k] += n` on an integer vector. -/
def vec_add (v : List Int) (k : Int) (n : Int) : List Int :=
  if 0 ≤ k ∧ k < v.length then v.set k.toNat (v.getD k.toNat 0 + n) else v

/-- The three output arguments of `write_results`. -/
structure Buffers where
  cell_coords : RMatrix ℝ
  species_dict : RMatrix Int
  muts : List Int

/-! ## `PostProcessing` (`postproc.cpp`) -/

instance : Inhabited cell := ⟨⟨0, 0, 0, 0⟩⟩

/-- Body of the first loop of `write_results`: row `i` of the cell table.  The parameter
`sqrt` is the square-root routine of the platform. -/
def write_cell (g : Globals) (sqrt : ℝ → ℝ) (cells : List cell) (species : List specie)
    (cell_coords : RMatrix ℝ) (i : Nat) : RMatrix ℝ :=
  let c := cells.getD i default
  let cell_coords := cell_coords.set i 0 ((c.x - g.x_dim.tdiv 2 : Int) : ℝ)
  let cell_coords := cell_coords.set i 1 ((c.y - g.y_dim.tdiv 2 : Int) : ℝ)
  let cell_coords := cell_coords.set i 2 ((c.z - g.z_dim.tdiv 2 : Int) : ℝ)
  let cell_coords := cell_coords.set i 3 ((c.id : Int) : ℝ)
  let cell_coords := cell_coords.set i 4 (((species_at species c.id).genotype.length : Nat) : ℝ)
  cell_coords.set i 5
    (sqrt (cell_coords.get i 0 * cell_coords.get i 0 + cell_coords.get i 1 * cell_coords.get i 1
      + cell_coords.get i 2 * cell_coords.get i 2))

/-- The six values that lines 7 to 12 of `write_results` compute for the row of the cell
`c`: centred coordinates, specie id, genotype size and the square root of the sum of the
squared centred coordinates. -/
def cell_row (g : Globals) (sqrt : ℝ → ℝ) (species : List specie) (c : cell) : List ℝ :=
  [((c.x - g.x_dim.tdiv 2 : Int) : ℝ), ((c.y - g.y_dim.tdiv 2 : Int) : ℝ),
   ((c.z - g.z_dim.tdiv 2 : Int) : ℝ), ((c.id : Int) : ℝ),
   (((species_at species c.id).genotype.length : Nat) : ℝ),
   sqrt (((c.x - g.x_dim.tdiv 2 : Int) : ℝ) * ((c.x - g.x_dim.tdiv 2 : Int) : ℝ)
     + ((c.y - g.y_dim.tdiv 2 : Int) : ℝ) * ((c.y - g.y_dim.tdiv 2 : Int) : ℝ)
     + ((c.z - g.z_dim.tdiv 2 : Int) : ℝ) * ((c.z - g.z_dim.tdiv 2 : Int) : ℝ))]

/-- Body of the second loop of `write_results`: row `i` of the species table and the
contribution of specie `i` to the mutation frequencies. -/
def write_specie (species : List specie) (st : Buffers) (i : Nat) : Buffers :=
  let s := species_at species i
  let nmuts := s.count
  let st := (List.range s.genotype.length).foldl
    (fun st (j : Nat) =>
      { st with
        species_dict := st.species_dict.set (i : Int) (j : Int) (s.genotype.getD j 0)
        muts := vec_add st.muts (s.genotype.getD j 0) nmuts })
    st
  let species_dict :=
    (List.range' s.genotype.length
        ((st.species_dict.ncol : Int) - 1 - (s.genotype.length : Int)).toNat).foldl
      (fun m (j : Nat) => m.set (i : Int) (j : Int) (-1))
      st.species_dict
  { st with species_dict := species_dict.set i ((species_dict.ncol : Int) - 1) nmuts }

/-- The method `PostProcessing::write_results`. -/
def write_results (g : Globals) (sqrt : ℝ → ℝ) (cells : List cell) (species : List specie)
    (out : Buffers) : Buffers :=
  let cell_coords :=
    (List.range cells.length).foldl (write_cell g sqrt cells species) out.cell_coords
  (List.range species.length).foldl (write_specie species) { out with cell_coords := cell_coords }

/-- The method `PostProcessing::write_phylo_tree`.  Both arguments are passed by reference:
the result is the pair of their values after the call. -/
def write_phylo_tree (phylo_tree : List (List Int)) (rphylo_tree : RMatrix Int) :
    List (List Int) × RMatrix Int :=
  (List.range (phylo_tree.getD 0 []).length).foldl
    (fun st (i : Nat) =>
      let m := st.2.set (i : Int) 0 ((st.1.getD 0 []).getD i 0)
      (st.1, m.set (i : Int) 1 ((st.1.getD 1 []).getD i 0)))
    (phylo_tree, rphylo_tree)

/-- The function `max_mut` with its reference argument made explicit: the species vector
after the call and the value returned. -/
def max_mut_call (species : List specie) : List specie × Int :=
  (List.range species.length).foldl
    (fun (st : List specie × Int) (i : Nat) =>
      if ((species_at st.1 i).genotype.length : Int) > st.2 then
        (st.1, ((species_at st.1 i).genotype.length : Int))
      else st)
    (species, 0)

/-! ## Lattice geometry -/

/-- Modelled from the spec: a lattice site, the coordinates `(x, y, z)` of a cell. -/
abbrev Site := Int × Int × Int

/-- The centre `(x_dim/2, y_dim/2, z_dim/2)` of the lattice, the site occupied by
`init_lattice` and `initial_cell`. -/
def centre (g : Globals) : Site := (g.x_dim.tdiv 2, g.y_dim.tdiv 2, g.z_dim.tdiv 2)

/-- A site of the lattice: every coordinate `c` satisfies `0 <= c < dim`. -/
def in_lattice (g : Globals) (p : Site) : Prop :=
  (0 ≤ p.1 ∧ p.1 < g.x_dim) ∧ (0 ≤ p.2.1 ∧ p.2.1 < g.y_dim) ∧ (0 ≤ p.2.2 ∧ p.2.2 < g.z_dim)

/-- A site on the boundary of the lattice: a coordinate equal to 0 or to `dim - 1`. -/
def on_boundary (g : Globals) (p : Site) : Prop :=
  (p.1 = 0 ∨ p.1 = g.x_dim - 1) ∨ (p.2.1 = 0 ∨ p.2.1 = g.y_dim - 1) ∨
    (p.2.2 = 0 ∨ p.2.2 = g.z_dim - 1)

/-- Number of axis steps between two sites. -/
def axis_steps (p q : Site) : Nat :=
  (p.1 - q.1).natAbs + (p.2.1 - q.2.1).natAbs + (p.2.2 - q.2.2).natAbs

/-- Modelled from the spec: two sites are axis-adjacent (one of the six neighbours of
`neighbors6`) when they are one axis step apart. -/
def adjacent (p q : Site) : Prop := axis_steps p q = 1

instance (p q : Site) : Decidable (adjacent p q) :=
  inferInstanceAs (Decidable (axis_steps p q = 1))

instance (g : Globals) (p : Site) : Decidable (in_lattice g p) :=
  inferInstanceAs (Decidable ((0 ≤ p.1 ∧ p.1 < g.x_dim) ∧ (0 ≤ p.2.1 ∧ p.2.1 < g.y_dim) ∧
    (0 ≤ p.2.2 ∧ p.2.2 < g.z_dim)))

instance (g : Globals) (p : Site) : Decidable (on_boundary g p) :=
  inferInstanceAs (Decidable ((p.1 = 0 ∨ p.1 = g.x_dim - 1) ∨ (p.2.1 = 0 ∨ p.2.1 = g.y_dim - 1) ∨
    (p.2.2 = 0 ∨ p.2.2 = g.z_dim - 1)))

/-- Modelled from the spec: the set `S` is 6-connected from `c`: every site of `S` is
reached from `c` by axis steps through sites of `S`. -/
def connected_from (c : Site) (S : Finset Site) : Prop :=
  ∀ p ∈ S, Relation.ReflTransGen (fun a b => b ∈ S ∧ adjacent a b) c p

/-! ## `write_results` with checked accesses

The same statements as `write_results`, where every read of `cells`, `species`, a genotype
or the cell table and every write to an output buffer returns `none` when its index is
out of range. -/

/-- Checked read of `species[k]`. -/
def species_at_checked (species : List specie) (k : Int) : Option specie :=
  if 0 ≤ k ∧ k < species.length then some (species_at species k) else none

/-- Checked read of `m(i, j)`. -/
def RMatrix.get_checked {α : Type} [Zero α] (m : RMatrix α) (i j : Int) : Option α :=
  if 0 ≤ i ∧ i < m.nrow ∧ 0 ≤ j ∧ j < m.ncol then some (m.get i j) else none

/-- Checked assignment `m(i, j) = v`. -/
def RMatrix.set_checked {α : Type} (m : RMatrix α) (i j : Int) (v : α) : Option (RMatrix α) :=
  if 0 ≤ i ∧ i < m.nrow ∧ 0 ≤ j ∧ j < m.ncol then some (m.set i j v) else none

/-- Checked compound assignment `v[k] += n`. -/
def vec_add_checked (v : List Int) (k : Int) (n : Int) : Option (List Int) :=
  if 0 ≤ k ∧ k < v.length then some (vec_add v k n) else none

/-- Body of the first loop of `write_results`, with checked accesses. -/
def write_cell_checked (g : Globals) (sqrt : ℝ → ℝ) (cells : List cell)
    (species : List specie) (cell_coords : RMatrix ℝ) (i : Nat) : Option (RMatrix ℝ) := do
  let c ← cells[i]?
  let cell_coords ← cell_coords.set_checked i 0 ((c.x - g.x_dim.tdiv 2 : Int) : ℝ)
  let cell_coords ← cell_coords.set_checked i 1 ((c.y - g.y_dim.tdiv 2 : Int) : ℝ)
  let cell_coords ← cell_coords.set_checked i 2 ((c.z - g.z_dim.tdiv 2 : Int) : ℝ)
  let cell_coords ← cell_coords.set_checked i 3 ((c.id : Int) : ℝ)
  let s ← species_at_checked species c.id
  let cell_coords ← cell_coords.set_checked i 4 ((s.genotype.length : Nat) : ℝ)
  let a0 ← cell_coords.get_checked i 0
  let a1 ← cell_coords.get_checked i 1
  let a2 ← cell_coords.get_checked i 2
  cell_coords.set_checked i 5 (sqrt (a0 * a0 + a1 * a1 + a2 * a2))

/-- Body of the second loop of `write_results`, with checked accesses. -/
def write_specie_checked (species : List specie) (st : Buffers) (i : Nat) : Option Buffers := do
  let s ← species_at_checked species i
  let nmuts := s.count
  let st ← (List.range s.genotype.length).foldlM
    (fun (st : Buffers) (j : Nat) => do
      let id ← s.genotype[j]?
      let species_dict ← st.species_dict.set_checked (i : Int) (j : Int) id
      let muts ← vec_add_checked st.muts id nmuts
      pure { st with species_dict := species_dict, muts := muts })
    st
  let species_dict ←
    (List.range' s.genotype.length
        ((st.species_dict.ncol : Int) - 1 - (s.genotype.length : Int)).toNat).foldlM
      (fun (m : RMatrix Int) (j : Nat) => m.set_checked (i : Int) (j : Int) (-1))
      st.species_dict
  let species_dict ← species_dict.set_checked i ((species_dict.ncol : Int) - 1) nmuts
  pure { st with species_dict := species_dict }

/-- The method `PostProcessing::write_results` with checked accesses: `none` as soon as an
index is out of range. -/
def write_results_checked (g : Globals) (sqrt : ℝ → ℝ) (cells : List cell)
    (species : List specie) (out : Buffers) : Option Buffers := do
  let cell_coords ←
    (List.range cells.length).foldlM (write_cell_checked g sqrt cells species) out.cell_coords
  (List.range species.length).foldlM (write_specie_checked species)
    { out with cell_coords := cell_coords }

/-! ## `get_perms` -/

/-- Lexicographic order on integer vectors, the order of `std::next_permutation`. -/
abbrev lex_lt (a b : List Int) : Prop := List.Lex (fun x y : Int => x < y) a b

/-- The loop of `get_perms`: one round copies `v` element by element, pushes the copy onto
`perms` and calls `next_permutation`, which returns the vector after the call and its
boolean result; the loop goes on while that result is `true`.  The first argument bounds
the number of rounds: `none` when it is exhausted. -/
def get_perms_loop (next_permutation : List Int → List Int × Bool) :
    Nat → List Int → List (List Int) → Option (List (List Int))
  | 0, _, _ => none
  | fuel + 1, v, perms =>
    let p := (List.range v.length).foldl (fun (p : List Int) (i : Nat) => p ++ [v.getD i 0]) []
    let perms := perms ++ [p]
    let r := next_permutation v
    if r.2 then get_perms_loop next_permutation fuel r.1 perms else some perms

/-- Modelled from the C++ standard library (`std::is_sorted_until` on the reversed range):
after the element `a`, the longest run of elements in non-decreasing order and the
elements that follow it. -/
def ascending_run (a : Int) : List Int → List Int × List Int
  | [] => ([], [])
  | b :: t =>
    if a ≤ b then (b :: (ascending_run b t).1, (ascending_run b t).2) else ([], b :: t)

/-- Modelled from the C++ standard library (`std::upper_bound` followed by
`std::iter_swap`): the first element of a non-decreasing run that is greater than `x` is
exchanged with `x`; returns that element and the run after the exchange. -/
def swap_upper (x : Int) : List Int → Int × List Int
  | [] => (x, [])
  | a :: t => if x < a then (a, x :: t) else ((swap_upper x t).1, a :: (swap_upper x t).2)

/-- Modelled from the C++ standard library: `std::next_permutation(v.begin(), v.end())`.
Seen from the back, the vector is a non-decreasing run followed by a pivot `x`; the first
element of the run greater than `x` is exchanged with `x` and the run is put back in
ascending order behind it (result `true`).  Without a pivot the whole vector is reversed
(result `false`).  Returns the vector after the call and the boolean result. -/
def next_permutation (v : List Int) : List Int × Bool :=
  match v.reverse with
  | [] => ([], false)
  | a :: t =>
    match (ascending_run a t).2 with
    | [] => (a :: t, false)
    | x :: rest =>
      (rest.reverse ++ (swap_upper x (a :: (ascending_run a t).1)).1 ::
        (swap_upper x (a :: (ascending_run a t).1)).2, true)

/-- The function `get_perms`, with a bound on the number of rounds of its loop. -/
def get_perms (fuel : Nat) (v : List Int) : Option (List (List Int)) :=
  get_perms_loop next_permutation fuel v []

/-- Contract of `std::next_permutation` at the vector `w`: when it returns `true` the
vector has become the least permutation of `w` that is lexicographically greater than
`w`; when it returns `false` no permutation of `w` is greater than `w`. -/
def next_permutation_contract (next : List Int → List Int × Bool) (w : List Int) : Prop :=
  ((next w).2 = true →
    (next w).1.Perm w ∧ lex_lt w (next w).1 ∧
      ∀ p : List Int, p.Perm w → lex_lt w p → p = (next w).1 ∨ lex_lt (next w).1 p) ∧
  ((next w).2 = false → ∀ p : List Int, p.Perm w → ¬ lex_lt w p)

/-- The number of permutations of `v` that are greater than `w`. -/
def perms_above (v w : List Int) : Nat :=
  (v.permutations.toFinset.filter (fun p => lex_lt w p)).card

/-! ## The type `double` (IEEE 754 binary64)

The claims that depend on what a `double` can hold (NaN, rounding of a sum, the rounded
square root) are settled on the definitions of this section: `gv_init_double` and
`initial_cell_double` repeat `gv_init` and `initial_cell` with parameters of type
`Double`. -/

/-- A value of the C++ type `double`: a finite number, an infinity or NaN.  The sign of a
zero is not kept: no operation of the embedded code tells `-0.0` from `0.0`. -/
inductive Double where
  | finite (q : ℚ)
  | pos_inf
  | neg_inf
  | nan
deriving DecidableEq

/-- The comparison `a < b` of two doubles; it is false when `a` or `b` is NaN. -/
def Double.lt : Double → Double → Bool
  | .finite a, .finite b => decide (a < b)
  | .finite _, .pos_inf => true
  | .neg_inf, .finite _ => true
  | .neg_inf, .pos_inf => true
  | _, _ => false

/-- The comparison `a > b` of two doubles; it is false when `a` or `b` is NaN. -/
def Double.gt (a b : Double) : Bool := Double.lt b a

/-- The comparison `a <= b` of two doubles; it is false when `a` or `b` is NaN. -/
def Double.le : Double → Double → Bool
  | .finite a, .finite b => decide (a ≤ b)
  | .finite _, .pos_inf => true
  | .neg_inf, .finite _ => true
  | .neg_inf, .pos_inf => true
  | .pos_inf, .pos_inf => true
  | .neg_inf, .neg_inf => true
  | _, _ => false

/-- The comparison `a == b` of two doubles; it is false when `a` or `b` is NaN. -/
def Double.equal : Double → Double → Bool
  | .finite a, .finite b => decide (a = b)
  | .pos_inf, .pos_inf => true
  | .neg_inf, .neg_inf => true
  | _, _ => false

/-- Rounding of a rational to the nearest integer, a tie going to the even one. -/
def round_half_even (x : ℚ) : Int :=
  if x - ⌊x⌋ < 1 / 2 then ⌊x⌋
  else if 1 / 2 < x - ⌊x⌋ then ⌊x⌋ + 1
  else if ⌊x⌋ % 2 = 0 then ⌊x⌋
  else ⌊x⌋ + 1

/-- The binary exponent at which a double holds `q`: that of the binade of `q`, and
`-1022` for the subnormal numbers below it. -/
def double_exponent (q : ℚ) : Int := max (Int.log 2 |q|) (-1022)

/-- Rounding of an exact result to `double` in the default mode (to nearest, ties to
even): 53 significant bits in the binade of `q`, an infinity when the rounded magnitude
reaches `2^1024`. -/
def round_double (q : ℚ) : Double :=
  let ulp : ℚ := 2 ^ (double_exponent q - 52)
  let r : ℚ := round_half_even (|q| / ulp) * ulp
  if 2 ^ 1024 ≤ r then (if 0 < q then .pos_inf else .neg_inf)
  else .finite (if 0 ≤ q then r else -r)

/-- The sum `a + b` of two doubles: the exact sum rounded; NaN when an operand is NaN or
the operands are infinities of opposite signs. -/
def Double.add : Double → Double → Double
  | .finite a, .finite b => round_double (a + b)
  | .nan, _ => .nan
  | _, .nan => .nan
  | .pos_inf, .neg_inf => .nan
  | .neg_inf, .pos_inf => .nan
  | .pos_inf, _ => .pos_inf
  | _, .pos_inf => .pos_inf
  | .neg_inf, _ => .neg_inf
  | _, .neg_inf => .neg_inf

/-- The type `struct specie` with its rates `d`, `b` held as doubles. -/
structure specie_double where
  id : Int
  count : Int
  genotype : List Int
  d : Double
  b : Double
deriving DecidableEq

/-- The global variables of `setup.h` with `p_max` held as a double. -/
structure Globals_double where
  p_max : Double
  drivers : List Int
  total_mutations : Int
  x_dim : Int
  y_dim : Int
  z_dim : Int
deriving DecidableEq

/-- The function `gv_init` on doubles: the statements of `gv_init` in the same order, with
the sum and the comparisons of `double`.  The literals `0`, `0.0`, `1.0` are the doubles
`finite 0` and `finite 1`. -/
def gv_init_double (g : Globals_double) (N : Int) (wt_br wt_dr u du s : Double) :
    Globals_double × Option String :=
  let g1 : Globals_double :=
    { g with total_mutations := 0, drivers := [], p_max := Double.add wt_br wt_dr }
  if N < 1 then (g1, some "N must be at least 2.")
  else if Double.gt wt_dr wt_br then (g1, some "Death rate can not be greater than birth rate.")
  else if Double.lt wt_br (.finite 0) || Double.lt wt_dr (.finite 0) then
    (g1, some "Birth and death rates must be non-negative.")
  else if Double.lt u (.finite 0) then (g1, some "u must be non-negative")
  else if Double.lt du (.finite 0) || Double.gt du (.finite 1) then
    (g1, some "du must be in [0,1]")
  else if Double.lt s (.finite 0) then (g1, some "s must be non-negative")
  else if N > 100000000 then
    ({ g1 with x_dim := 2000, y_dim := 2000, z_dim := 2000 }, none)
  else if N > 10000000 then
    ({ g1 with x_dim := 1000, y_dim := 1000, z_dim := 1000 }, none)
  else
    ({ g1 with x_dim := 500, y_dim := 500, z_dim := 500 }, none)

/-- The function `initial_cell` on doubles: the founder cell at the centre of the lattice,
of a new wild-type specie that is pushed onto `species`. -/
def initial_cell_double (g : Globals_double) (species : List specie_double)
    (wt_br wt_dr : Double) : cell × List specie_double :=
  let x := short_of_int (g.x_dim.tdiv 2)
  let y := short_of_int (g.y_dim.tdiv 2)
  let z := short_of_int (g.z_dim.tdiv 2)
  let initial_type : specie_double :=
    { b := wt_br, d := wt_dr, id := 0, count := 1, genotype := [] ++ [0] }
  let species := species ++ [initial_type]
  ({ x := x, y := y, z := z, id := initial_type.id }, species)

/-- The constraint holds of a configuration of doubles, as the six constraints are listed:
`N >= 1`; death `<=` birth; both rates non-negative; `u >= 0`; `du` in `[0,1]`; `s >= 0`.
A comparison with NaN is false, so a NaN parameter violates its constraint. -/
def Constraint.holds (N : Int) (wt_br wt_dr u du s : Double) : Constraint → Prop
  | .population => N ≥ 1
  | .death_le_birth => Double.le wt_dr wt_br = true
  | .rates_nonneg => Double.le (.finite 0) wt_br = true ∧ Double.le (.finite 0) wt_dr = true
  | .u_nonneg => Double.le (.finite 0) u = true
  | .du_unit => Double.le (.finite 0) du = true ∧ Double.le du (.finite 1) = true
  | .s_nonneg => Double.le (.finite 0) s = true

instance (N : Int) (wt_br wt_dr u du s : Double) (c : Constraint) :
    Decidable (c.holds N wt_br wt_dr u du s) := by
  cases c <;> unfold Constraint.holds <;> infer_instance

/-! ## The square root of `<cmath>` -/

/-- The integer nearest to the square root of `a`: `Nat.sqrt a` is the root rounded down,
and the root exceeds it by more than one half exactly when `a` exceeds its square by
more than it.  The root of an integer is never half-way between two integers. -/
def nearest_sqrt (a : Nat) : Nat :=
  if Nat.sqrt a < a - Nat.sqrt a * Nat.sqrt a then Nat.sqrt a + 1 else Nat.sqrt a

/-- The routine `sqrt` of `<cmath>` on a double that holds the integer `n`, for `n` below
`2^106` (every integer below `2^53`, the range in which a double holds all of them, is
one).  The routine is library code: this is the square root of IEEE 754, the exact root
rounded to the nearest double, that is to 53 significant bits: the root is scaled by
`2^k` into `[2^52, 2^53)`, rounded to the nearest integer and scaled back. -/
def double_sqrt (n : Nat) : ℚ :=
  if n = 0 then 0
  else
    let k := 52 - Nat.log 2 (Nat.sqrt n)
    (nearest_sqrt (n * 4 ^ k) : ℚ) / 2 ^ k

/-- The lattice dimensions are left alone whenever `gv_init` raises. -/
theorem gv_init_dims_of_error (g : Globals) (N : Int) (wt_br wt_dr u du s : ℚ) (msg : String)
    (h : (gv_init g N wt_br wt_dr u du s).2 = some msg) :
    (gv_init g N wt_br wt_dr u du s).1.x_dim = g.x_dim ∧
    (gv_init g N wt_br wt_dr u du s).1.y_dim = g.y_dim ∧
    (gv_init g N wt_br wt_dr u du s).1.z_dim = g.z_dim := by
  unfold gv_init at h ⊢
  simp only []
  split_ifs at h ⊢ <;> simp_all

/-- C1: when the wild-type death rate is strictly greater than the birth rate, `gv_init`
raises an error and leaves `x_dim`, `y_dim`, `z_dim` at their previous values; when
moreover `N >= 1` the error is the death-rate one. -/
theorem gv_init_death_gt_birth (g : Globals) (N : Int) (wt_br wt_dr u du s : ℚ)
    (h : wt_dr > wt_br) :
    (∃ msg, (gv_init g N wt_br wt_dr u du s).2 = some msg) ∧
    (gv_init g N wt_br wt_dr u du s).1.x_dim = g.x_dim ∧
    (gv_init g N wt_br wt_dr u du s).1.y_dim = g.y_dim ∧
    (gv_init g N wt_br wt_dr u du s).1.z_dim = g.z_dim ∧
    (N ≥ 1 → (gv_init g N wt_br wt_dr u du s).2 =
      some "Death rate can not be greater than birth rate.") := by
  have hraise : ∃ msg, (gv_init g N wt_br wt_dr u du s).2 = some msg := by
    unfold gv_init
    simp only []
    by_cases hN : N < 1
    · exact ⟨_, by rw [if_pos hN]⟩
    · exact ⟨_, by rw [if_neg hN, if_pos h]⟩
  obtain ⟨msg, hmsg⟩ := hraise
  obtain ⟨hx, hy, hz⟩ := gv_init_dims_of_error g N wt_br wt_dr u du s msg hmsg
  refine ⟨⟨msg, hmsg⟩, hx, hy, hz, ?_⟩
  intro hN
  have hN' : ¬ N < 1 := by omega
  unfold gv_init
  simp only []
  rw [if_neg hN', if_pos h]

/-- Witness of C1: previous dimensions 7, 8, 9, death rate 2 against birth rate 1. -/
theorem gv_init_death_gt_birth_witness :
    (∃ msg, (gv_init ⟨0, [3], 5, 7, 8, 9⟩ 10 1 2 0 0 0).2 = some msg) ∧
    (gv_init ⟨0, [3], 5, 7, 8, 9⟩ 10 1 2 0 0 0).1.x_dim = 7 ∧
    (gv_init ⟨0, [3], 5, 7, 8, 9⟩ 10 1 2 0 0 0).1.y_dim = 8 ∧
    (gv_init ⟨0, [3], 5, 7, 8, 9⟩ 10 1 2 0 0 0).1.z_dim = 9 ∧
    ((10 : Int) ≥ 1 → (gv_init ⟨0, [3], 5, 7, 8, 9⟩ 10 1 2 0 0 0).2 =
      some "Death rate can not be greater than birth rate.") :=
  gv_init_death_gt_birth ⟨0, [3], 5, 7, 8, 9⟩ 10 1 2 0 0 0 (by norm_num)

/-- C2: `gv_init` returns without raising exactly when `N >= 1`, `wt_dr <= wt_br`,
`wt_br >= 0`, `wt_dr >= 0`, `u >= 0`, `0 <= du <= 1` and `s >= 0`; in particular `N = 1`
with otherwise valid parameters is accepted. -/
theorem gv_init_succeeds_iff (g : Globals) (N : Int) (wt_br wt_dr u du s : ℚ) :
    ((gv_init g N wt_br wt_dr u du s).2 = none ↔
      (N ≥ 1 ∧ wt_dr ≤ wt_br ∧ wt_br ≥ 0 ∧ wt_dr ≥ 0 ∧ u ≥ 0 ∧ (0 ≤ du ∧ du ≤ 1) ∧ s ≥ 0)) ∧
    ((wt_dr ≤ wt_br ∧ wt_br ≥ 0 ∧ wt_dr ≥ 0 ∧ u ≥ 0 ∧ (0 ≤ du ∧ du ≤ 1) ∧ s ≥ 0) →
      (gv_init g 1 wt_br wt_dr u du s).2 = none) := by
  have key : ∀ M : Int, ((gv_init g M wt_br wt_dr u du s).2 = none ↔
      (M ≥ 1 ∧ wt_dr ≤ wt_br ∧ wt_br ≥ 0 ∧ wt_dr ≥ 0 ∧ u ≥ 0 ∧ (0 ≤ du ∧ du ≤ 1) ∧ s ≥ 0)) := by
    intro M
    unfold gv_init
    simp only []
    constructor
    · intro h
      split_ifs at h with h1 h2 h3 h4 h5 h6 h7 h8 <;>
        first
          | exact absurd h (Option.some_ne_none _)
          | (push_neg at h1 h2 h3 h4 h5 h6
             exact ⟨by omega, h2, h3.1, h3.2, h4, ⟨h5.1, h5.2⟩, h6⟩)
    · rintro ⟨h1, h2, h3, h4, h5, ⟨h6, h7⟩, h8⟩
      have n1 : ¬ M < 1 := by omega
      have n2 : ¬ wt_dr > wt_br := not_lt.mpr h2
      have n3 : ¬ ((wt_br < 0) ∨ (wt_dr < 0)) := by
        push_neg; exact ⟨h3, h4⟩
      have n4 : ¬ u < 0 := not_lt.mpr h5
      have n5 : ¬ (du < 0 ∨ du > 1) := by
        push_neg; exact ⟨h6, h7⟩
      have n6 : ¬ s < 0 := not_lt.mpr h8
      rw [if_neg n1, if_neg n2, if_neg n3, if_neg n4, if_neg n5, if_neg n6]
      split_ifs <;> rfl
  refine ⟨key N, ?_⟩
  intro h
  exact (key 1).mpr ⟨le_refl 1, h⟩

/-- Witness of C2: `N = 1`, birth rate 1, death rate 0 and no mutation is accepted. -/
theorem gv_init_succeeds_iff_witness :
    (gv_init ⟨0, [], 0, 0, 0, 0⟩ 1 1 0 0 0 0).2 = none :=
  (gv_init_succeeds_iff ⟨0, [], 0, 0, 0, 0⟩ 1 1 0 0 0 0).2 (by norm_num)

/-- Counterexample to C3 as stated: the mutation probability `u = 2` lies outside `[0,1]`
and `gv_init` accepts the configuration. -/
theorem gv_init_accepts_u_above_one :
    (2 : ℚ) > 1 ∧ (gv_init ⟨0, [], 0, 0, 0, 0⟩ 1 1 0 2 0 0).2 = none := by
  constructor
  · norm_num
  · norm_num [gv_init]

/-- C3 (amended): `gv_init` raises for every `u < 0`, whatever the other parameters; it has
no upper bound on `u`: every `u > 1` is treated exactly as `u = 1`. -/
theorem gv_init_u_validation (g : Globals) (N : Int) (wt_br wt_dr u du s : ℚ) :
    (u < 0 → ∃ msg, (gv_init g N wt_br wt_dr u du s).2 = some msg) ∧
    (1 < u → gv_init g N wt_br wt_dr u du s = gv_init g N wt_br wt_dr 1 du s) := by
  constructor
  · intro hu
    unfold gv_init
    simp only []
    split_ifs <;> exact ⟨_, rfl⟩
  · intro hu
    have h1 : ¬ u < 0 := by linarith
    have h2 : ¬ (1 : ℚ) < 0 := by norm_num
    unfold gv_init
    simp only [if_neg h1, if_neg h2]

/-- Witness of C3 (amended): `u = -1` is rejected, `u = 2` is treated as `u = 1`. -/
theorem gv_init_u_validation_witness :
    ((-1 : ℚ) < 0 ∧ ∃ msg, (gv_init ⟨0, [], 0, 0, 0, 0⟩ 5 1 0 (-1) 0 0).2 = some msg) ∧
    ((1 : ℚ) < 2 ∧
      gv_init ⟨0, [], 0, 0, 0, 0⟩ 5 1 0 2 0 0 = gv_init ⟨0, [], 0, 0, 0, 0⟩ 5 1 0 1 0 0) :=
  ⟨⟨by norm_num, (gv_init_u_validation ⟨0, [], 0, 0, 0, 0⟩ 5 1 0 (-1) 0 0).1 (by norm_num)⟩,
   ⟨by norm_num, (gv_init_u_validation ⟨0, [], 0, 0, 0, 0⟩ 5 1 0 2 0 0).2 (by norm_num)⟩⟩

/-! ## Theorems on the initial state -/

/-- Occupying one site of an empty row gives a row with exactly one occupied site. -/
theorem count_set_replicate (n c : Nat) (h : c < n) :
    ((List.replicate n false).set c true).count true = 1 := by
  induction n generalizing c with
  | zero => omega
  | succ n ih =>
    cases c with
    | zero => simp [List.replicate_succ, List.count_replicate]
    | succ c =>
      rw [List.replicate_succ, List.set_cons_succ, List.count_cons, ih c (by omega)]
      simp

/-- Replacing one element of a constant list whose elements weigh 0 leaves the weight of
the new element. -/
theorem sum_map_set_replicate {α : Type} (f : α → Nat) (p q : α) (hp : f p = 0) (n a : Nat)
    (h : a < n) : (((List.replicate n p).set a q).map f).sum = f q := by
  induction n generalizing a with
  | zero => omega
  | succ n ih =>
    cases a with
    | zero => simp [List.replicate_succ, hp]
    | succ a =>
      rw [List.replicate_succ, List.set_cons_succ, List.map_cons, List.sum_cons, hp,
        ih a (by omega)]
      simp

/-- Read of a constant list in which one element was replaced. -/
theorem getD_set_replicate {α : Type} (n a i : Nat) (p q d : α) (h : a < n) :
    ((List.replicate n p).set a q).getD i d = if i = a then q else if i < n then p else d := by
  rw [List.getD_eq_getElem?_getD, List.getElem?_set, List.length_replicate,
    List.getElem?_replicate]
  by_cases hi : a = i
  · subst hi
    simp [h]
  · have hi2 : ¬ i = a := fun e => hi e.symm
    rw [if_neg hi, if_neg hi2]
    split_ifs <;> rfl

/-- Every site of an empty row reads as free. -/
theorem getD_replicate_false (n k : Nat) : (List.replicate n false).getD k false = false := by
  rw [List.getD_eq_getElem?_getD, List.getElem?_replicate]
  split_ifs <;> rfl

/-- Every site of an empty plane reads as free. -/
theorem getD_plane_false (m n j k : Nat) :
    ((List.replicate m (List.replicate n false)).getD j []).getD k false = false := by
  have hrow : (List.replicate m (List.replicate n false)).getD j [] =
      if j < m then List.replicate n false else [] := by
    rw [List.getD_eq_getElem?_getD, List.getElem?_replicate]
    split_ifs <;> rfl
  rw [hrow]
  split_ifs
  · exact getD_replicate_false _ _
  · rfl

/-- With positive dimensions `init_lattice` returns a lattice whose only occupied site is
the centre. -/
theorem init_lattice_spec (g : Globals) (hx : 0 < g.x_dim) (hy : 0 < g.y_dim)
    (hz : 0 < g.z_dim) :
    ∃ lat, init_lattice g = some lat ∧
      (∀ i j k : Nat, lattice_get lat i j k = true ↔
        ((i : Int) = g.x_dim.tdiv 2 ∧ (j : Int) = g.y_dim.tdiv 2 ∧ (k : Int) = g.z_dim.tdiv 2)) ∧
      occupied_sites lat = 1 := by
  have ex : g.x_dim.tdiv 2 = g.x_dim / 2 := Int.tdiv_eq_ediv (le_of_lt hx) (by norm_num)
  have ey : g.y_dim.tdiv 2 = g.y_dim / 2 := Int.tdiv_eq_ediv (le_of_lt hy) (by norm_num)
  have ez : g.z_dim.tdiv 2 = g.z_dim / 2 := Int.tdiv_eq_ediv (le_of_lt hz) (by norm_num)
  have ax : (g.x_dim / 2).toNat < g.x_dim.toNat := by omega
  have ay : (g.y_dim / 2).toNat < g.y_dim.toNat := by omega
  have az : (g.z_dim / 2).toNat < g.z_dim.toNat := by omega
  have nneg : ¬ (g.x_dim / 2 < 0 ∨ g.y_dim / 2 < 0 ∨ g.z_dim / 2 < 0) := by omega
  refine ⟨(List.replicate g.x_dim.toNat
      (List.replicate g.y_dim.toNat (List.replicate g.z_dim.toNat false))).set (g.x_dim / 2).toNat
        ((List.replicate g.y_dim.toNat (List.replicate g.z_dim.toNat false)).set
          (g.y_dim / 2).toNat ((List.replicate g.z_dim.toNat false).set (g.z_dim / 2).toNat true)),
    ?_, ?_, ?_⟩
  · unfold init_lattice lattice_set
    simp only [ex, ey, ez, if_neg nneg, List.getElem?_replicate, if_pos ax, if_pos ay,
      List.length_replicate, if_pos az]
  · intro i j k
    rw [ex, ey, ez]
    unfold lattice_get
    rw [getD_set_replicate _ _ _ _ _ _ ax]
    by_cases hi : i = (g.x_dim / 2).toNat
    · rw [if_pos hi, getD_set_replicate _ _ _ _ _ _ ay]
      by_cases hj : j = (g.y_dim / 2).toNat
      · rw [if_pos hj, getD_set_replicate _ _ _ _ _ _ az]
        by_cases hk : k = (g.z_dim / 2).toNat
        · rw [if_pos hk]
          simp only [true_iff]
          omega
        · rw [if_neg hk]
          have hne : ¬ ((k : Int) = g.z_dim / 2) := by omega
          simp [hne]
      · rw [if_neg hj]
        have hne : ¬ ((j : Int) = g.y_dim / 2) := by omega
        have hrow : (if j < g.y_dim.toNat then List.replicate g.z_dim.toNat false else []).getD k
            false = false := by
          split_ifs
          · exact getD_replicate_false _ _
          · rfl
        rw [hrow]
        exact ⟨fun h => absurd h (by decide), fun h => absurd h.2.1 hne⟩
    · rw [if_neg hi]
      have hne : ¬ ((i : Int) = g.x_dim / 2) := by omega
      have hplane : ((if i < g.x_dim.toNat then
          List.replicate g.y_dim.toNat (List.replicate g.z_dim.toNat false) else []).getD j []).getD
            k false = false := by
        split_ifs
        · exact getD_plane_false _ _ _ _
        · rfl
      rw [hplane]
      exact ⟨fun h => absurd h (by decide), fun h => absurd h.1 hne⟩
  · unfold occupied_sites
    rw [sum_map_set_replicate _ _ _ _ _ _ ax]
    · rw [sum_map_set_replicate _ _ _ _ _ _ ay]
      · exact count_set_replicate _ _ az
      · simp [List.count_replicate]
    · simp [List.count_replicate]

/-- After a successful `gv_init` the lattice is a cube of side 500, 1000 or 2000. -/
theorem gv_init_dims_of_success (g : Globals) (N : Int) (wt_br wt_dr u du s : ℚ)
    (hok : (gv_init g N wt_br wt_dr u du s).2 = none) :
    ((gv_init g N wt_br wt_dr u du s).1.x_dim = 2000 ∨
      (gv_init g N wt_br wt_dr u du s).1.x_dim = 1000 ∨
      (gv_init g N wt_br wt_dr u du s).1.x_dim = 500) ∧
    (gv_init g N wt_br wt_dr u du s).1.y_dim = (gv_init g N wt_br wt_dr u du s).1.x_dim ∧
    (gv_init g N wt_br wt_dr u du s).1.z_dim = (gv_init g N wt_br wt_dr u du s).1.x_dim := by
  unfold gv_init at hok ⊢
  simp only [] at hok ⊢
  split_ifs at hok ⊢ <;> first | exact absurd hok (Option.some_ne_none _) | simp

/-- The founder cell sits at the centre whenever the centre coordinates fit a `short int`,
and the species vector becomes the single wild-type specie. -/
theorem initial_cell_spec (g : Globals) (b d : ℚ)
    (hx : short_of_int (g.x_dim.tdiv 2) = g.x_dim.tdiv 2)
    (hy : short_of_int (g.y_dim.tdiv 2) = g.y_dim.tdiv 2)
    (hz : short_of_int (g.z_dim.tdiv 2) = g.z_dim.tdiv 2) :
    initial_cell g [] b d =
      (⟨g.x_dim.tdiv 2, g.y_dim.tdiv 2, g.z_dim.tdiv 2, 0⟩, [⟨0, 1, [0], d, b⟩]) := by
  unfold initial_cell
  simp only [hx, hy, hz, List.nil_append]

/-- The centre of a lattice sized by `gv_init` fits a `short int`. -/
theorem short_of_int_centre (v : Int) (h : v = 2000 ∨ v = 1000 ∨ v = 500) :
    short_of_int (v.tdiv 2) = v.tdiv 2 := by
  rcases h with h | h | h <;> subst h <;> decide

/-- C5: after a successful `gv_init`, `init_lattice` returns a lattice whose only occupied
site is the centre `(x_dim/2, y_dim/2, z_dim/2)`; `initial_cell` on an empty species
vector returns a cell at that site with specie id 0 and leaves exactly the specie
`{id 0, count 1, genotype [0], b, d}`; the sum of the species counts, the number of
live cells and the number of occupied sites are all 1. -/
theorem initial_state_invariant (g : Globals) (N : Int) (wt_br wt_dr u du s : ℚ)
    (hok : (gv_init g N wt_br wt_dr u du s).2 = none) :
    ∃ lat, init_lattice (gv_init g N wt_br wt_dr u du s).1 = some lat ∧
      (∀ i j k : Nat, lattice_get lat i j k = true ↔
        ((i : Int) = (gv_init g N wt_br wt_dr u du s).1.x_dim.tdiv 2 ∧
         (j : Int) = (gv_init g N wt_br wt_dr u du s).1.y_dim.tdiv 2 ∧
         (k : Int) = (gv_init g N wt_br wt_dr u du s).1.z_dim.tdiv 2)) ∧
      initial_cell (gv_init g N wt_br wt_dr u du s).1 [] wt_br wt_dr =
        (⟨(gv_init g N wt_br wt_dr u du s).1.x_dim.tdiv 2,
          (gv_init g N wt_br wt_dr u du s).1.y_dim.tdiv 2,
          (gv_init g N wt_br wt_dr u du s).1.z_dim.tdiv 2, 0⟩,
         [⟨0, 1, [0], wt_dr, wt_br⟩]) ∧
      (((initial_cell (gv_init g N wt_br wt_dr u du s).1 [] wt_br wt_dr).2.map
          specie.count).sum = 1 ∧
        [(initial_cell (gv_init g N wt_br wt_dr u du s).1 [] wt_br wt_dr).1].length = 1 ∧
        occupied_sites lat = 1) := by
  obtain ⟨hx, hy, hz⟩ := gv_init_dims_of_success g N wt_br wt_dr u du s hok
  have hy2 := hy ▸ hx
  have hz2 := hz ▸ hx
  have px : 0 < (gv_init g N wt_br wt_dr u du s).1.x_dim := by omega
  have py : 0 < (gv_init g N wt_br wt_dr u du s).1.y_dim := by omega
  have pz : 0 < (gv_init g N wt_br wt_dr u du s).1.z_dim := by omega
  obtain ⟨lat, hlat, hsite, hocc⟩ := init_lattice_spec _ px py pz
  have hcell := initial_cell_spec (gv_init g N wt_br wt_dr u du s).1 wt_br wt_dr
    (short_of_int_centre _ hx) (short_of_int_centre _ hy2) (short_of_int_centre _ hz2)
  refine ⟨lat, hlat, hsite, hcell, ?_, rfl, hocc⟩
  rw [hcell]
  rfl

/-- Witness of C5: the configuration `N = 1`, birth 1, death 0, no mutation. -/
theorem initial_state_invariant_witness :
    ∃ lat, init_lattice (gv_init ⟨0, [], 0, 0, 0, 0⟩ 1 1 0 0 0 0).1 = some lat ∧
      (∀ i j k : Nat, lattice_get lat i j k = true ↔
        ((i : Int) = (gv_init ⟨0, [], 0, 0, 0, 0⟩ 1 1 0 0 0 0).1.x_dim.tdiv 2 ∧
         (j : Int) = (gv_init ⟨0, [], 0, 0, 0, 0⟩ 1 1 0 0 0 0).1.y_dim.tdiv 2 ∧
         (k : Int) = (gv_init ⟨0, [], 0, 0, 0, 0⟩ 1 1 0 0 0 0).1.z_dim.tdiv 2)) ∧
      initial_cell (gv_init ⟨0, [], 0, 0, 0, 0⟩ 1 1 0 0 0 0).1 [] 1 0 =
        (⟨(gv_init ⟨0, [], 0, 0, 0, 0⟩ 1 1 0 0 0 0).1.x_dim.tdiv 2,
          (gv_init ⟨0, [], 0, 0, 0, 0⟩ 1 1 0 0 0 0).1.y_dim.tdiv 2,
          (gv_init ⟨0, [], 0, 0, 0, 0⟩ 1 1 0 0 0 0).1.z_dim.tdiv 2, 0⟩,
         [⟨0, 1, [0], 0, 1⟩]) ∧
      (((initial_cell (gv_init ⟨0, [], 0, 0, 0, 0⟩ 1 1 0 0 0 0).1 [] 1 0).2.map
          specie.count).sum = 1 ∧
        [(initial_cell (gv_init ⟨0, [], 0, 0, 0, 0⟩ 1 1 0 0 0 0).1 [] 1 0).1].length = 1 ∧
        occupied_sites lat = 1) :=
  initial_state_invariant ⟨0, [], 0, 0, 0, 0⟩ 1 1 0 0 0 0 (by norm_num [gv_init])

/-! ## Loops over an index range -/

/-- Reading every index of a list in order gives the list back. -/
theorem map_getD_range {α : Type} (l : List α) (d : α) :
    (List.range l.length).map (fun j => l.getD j d) = l := by
  apply List.ext_getElem
  · simp
  · intro n h1 h2
    simp [List.getElem?_eq_getElem h2]

/-- A loop `for j < l.size()` whose body only uses `l[j]` is a fold over `l`. -/
theorem foldl_range_getD {α β : Type} (f : β → α → β) (l : List α) (d : α) (b : β) :
    (List.range l.length).foldl (fun acc j => f acc (l.getD j d)) b = l.foldl f b := by
  have h := List.foldl_map (fun j => l.getD j d) f (List.range l.length) b
  rw [map_getD_range] at h
  exact h.symm

/-- A projection that commutes with the loop body commutes with the loop. -/
theorem foldl_proj {σ τ ι : Type} (proj : σ → τ) (f : σ → ι → σ) (f2 : τ → ι → τ)
    (h : ∀ st x, proj (f st x) = f2 (proj st) x) (l : List ι) (st : σ) :
    proj (l.foldl f st) = l.foldl f2 (proj st) := by
  induction l generalizing st with
  | nil => rfl
  | cons x xs ih => rw [List.foldl_cons, List.foldl_cons, ih, h]

/-- Read of `species[i]` at a loop index. -/
theorem species_at_nat (species : List specie) (i : Nat) :
    species_at species (i : Int) = species.getD i default := by
  unfold species_at
  simp

/-! ## The mutation frequency vector -/

/-- The mutation frequencies after the second loop of `write_results`, specie by specie. -/
theorem write_specie_muts (species : List specie) (st : Buffers) (i : Nat) :
    (write_specie species st i).muts =
      (species_at species i).genotype.foldl
        (fun m id => vec_add m id (species_at species i).count) st.muts := by
  unfold write_specie
  simp only []
  rw [foldl_proj Buffers.muts _
    (fun (m : List Int) (j : Nat) =>
      vec_add m ((species_at species i).genotype.getD j 0) (species_at species i).count)
    (fun _ _ => rfl)]
  exact foldl_range_getD (fun m id => vec_add m id (species_at species i).count) _ 0 _

/-- The mutation frequencies after `write_results` as a fold over the species. -/
theorem write_results_muts (g : Globals) (sqrt : ℝ → ℝ) (cells : List cell)
    (species : List specie) (out : Buffers) :
    (write_results g sqrt cells species out).muts =
      species.foldl (fun m s => s.genotype.foldl (fun m id => vec_add m id s.count) m)
        out.muts := by
  unfold write_results
  simp only []
  rw [foldl_proj Buffers.muts _
    (fun (m : List Int) (i : Nat) =>
      (species.getD i default).genotype.foldl
        (fun m id => vec_add m id (species.getD i default).count) m)
    (fun st i => by rw [write_specie_muts, species_at_nat])]
  exact foldl_range_getD
    (fun m (s : specie) => s.genotype.foldl (fun m id => vec_add m id s.count) m) species default _

/-- Length of a vector after `v[k] += n`. -/
theorem vec_add_length (v : List Int) (k n : Int) : (vec_add v k n).length = v.length := by
  unfold vec_add
  split_ifs <;> simp

/-- Entry `m` of a vector after `v[k] += n` with `k` in range. -/
theorem vec_add_getD (v : List Int) (k n : Int) (m : Nat) (hk : 0 ≤ k ∧ k < v.length) :
    (vec_add v k n).getD m 0 = v.getD m 0 + if k = (m : Int) then n else 0 := by
  unfold vec_add
  rw [if_pos hk]
  have hlt : k.toNat < v.length := by omega
  rw [List.getD_eq_getElem?_getD, List.getElem?_set, if_pos hlt]
  by_cases hm : k.toNat = m
  · have hkm : k = (m : Int) := by omega
    rw [if_pos hm, if_pos hkm, hm]
    simp
  · have hkm : ¬ k = (m : Int) := by omega
    rw [if_neg hm, if_neg hkm]
    simp

/-- Adding `n` at every id of a genotype adds `n` times the number of occurrences. -/
theorem foldl_vec_add (geno : List Int) (n : Int) (v : List Int)
    (h : ∀ id ∈ geno, 0 ≤ id ∧ id < v.length) (m : Nat) :
    (geno.foldl (fun w id => vec_add w id n) v).length = v.length ∧
    (geno.foldl (fun w id => vec_add w id n) v).getD m 0 =
      v.getD m 0 + n * (geno.count (m : Int) : Int) := by
  induction geno generalizing v with
  | nil => simp
  | cons a l ih =>
    have ha := h a (List.mem_cons_self a l)
    have hl : ∀ id ∈ l, 0 ≤ id ∧ id < (vec_add v a n).length := by
      intro id hid
      rw [vec_add_length]
      exact h id (List.mem_cons_of_mem a hid)
    obtain ⟨h1, h2⟩ := ih (vec_add v a n) hl
    rw [List.foldl_cons]
    refine ⟨by rw [h1, vec_add_length], ?_⟩
    rw [h2, vec_add_getD v a n m ha, List.count_cons]
    by_cases e : a = (m : Int)
    · simp [e]
      ring
    · simp [e]

/-- The mutation frequencies after the species loop: every entry grows by the sum over
the species of count times occurrences. -/
theorem foldl_species_muts (species : List specie) (v : List Int)
    (h : ∀ s ∈ species, ∀ id ∈ s.genotype, 0 ≤ id ∧ id < v.length) (m : Nat) :
    (species.foldl (fun w s => s.genotype.foldl (fun w id => vec_add w id s.count) w) v).length
      = v.length ∧
    (species.foldl (fun w s => s.genotype.foldl (fun w id => vec_add w id s.count) w) v).getD m 0
      = v.getD m 0 + (species.map fun s => s.count * (s.genotype.count (m : Int) : Int)).sum := by
  induction species generalizing v with
  | nil => simp
  | cons s l ih =>
    obtain ⟨h1, h2⟩ := foldl_vec_add s.genotype s.count v (h s (List.mem_cons_self s l)) m
    have hl : ∀ t ∈ l, ∀ id ∈ t.genotype,
        0 ≤ id ∧ id < (s.genotype.foldl (fun w id => vec_add w id s.count) v).length := by
      intro t ht id hid
      rw [h1]
      exact h t (List.mem_cons_of_mem s ht) id hid
    obtain ⟨h3, h4⟩ := ih _ hl
    rw [List.foldl_cons]
    refine ⟨by rw [h3, h1], ?_⟩
    rw [h4, h2, List.map_cons, List.sum_cons]
    ring

/-! ## Sums over species and cells -/

/-- A sum over `i < n` that selects the index `k`. -/
theorem sum_indicator (n : Nat) (k : Int) (a : Nat → Int) :
    ((List.range n).map (fun (i : Nat) => if k = (i : Int) then a i else 0)).sum =
      if 0 ≤ k ∧ k < (n : Int) then a k.toNat else 0 := by
  induction n with
  | zero =>
    have hk : ¬ (0 ≤ k ∧ k < ((0 : Nat) : Int)) := by omega
    rw [if_neg hk]
    rfl
  | succ n ih =>
    rw [List.sum_range_succ, ih]
    by_cases hk : k = (n : Int)
    · subst hk
      simp
    · rw [if_neg hk, add_zero]
      by_cases hr : 0 ≤ k ∧ k < (n : Int)
      · have hr2 : 0 ≤ k ∧ k < ((n + 1 : Nat) : Int) := by omega
        rw [if_pos hr, if_pos hr2]
      · have hr2 : ¬ (0 ≤ k ∧ k < ((n + 1 : Nat) : Int)) := by omega
        rw [if_neg hr, if_neg hr2]

/-- Weighting every specie index by the number of cells of that index is the same as
summing the weight of the specie of every cell. -/
theorem sum_countP_mul (n : Nat) (a : Nat → Int) (cells : List cell) :
    ((List.range n).map
        (fun (i : Nat) =>
          ((cells.countP (fun c => decide (c.id = (i : Int))) : Nat) : Int) * a i)).sum =
      (cells.map (fun c => if 0 ≤ c.id ∧ c.id < (n : Int) then a c.id.toNat else 0)).sum := by
  induction cells with
  | nil => simp
  | cons c cs ih =>
    rw [List.map_cons, List.sum_cons, ← ih, ← sum_indicator n c.id a, ← List.sum_map_add]
    congr 1
    apply List.map_congr_left
    intro i _
    rw [List.countP_cons]
    by_cases e : c.id = (i : Int)
    · simp [e]
      ring
    · simp [e]

/-- A sum over the species written as a sum over their indices. -/
theorem sum_species_by_index (species : List specie) (f : specie → Int) :
    (species.map f).sum =
      ((List.range species.length).map (fun (i : Nat) => f (species_at species i))).sum := by
  have h : (List.range species.length).map (fun (i : Nat) => f (species_at species i)) =
      ((List.range species.length).map (fun i => species.getD i default)).map f := by
    rw [List.map_map]
    apply List.map_congr_left
    intro i _
    simp [species_at_nat]
  rw [h, map_getD_range]

/-- The number of cells satisfying a test, as a sum of 0 and 1. -/
theorem countP_eq_sum (cells : List cell) (p : cell → Bool) :
    ((cells.countP p : Nat) : Int) = (cells.map (fun c => if p c then (1 : Int) else 0)).sum := by
  induction cells with
  | nil => simp
  | cons c cs ih =>
    rw [List.countP_cons, List.map_cons, List.sum_cons, ← ih]
    by_cases e : p c
    · simp [e]
      ring
    · simp [e]

/-- The genotype of a cell whose specie id does not index the species vector is empty. -/
theorem species_at_invalid (species : List specie) (k : Int)
    (h : ¬ (0 ≤ k ∧ k < species.length)) : (species_at species k).genotype = [] := by
  unfold species_at
  by_cases hk : 0 ≤ k
  · have hlen : species.length ≤ k.toNat := by omega
    rw [if_pos hk, List.getD_eq_getElem?_getD, List.getElem?_eq_none hlen]
    rfl
  · rw [if_neg hk]
    rfl

/-- Read of `species[k]` at a valid index. -/
theorem species_at_valid (species : List specie) (k : Int)
    (h : 0 ≤ k ∧ k < species.length) : species_at species k = species_at species (k.toNat : Int) := by
  have e : ((k.toNat : Nat) : Int) = k := by omega
  rw [e]

/-- The occurrences of all indices below `L` in a genotype with ids in `[0, L)` add up to
its length. -/
theorem sum_count_range (L : Nat) (geno : List Int) (h : ∀ id ∈ geno, 0 ≤ id ∧ id < (L : Int)) :
    ((List.range L).map (fun (m : Nat) => ((geno.count (m : Int) : Nat) : Int))).sum =
      geno.length := by
  induction geno with
  | nil => simp
  | cons a l ih =>
    have ha := h a (List.mem_cons_self a l)
    have hl := ih (fun id hid => h id (List.mem_cons_of_mem a hid))
    have hsplit : (List.range L).map (fun (m : Nat) => (((a :: l).count (m : Int) : Nat) : Int)) =
        (List.range L).map (fun (m : Nat) => ((l.count (m : Int) : Nat) : Int) +
          (if a = (m : Int) then (fun _ => (1 : Int)) m else 0)) := by
      apply List.map_congr_left
      intro m _
      rw [List.count_cons]
      by_cases e : a = (m : Int)
      · simp [e]
      · simp [e]
    rw [hsplit, List.sum_map_add, hl, sum_indicator L a (fun _ => 1), if_pos ha]
    simp

/-- The specie read at a loop index is a member of the species vector. -/
theorem species_at_mem (species : List specie) (i : Nat) (h : i < species.length) :
    species_at species (i : Int) ∈ species := by
  rw [species_at_nat, List.getD_eq_getElem species default h]
  exact List.getElem_mem h

/-- Entry `m` of a vector of zeros. -/
theorem getD_of_all_zero (v : List Int) (h : ∀ x ∈ v, x = 0) (m : Nat) : v.getD m 0 = 0 := by
  by_cases hm : m < v.length
  · rw [List.getD_eq_getElem v 0 hm]
    exact h _ (List.getElem_mem hm)
  · rw [List.getD_eq_getElem?_getD, List.getElem?_eq_none (by omega)]
    rfl

/-- An entry inside the range, read with a default. -/
theorem getElem?_eq_some_getD (v : List Int) (m : Nat) (h : m < v.length) :
    v[m]? = some (v.getD m 0) := by
  rw [List.getElem?_eq_getElem h, List.getD_eq_getElem v 0 h]

/-- With duplicate-free genotypes and counts that agree with the cells, the sum over the
species of count times occurrences of `m` is the number of cells that carry `m`. -/
theorem sum_count_eq_carriers (cells : List cell) (species : List specie) (m : Nat)
    (hnodup : ∀ s ∈ species, s.genotype.Nodup)
    (hcount : ∀ i : Nat, i < species.length →
      (species_at species i).count =
        ((cells.countP (fun c => decide (c.id = (i : Int))) : Nat) : Int)) :
    (species.map fun s => s.count * ((s.genotype.count (m : Int) : Nat) : Int)).sum =
      ((cells.countP
        (fun c => decide ((m : Int) ∈ (species_at species c.id).genotype)) : Nat) : Int) := by
  rw [sum_species_by_index, countP_eq_sum]
  have h1 : (List.range species.length).map
      (fun (i : Nat) => (species_at species i).count *
        (((species_at species i).genotype.count (m : Int) : Nat) : Int)) =
      (List.range species.length).map
        (fun (i : Nat) => ((cells.countP (fun c => decide (c.id = (i : Int))) : Nat) : Int) *
          (fun (j : Nat) =>
            if (m : Int) ∈ (species_at species j).genotype then (1 : Int) else 0) i) := by
    apply List.map_congr_left
    intro i hi
    have hlt : i < species.length := List.mem_range.mp hi
    rw [hcount i hlt, List.count_eq_of_nodup (hnodup _ (species_at_mem species i hlt))]
    by_cases hmem : (m : Int) ∈ (species_at species i).genotype
    · simp [hmem]
    · simp [hmem]
  rw [h1, sum_countP_mul]
  congr 1
  apply List.map_congr_left
  intro c _
  by_cases hv : 0 ≤ c.id ∧ c.id < (species.length : Int)
  · rw [if_pos hv, species_at_valid species c.id hv]
    simp
  · rw [if_neg hv, species_at_invalid species c.id hv]
    simp

/-- C6: with `muts` all zeros on entry and every mutation id of every genotype a valid
index of `muts`, after `write_results` entry `m` of `muts` is the sum over all species
of `count` times the number of occurrences of `m` in the genotype; consequently, when
no genotype repeats an id and the count of every specie is the number of cells whose
id is that specie (its index in the species vector), entry `m` is the number of cells
whose specie has `m` in its genotype. -/
theorem write_results_mutation_frequencies (g : Globals) (sqrt : ℝ → ℝ) (cells : List cell)
    (species : List specie) (out : Buffers)
    (hzero : ∀ v ∈ out.muts, v = 0)
    (hidx : ∀ s ∈ species, ∀ id ∈ s.genotype, 0 ≤ id ∧ id < (out.muts.length : Int)) :
    (∀ m : Nat, m < out.muts.length →
      (write_results g sqrt cells species out).muts[m]? =
        some ((species.map fun s => s.count * ((s.genotype.count (m : Int) : Nat) : Int)).sum)) ∧
    ((∀ s ∈ species, s.genotype.Nodup) →
      (∀ i : Nat, i < species.length →
        (species_at species i).count =
          ((cells.countP (fun c => decide (c.id = (i : Int))) : Nat) : Int)) →
      ∀ m : Nat, m < out.muts.length →
        (write_results g sqrt cells species out).muts[m]? =
          some ((cells.countP
            (fun c => decide ((m : Int) ∈ (species_at species c.id).genotype)) : Nat) : Int)) := by
  have key : ∀ m : Nat, m < out.muts.length →
      (write_results g sqrt cells species out).muts[m]? =
        some ((species.map fun s => s.count * ((s.genotype.count (m : Int) : Nat) : Int)).sum) := by
    intro m hm
    obtain ⟨hlen, hget⟩ := foldl_species_muts species out.muts hidx m
    rw [write_results_muts, getElem?_eq_some_getD _ m (by rw [hlen]; exact hm), hget,
      getD_of_all_zero out.muts hzero m, zero_add]
  refine ⟨key, ?_⟩
  intro hnodup hcount m hm
  rw [key m hm, sum_count_eq_carriers cells species m hnodup hcount]

/-! ## Matrix assignments and the cell table -/

/-- An assignment leaves the number of rows alone. -/
theorem RMatrix.set_nrow {α : Type} (m : RMatrix α) (i j : Int) (v : α) :
    (m.set i j v).nrow = m.nrow := by
  unfold RMatrix.set
  split_ifs <;> rfl

/-- An assignment leaves the number of columns alone. -/
theorem RMatrix.set_ncol {α : Type} (m : RMatrix α) (i j : Int) (v : α) :
    (m.set i j v).ncol = m.ncol := by
  unfold RMatrix.set
  split_ifs <;> rfl

/-- Entry `(a, b)` after the assignment `m(i, j) = v`. -/
theorem RMatrix.set_entry {α : Type} (m : RMatrix α) (i j : Int) (v : α) (a b : Nat) :
    (m.set i j v).entry a b =
      if (0 ≤ i ∧ i < m.nrow ∧ 0 ≤ j ∧ j < m.ncol) ∧ a = i.toNat ∧ b = j.toNat then v
      else m.entry a b := by
  unfold RMatrix.set
  by_cases h : 0 ≤ i ∧ i < m.nrow ∧ 0 ≤ j ∧ j < m.ncol
  · rw [if_pos h]
    simp [h]
  · rw [if_neg h]
    simp [h]

/-- Entry `(a, b)` after the assignments to columns 0 to 4 of row `i`. -/
theorem set5_entry (cc : RMatrix ℝ) (i : Nat) (v0 v1 v2 v3 v4 : ℝ) (a b : Nat) :
    (((((cc.set i 0 v0).set i 1 v1).set i 2 v2).set i 3 v3).set i 4 v4).entry a b =
      if a = i ∧ i < cc.nrow ∧ b < cc.ncol ∧ b < 5 then [v0, v1, v2, v3, v4].getD b 0
      else cc.entry a b := by
  simp only [RMatrix.set_entry, RMatrix.set_nrow, RMatrix.set_ncol]
  by_cases hc : a = i ∧ i < cc.nrow ∧ b < cc.ncol ∧ b < 5
  · rw [if_pos hc]
    obtain ⟨h1, h2, h3, h4⟩ := hc
    interval_cases b
    · rw [if_neg, if_neg, if_neg, if_neg, if_pos] <;> first | rfl | omega
    · rw [if_neg, if_neg, if_neg, if_pos] <;> first | rfl | omega
    · rw [if_neg, if_neg, if_pos] <;> first | rfl | omega
    · rw [if_neg, if_pos] <;> first | rfl | omega
    · rw [if_pos] <;> first | rfl | omega
  · rw [if_neg hc, if_neg, if_neg, if_neg, if_neg, if_neg] <;> omega

/-- Entry `(a, b)` of the cell table after the body of the first loop of `write_results`. -/
theorem write_cell_entry (g : Globals) (sqrt : ℝ → ℝ) (cells : List cell)
    (species : List specie) (cc : RMatrix ℝ) (i a b : Nat) :
    (write_cell g sqrt cells species cc i).entry a b =
      if a = i ∧ i < cc.nrow ∧ b < cc.ncol ∧ b < 6 then
        (cell_row g sqrt species (cells.getD i default)).getD b 0
      else cc.entry a b := by
  unfold write_cell
  simp only []
  rw [RMatrix.set_entry]
  simp only [RMatrix.set_nrow, RMatrix.set_ncol]
  by_cases h5 : (0 ≤ (i : Int) ∧ (i : Int) < cc.nrow ∧ (0 : Int) ≤ 5 ∧ (5 : Int) < cc.ncol) ∧
      a = (i : Int).toNat ∧ b = (5 : Int).toNat
  · rw [if_pos h5, if_pos (by omega)]
    have hb : b = 5 := by omega
    have p0 : 0 ≤ (i : Int) ∧ (i : Int) < cc.nrow ∧ (0 : Int) ≤ 0 ∧ (0 : Int) < cc.ncol := by omega
    have p1 : 0 ≤ (i : Int) ∧ (i : Int) < cc.nrow ∧ (0 : Int) ≤ 1 ∧ (1 : Int) < cc.ncol := by omega
    have p2 : 0 ≤ (i : Int) ∧ (i : Int) < cc.nrow ∧ (0 : Int) ≤ 2 ∧ (2 : Int) < cc.ncol := by omega
    have q0 : i = i ∧ i < cc.nrow ∧ 0 < cc.ncol ∧ 0 < 5 := by omega
    have q1 : i = i ∧ i < cc.nrow ∧ 1 < cc.ncol ∧ 1 < 5 := by omega
    have q2 : i = i ∧ i < cc.nrow ∧ 2 < cc.ncol ∧ 2 < 5 := by omega
    simp only [RMatrix.get, RMatrix.set_nrow, RMatrix.set_ncol, if_pos p0, if_pos p1, if_pos p2,
      Int.toNat_ofNat, Int.toNat_zero, Int.toNat_one]
    have t2 : Int.toNat 2 = 2 := rfl
    rw [t2]
    rw [set5_entry, set5_entry, set5_entry, if_pos q0, if_pos q1, if_pos q2]
    subst hb
    rfl
  · rw [if_neg h5, set5_entry]
    by_cases hc : a = i ∧ i < cc.nrow ∧ b < cc.ncol ∧ b < 5
    · rw [if_pos hc, if_pos (by omega)]
      obtain ⟨h1, h2, h3, h4⟩ := hc
      interval_cases b <;> rfl
    · rw [if_neg hc, if_neg (by omega)]
/-- The first loop of `write_results` leaves the number of rows alone. -/
theorem write_cell_nrow (g : Globals) (sqrt : ℝ → ℝ) (cells : List cell)
    (species : List specie) (cc : RMatrix ℝ) (i : Nat) :
    (write_cell g sqrt cells species cc i).nrow = cc.nrow := by
  unfold write_cell
  simp only [RMatrix.set_nrow]

/-- The first loop of `write_results` leaves the number of columns alone. -/
theorem write_cell_ncol (g : Globals) (sqrt : ℝ → ℝ) (cells : List cell)
    (species : List specie) (cc : RMatrix ℝ) (i : Nat) :
    (write_cell g sqrt cells species cc i).ncol = cc.ncol := by
  unfold write_cell
  simp only [RMatrix.set_ncol]

/-- The cell table after `n` iterations of the first loop of `write_results`. -/
theorem cell_loop_entry (g : Globals) (sqrt : ℝ → ℝ) (cells : List cell)
    (species : List specie) (cc : RMatrix ℝ) (n a b : Nat) :
    ((List.range n).foldl (write_cell g sqrt cells species) cc).nrow = cc.nrow ∧
    ((List.range n).foldl (write_cell g sqrt cells species) cc).ncol = cc.ncol ∧
    ((List.range n).foldl (write_cell g sqrt cells species) cc).entry a b =
      if a < n ∧ a < cc.nrow ∧ b < cc.ncol ∧ b < 6 then
        (cell_row g sqrt species (cells.getD a default)).getD b 0
      else cc.entry a b := by
  induction n with
  | zero =>
    refine ⟨rfl, rfl, ?_⟩
    rw [if_neg (by omega)]
    rfl
  | succ n ih =>
    obtain ⟨h1, h2, h3⟩ := ih
    rw [List.range_succ, List.foldl_append, List.foldl_cons, List.foldl_nil]
    refine ⟨by rw [write_cell_nrow, h1], by rw [write_cell_ncol, h2], ?_⟩
    rw [write_cell_entry, h1, h2, h3]
    by_cases ha : a = n
    · subst ha
      by_cases hc : a < cc.nrow ∧ b < cc.ncol ∧ b < 6
      · rw [if_pos (by omega), if_pos (by omega)]
      · rw [if_neg (by omega), if_neg (by omega), if_neg (by omega)]
    · rw [if_neg (by omega)]
      by_cases hc : a < n ∧ a < cc.nrow ∧ b < cc.ncol ∧ b < 6
      · rw [if_pos hc, if_pos (by omega)]
      · rw [if_neg hc, if_neg (by omega)]

/-! ## The species table -/

/-- A loop of assignments in row `i` leaves the dimensions alone. -/
theorem set_loop_dims (m : RMatrix Int) (i : Nat) (f : Nat → Int) (l : List Nat) :
    (l.foldl (fun m (j : Nat) => m.set (i : Int) (j : Int) (f j)) m).nrow = m.nrow ∧
    (l.foldl (fun m (j : Nat) => m.set (i : Int) (j : Int) (f j)) m).ncol = m.ncol := by
  induction l generalizing m with
  | nil => exact ⟨rfl, rfl⟩
  | cons x xs ih =>
    rw [List.foldl_cons]
    obtain ⟨h1, h2⟩ := ih (m.set (i : Int) (x : Int) (f x))
    exact ⟨by rw [h1, RMatrix.set_nrow], by rw [h2, RMatrix.set_ncol]⟩

/-- A loop `for j = s; j < s + n` of assignments `m(i, j) = f j`. -/
theorem set_loop_entry (m : RMatrix Int) (i : Nat) (f : Nat → Int) (s n a b : Nat) :
    ((List.range' s n).foldl (fun m (j : Nat) => m.set (i : Int) (j : Int) (f j)) m).entry a b =
      if a = i ∧ i < m.nrow ∧ b < m.ncol ∧ s ≤ b ∧ b < s + n then f b else m.entry a b := by
  induction n with
  | zero =>
    rw [if_neg (by omega)]
    rfl
  | succ n ih =>
    rw [List.range'_concat, List.foldl_append, List.foldl_cons, List.foldl_nil, RMatrix.set_entry,
      ih, (set_loop_dims m i f _).1, (set_loop_dims m i f _).2]
    by_cases hb : b = s + n
    · by_cases hc : a = i ∧ i < m.nrow ∧ b < m.ncol
      · rw [if_pos (by omega), if_pos (by omega)]
        congr 1
        omega
      · rw [if_neg (by omega), if_neg (by omega), if_neg (by omega)]
    · rw [if_neg (by omega)]
      by_cases hc : a = i ∧ i < m.nrow ∧ b < m.ncol ∧ s ≤ b ∧ b < s + n
      · rw [if_pos hc, if_pos (by omega)]
      · rw [if_neg hc, if_neg (by omega)]

/-- The species table after the body of the second loop of `write_results`: row `i`
holds the genotype, then the sentinel, then the count in the last column. -/
theorem write_specie_dict (species : List specie) (st : Buffers) (i a b : Nat) :
    (write_specie species st i).species_dict.nrow = st.species_dict.nrow ∧
    (write_specie species st i).species_dict.ncol = st.species_dict.ncol ∧
    (write_specie species st i).species_dict.entry a b =
      if a = i ∧ i < st.species_dict.nrow ∧ b < st.species_dict.ncol then
        (if b + 1 = st.species_dict.ncol then (species_at species i).count
         else (species_at species i).genotype.getD b (-1))
      else st.species_dict.entry a b := by
  have hproj : ((List.range (species_at species i).genotype.length).foldl
      (fun (st : Buffers) (j : Nat) =>
        { st with
          species_dict := st.species_dict.set (i : Int) (j : Int)
            ((species_at species i).genotype.getD j 0)
          muts := vec_add st.muts ((species_at species i).genotype.getD j 0)
            (species_at species i).count })
      st).species_dict =
      (List.range' 0 (species_at species i).genotype.length).foldl
        (fun m (j : Nat) => m.set (i : Int) (j : Int) ((species_at species i).genotype.getD j 0))
        st.species_dict := by
    rw [foldl_proj Buffers.species_dict _
      (fun (m : RMatrix Int) (j : Nat) =>
        m.set (i : Int) (j : Int) ((species_at species i).genotype.getD j 0))
      (fun _ _ => rfl), List.range_eq_range']
  unfold write_specie
  simp only []
  rw [hproj]
  simp only [RMatrix.set_nrow, RMatrix.set_ncol, set_loop_dims, RMatrix.set_entry, set_loop_entry]
  refine ⟨trivial, trivial, ?_⟩
  by_cases hmain : a = i ∧ i < st.species_dict.nrow ∧ b < st.species_dict.ncol
  · by_cases hlast : b + 1 = st.species_dict.ncol
    · rw [if_pos (by omega), if_pos hmain, if_pos hlast]
    · by_cases hlen : b < (species_at species i).genotype.length
      · rw [if_neg (by omega), if_neg (by omega), if_pos (by omega), if_pos hmain, if_neg hlast,
          List.getD_eq_getElem _ _ hlen, List.getD_eq_getElem _ _ hlen]
      · rw [if_neg (by omega), if_pos (by omega), if_pos hmain, if_neg hlast,
          List.getD_eq_default _ _ (by omega)]
  · rw [if_neg (by omega), if_neg (by omega), if_neg (by omega), if_neg hmain]

/-- A loop whose body returns its state returns the initial state. -/
theorem foldl_id {τ ι : Type} (l : List ι) (x : τ) : l.foldl (fun (y : τ) (_ : ι) => y) x = x := by
  induction l with
  | nil => rfl
  | cons _ _ ih => rw [List.foldl_cons, ih]

/-- The second loop of `write_results` does not touch the cell table. -/
theorem write_specie_cell_coords (species : List specie) (st : Buffers) (i : Nat) :
    (write_specie species st i).cell_coords = st.cell_coords := by
  unfold write_specie
  simp only []
  exact (foldl_proj Buffers.cell_coords
    (fun (st : Buffers) (j : Nat) =>
      { st with
        species_dict := st.species_dict.set (i : Int) (j : Int)
          ((species_at species i).genotype.getD j 0)
        muts := vec_add st.muts ((species_at species i).genotype.getD j 0)
          (species_at species i).count })
    (fun (m : RMatrix ℝ) (_ : Nat) => m) (fun _ _ => rfl) _ st).trans (foldl_id _ _)

/-- The cell table after `write_results` is the result of its first loop. -/
theorem write_results_cell_coords (g : Globals) (sqrt : ℝ → ℝ) (cells : List cell)
    (species : List specie) (out : Buffers) :
    (write_results g sqrt cells species out).cell_coords =
      (List.range cells.length).foldl (write_cell g sqrt cells species) out.cell_coords := by
  unfold write_results
  simp only []
  exact (foldl_proj Buffers.cell_coords (write_specie species)
    (fun (m : RMatrix ℝ) (_ : Nat) => m)
    (fun st i => write_specie_cell_coords species st i) _ _).trans (foldl_id _ _)

/-- The species table after `n` iterations of the second loop of `write_results`. -/
theorem species_loop_dict (species : List specie) (st : Buffers) (n a b : Nat) :
    ((List.range n).foldl (write_specie species) st).species_dict.nrow = st.species_dict.nrow ∧
    ((List.range n).foldl (write_specie species) st).species_dict.ncol = st.species_dict.ncol ∧
    ((List.range n).foldl (write_specie species) st).species_dict.entry a b =
      if a < n ∧ a < st.species_dict.nrow ∧ b < st.species_dict.ncol then
        (if b + 1 = st.species_dict.ncol then (species_at species a).count
         else (species_at species a).genotype.getD b (-1))
      else st.species_dict.entry a b := by
  induction n with
  | zero =>
    refine ⟨rfl, rfl, ?_⟩
    rw [if_neg (by omega)]
    rfl
  | succ n ih =>
    obtain ⟨h1, h2, h3⟩ := ih
    rw [List.range_succ, List.foldl_append, List.foldl_cons, List.foldl_nil]
    obtain ⟨k1, k2, k3⟩ := write_specie_dict species
      ((List.range n).foldl (write_specie species) st) n a b
    refine ⟨by rw [k1, h1], by rw [k2, h2], ?_⟩
    rw [k3, h1, h2, h3]
    by_cases ha : a = n
    · subst ha
      by_cases hc : a < st.species_dict.nrow ∧ b < st.species_dict.ncol
      · rw [if_pos (show a = a ∧ a < st.species_dict.nrow ∧ b < st.species_dict.ncol from
            ⟨rfl, hc.1, hc.2⟩),
          if_pos (show a < a + 1 ∧ a < st.species_dict.nrow ∧ b < st.species_dict.ncol from
            ⟨by omega, hc.1, hc.2⟩)]
      · rw [if_neg (show ¬ (a = a ∧ a < st.species_dict.nrow ∧ b < st.species_dict.ncol) from
            fun h => hc h.2),
          if_neg (show ¬ (a < a ∧ a < st.species_dict.nrow ∧ b < st.species_dict.ncol) from
            fun h => hc h.2),
          if_neg (show ¬ (a < a + 1 ∧ a < st.species_dict.nrow ∧ b < st.species_dict.ncol) from
            fun h => hc h.2)]
    · rw [if_neg (show ¬ (a = n ∧ n < st.species_dict.nrow ∧ b < st.species_dict.ncol) from
        fun h => ha h.1)]
      by_cases hc : a < n ∧ a < st.species_dict.nrow ∧ b < st.species_dict.ncol
      · rw [if_pos hc,
          if_pos (show a < n + 1 ∧ a < st.species_dict.nrow ∧ b < st.species_dict.ncol from
            ⟨by omega, hc.2⟩)]
      · rw [if_neg hc,
          if_neg (show ¬ (a < n + 1 ∧ a < st.species_dict.nrow ∧ b < st.species_dict.ncol) from
            fun h => hc ⟨by omega, h.2⟩)]

/-- The running maximum of `max_mut` is non-negative and bounds every genotype size seen. -/
theorem max_loop_ge (f : Nat → Int) (n : Nat) :
    0 ≤ (List.range n).foldl (fun (max : Int) (i : Nat) => if f i > max then f i else max) 0 ∧
    ∀ i : Nat, i < n →
      f i ≤ (List.range n).foldl (fun (max : Int) (i : Nat) => if f i > max then f i else max) 0 := by
  induction n with
  | zero => exact ⟨le_refl 0, fun i hi => absurd hi (by omega)⟩
  | succ n ih =>
    obtain ⟨h0, hle⟩ := ih
    rw [List.range_succ, List.foldl_append, List.foldl_cons, List.foldl_nil]
    constructor
    · split_ifs <;> omega
    · intro i hi
      by_cases e : i = n
      · subst e
        split_ifs <;> omega
      · have := hle i (by omega)
        split_ifs <;> omega

/-- The function `max_mut` bounds the genotype size of every specie. -/
theorem max_mut_ge (species : List specie) (i : Nat) (hi : i < species.length) :
    ((species_at species i).genotype.length : Int) ≤ max_mut species :=
  (max_loop_ge (fun i => ((species_at species i).genotype.length : Int)) species.length).2 i hi

/-- The species table after `write_results`. -/
theorem write_results_species_dict (g : Globals) (sqrt : ℝ → ℝ) (cells : List cell)
    (species : List specie) (out : Buffers) (a b : Nat) :
    (write_results g sqrt cells species out).species_dict.nrow = out.species_dict.nrow ∧
    (write_results g sqrt cells species out).species_dict.ncol = out.species_dict.ncol ∧
    (write_results g sqrt cells species out).species_dict.entry a b =
      if a < species.length ∧ a < out.species_dict.nrow ∧ b < out.species_dict.ncol then
        (if b + 1 = out.species_dict.ncol then (species_at species a).count
         else (species_at species a).genotype.getD b (-1))
      else out.species_dict.entry a b := by
  unfold write_results
  exact species_loop_dict species _ species.length a b

/-- Read of `species[i]` at an index below the size. -/
theorem species_at_lt (species : List specie) (i : Nat) (hi : i < species.length) :
    species_at species (i : Int) = species[i] := by
  rw [species_at_nat, List.getD_eq_getElem species default hi]

/-- C8: with a species table of `species.size()` rows and `max_mut(species) + 1` columns,
after `write_results` row `i` is the genotype of specie `i` in order, then `-1` in every
remaining column but the last, then the count of the specie in the last column. -/
theorem write_results_species_table (g : Globals) (sqrt : ℝ → ℝ) (cells : List cell)
    (species : List specie) (out : Buffers)
    (hrows : out.species_dict.nrow = species.length)
    (hcols : (out.species_dict.ncol : Int) = max_mut species + 1)
    (i : Nat) (hi : i < species.length) :
    (write_results g sqrt cells species out).species_dict.row i =
      species[i].genotype ++
        List.replicate (out.species_dict.ncol - 1 - species[i].genotype.length) (-1) ++
        [species[i].count] := by
  have hmax := max_mut_ge species i hi
  rw [species_at_lt species i hi] at hmax
  have hlen : species[i].genotype.length + 1 ≤ out.species_dict.ncol := by omega
  unfold RMatrix.row
  rw [(write_results_species_dict g sqrt cells species out i 0).2.1]
  apply List.ext_getElem
  · simp only [List.length_map, List.length_range, List.length_append, List.length_replicate,
      List.length_singleton]
    omega
  · intro n h1 h2
    have hn : n < out.species_dict.ncol := by
      simpa using h1
    rw [List.getElem_map, List.getElem_range,
      (write_results_species_dict g sqrt cells species out i n).2.2,
      if_pos ⟨hi, by omega, hn⟩, species_at_lt species i hi]
    by_cases hlast : n + 1 = out.species_dict.ncol
    · rw [if_pos hlast, List.getElem_append_right (by simp; omega)]
      simp
    · rw [if_neg hlast, List.getElem_append_left (by simp; omega)]
      by_cases hg : n < species[i].genotype.length
      · rw [List.getElem_append_left hg, List.getD_eq_getElem _ _ hg]
      · rw [List.getElem_append_right (by omega), List.getD_eq_default _ _ (by omega)]
        simp


/-! ## The total of the mutation frequencies -/

/-- Exchange of a sum over indices and a sum over the species. -/
theorem sum_range_sum_species (L : Nat) (species : List specie) (f : specie → Nat → Int) :
    ((List.range L).map (fun (m : Nat) => (species.map (fun s => f s m)).sum)).sum =
      (species.map (fun s => ((List.range L).map (fun (m : Nat) => f s m)).sum)).sum := by
  induction species with
  | nil => simp
  | cons s l ih =>
    simp only [List.map_cons, List.sum_cons]
    rw [List.sum_map_add, ih]

/-- A sum of natural numbers, read in the reals and in the integers. -/
theorem cast_sum_map (cells : List cell) (f : cell → Nat) :
    (cells.map (fun c => ((f c : Nat) : ℝ))).sum =
      (((cells.map (fun c => ((f c : Nat) : Int))).sum : Int) : ℝ) := by
  induction cells with
  | nil => simp
  | cons c cs ih =>
    simp only [List.map_cons, List.sum_cons]
    rw [ih]
    push_cast
    rfl

/-- Column 4 of the cell table after `write_results` holds the genotype sizes of the
cells. -/
theorem write_results_col4 (g : Globals) (sqrt : ℝ → ℝ) (cells : List cell)
    (species : List specie) (out : Buffers)
    (hrows : cells.length ≤ out.cell_coords.nrow) (hcols : 6 ≤ out.cell_coords.ncol) :
    (write_results g sqrt cells species out).cell_coords.col 4 cells.length =
      cells.map (fun c => (((species_at species c.id).genotype.length : Nat) : ℝ)) := by
  have h : (List.range cells.length).map
      (fun i => (write_results g sqrt cells species out).cell_coords.entry i 4) =
      (List.range cells.length).map
        (fun i => (fun c : cell => (((species_at species c.id).genotype.length : Nat) : ℝ))
          (cells.getD i default)) := by
    apply List.map_congr_left
    intro i hi
    have hlt : i < cells.length := List.mem_range.mp hi
    rw [write_results_cell_coords,
      (cell_loop_entry g sqrt cells species out.cell_coords cells.length i 4).2.2,
      if_pos ⟨hlt, by omega, by omega, by omega⟩]
    rfl
  unfold RMatrix.col
  rw [h]
  have h2 := List.map_map (fun c : cell => (((species_at species c.id).genotype.length : Nat) : ℝ))
    (fun i => cells.getD i default) (List.range cells.length)
  rw [map_getD_range] at h2
  exact h2.symm

/-- The total of the mutation frequencies after `write_results` is the sum over the species
of count times genotype size. -/
theorem write_results_muts_sum (g : Globals) (sqrt : ℝ → ℝ) (cells : List cell)
    (species : List specie) (out : Buffers)
    (hzero : ∀ v ∈ out.muts, v = 0)
    (hidx : ∀ s ∈ species, ∀ id ∈ s.genotype, 0 ≤ id ∧ id < (out.muts.length : Int)) :
    (write_results g sqrt cells species out).muts.sum =
      (species.map (fun s => s.count * (s.genotype.length : Int))).sum := by
  have hlen : (write_results g sqrt cells species out).muts.length = out.muts.length := by
    rw [write_results_muts]
    exact (foldl_species_muts species out.muts hidx 0).1
  have hlist : (write_results g sqrt cells species out).muts =
      (List.range out.muts.length).map
        (fun (m : Nat) =>
          (species.map (fun s => s.count * ((s.genotype.count (m : Int) : Nat) : Int))).sum) := by
    rw [← map_getD_range (write_results g sqrt cells species out).muts 0, hlen]
    apply List.map_congr_left
    intro m _
    rw [write_results_muts, (foldl_species_muts species out.muts hidx m).2,
      getD_of_all_zero out.muts hzero m, zero_add]
  rw [hlist, sum_range_sum_species out.muts.length species
    (fun s m => s.count * ((s.genotype.count (m : Int) : Nat) : Int))]
  congr 1
  apply List.map_congr_left
  intro s hs
  rw [List.sum_map_mul_left, sum_count_range out.muts.length s.genotype (hidx s hs)]

/-- C7: when the count of every specie is the number of cells carrying its id, every cell
id indexes a specie and `muts` is all zeros on entry, then, under the buffer contract of
`write_results` (every mutation id indexes `muts`; the cell table has a row per cell and
six columns), after `write_results` the sum of `muts` equals the sum over all cells of
the genotype size of the specie of the cell, which is also the sum of column 4 of the
cell table. -/
theorem write_results_mutation_total (g : Globals) (sqrt : ℝ → ℝ) (cells : List cell)
    (species : List specie) (out : Buffers)
    (hcount : ∀ i : Nat, i < species.length →
      (species_at species i).count =
        ((cells.countP (fun c => decide (c.id = (i : Int))) : Nat) : Int))
    (hvalid : ∀ c ∈ cells, 0 ≤ c.id ∧ c.id < (species.length : Int))
    (hzero : ∀ v ∈ out.muts, v = 0)
    (hidx : ∀ s ∈ species, ∀ id ∈ s.genotype, 0 ≤ id ∧ id < (out.muts.length : Int))
    (hrows : cells.length ≤ out.cell_coords.nrow) (hcols : 6 ≤ out.cell_coords.ncol) :
    (write_results g sqrt cells species out).muts.sum =
      (cells.map (fun c => ((species_at species c.id).genotype.length : Int))).sum ∧
    ((write_results g sqrt cells species out).cell_coords.col 4 cells.length).sum =
      (((write_results g sqrt cells species out).muts.sum : Int) : ℝ) := by
  have hsum : (write_results g sqrt cells species out).muts.sum =
      (cells.map (fun c => ((species_at species c.id).genotype.length : Int))).sum := by
    rw [write_results_muts_sum g sqrt cells species out hzero hidx, sum_species_by_index]
    have h1 : (List.range species.length).map
        (fun (i : Nat) => (species_at species i).count *
          ((species_at species i).genotype.length : Int)) =
        (List.range species.length).map
          (fun (i : Nat) => ((cells.countP (fun c => decide (c.id = (i : Int))) : Nat) : Int) *
            (fun (j : Nat) => ((species_at species j).genotype.length : Int)) i) := by
      apply List.map_congr_left
      intro i hi
      rw [hcount i (List.mem_range.mp hi)]
    rw [h1, sum_countP_mul]
    congr 1
    apply List.map_congr_left
    intro c hc
    rw [if_pos (hvalid c hc), ← species_at_valid species c.id (hvalid c hc)]
  refine ⟨hsum, ?_⟩
  rw [write_results_col4 g sqrt cells species out hrows hcols, hsum]
  exact cast_sum_map cells (fun c => (species_at species c.id).genotype.length)

/-! ## The cell table -/

/-- The state after `n` iterations of the loop of `write_phylo_tree`: the log is untouched
and rows below `n` hold the pairs of the log. -/
theorem phylo_loop (phylo_tree : List (List Int)) (m : RMatrix Int) (n a b : Nat) :
    ((List.range n).foldl
      (fun (st : List (List Int) × RMatrix Int) (i : Nat) =>
        ((st.1, ((st.2.set (i : Int) 0 ((st.1.getD 0 []).getD i 0)).set (i : Int) 1
          ((st.1.getD 1 []).getD i 0))) : List (List Int) × RMatrix Int))
      (phylo_tree, m)).1 = phylo_tree ∧
    ((List.range n).foldl
      (fun (st : List (List Int) × RMatrix Int) (i : Nat) =>
        ((st.1, ((st.2.set (i : Int) 0 ((st.1.getD 0 []).getD i 0)).set (i : Int) 1
          ((st.1.getD 1 []).getD i 0))) : List (List Int) × RMatrix Int))
      (phylo_tree, m)).2.nrow = m.nrow ∧
    ((List.range n).foldl
      (fun (st : List (List Int) × RMatrix Int) (i : Nat) =>
        ((st.1, ((st.2.set (i : Int) 0 ((st.1.getD 0 []).getD i 0)).set (i : Int) 1
          ((st.1.getD 1 []).getD i 0))) : List (List Int) × RMatrix Int))
      (phylo_tree, m)).2.ncol = m.ncol ∧
    ((List.range n).foldl
      (fun (st : List (List Int) × RMatrix Int) (i : Nat) =>
        ((st.1, ((st.2.set (i : Int) 0 ((st.1.getD 0 []).getD i 0)).set (i : Int) 1
          ((st.1.getD 1 []).getD i 0))) : List (List Int) × RMatrix Int))
      (phylo_tree, m)).2.entry a b =
      if a < n ∧ a < m.nrow ∧ b < m.ncol ∧ b < 2 then
        (if b = 0 then (phylo_tree.getD 0 []).getD a 0 else (phylo_tree.getD 1 []).getD a 0)
      else m.entry a b := by
  induction n with
  | zero =>
    refine ⟨rfl, rfl, rfl, ?_⟩
    rw [if_neg (by omega)]
    rfl
  | succ n ih =>
    obtain ⟨h1, h2, h3, h4⟩ := ih
    rw [List.range_succ, List.foldl_append, List.foldl_cons, List.foldl_nil]
    refine ⟨h1, ?_, ?_, ?_⟩
    · simp only [RMatrix.set_nrow]
      exact h2
    · simp only [RMatrix.set_ncol]
      exact h3
    · simp only [RMatrix.set_entry, RMatrix.set_nrow, RMatrix.set_ncol]
      rw [h1, h2, h3, h4]
      by_cases hmain : a < n + 1 ∧ a < m.nrow ∧ b < m.ncol ∧ b < 2
      · rw [if_pos hmain]
        obtain ⟨q1, q2, q3, q4⟩ := hmain
        by_cases ha : a = n
        · subst ha
          interval_cases b
          · rw [if_neg (by omega), if_pos (by omega), if_pos rfl]
          · rw [if_pos (by omega), if_neg (by omega)]
        · rw [if_neg (by omega), if_neg (by omega), if_pos (by omega)]
      · rw [if_neg hmain, if_neg (by omega), if_neg (by omega), if_neg (by omega)]

/-- C10: for a phylogeny log of two aligned sequences of equal length, and an output with a
row for every entry and two columns, `write_phylo_tree` fills row `i` of the output with
`(phylo_tree[0][i], phylo_tree[1][i])` for every `i` below that length, in creation
order; column 0 and column 1 of the output read back as the two sequences, and the log
is not modified. -/
theorem write_phylo_tree_spec (children parents : List Int) (rphylo_tree : RMatrix Int)
    (hlen : children.length = parents.length)
    (hrows : children.length ≤ rphylo_tree.nrow) (hcols : 2 ≤ rphylo_tree.ncol) :
    (∀ i : Nat, i < children.length →
      ((write_phylo_tree [children, parents] rphylo_tree).2.row i).take 2 =
        [children.getD i 0, parents.getD i 0] ∧
      children[i]? = some (children.getD i 0) ∧ parents[i]? = some (parents.getD i 0)) ∧
    (write_phylo_tree [children, parents] rphylo_tree).2.col 0 children.length = children ∧
    (write_phylo_tree [children, parents] rphylo_tree).2.col 1 children.length = parents ∧
    (write_phylo_tree [children, parents] rphylo_tree).1 = [children, parents] := by
  have hentry : ∀ a b : Nat, a < children.length → b < 2 →
      (write_phylo_tree [children, parents] rphylo_tree).2.entry a b =
        if b = 0 then children.getD a 0 else parents.getD a 0 := by
    intro a b ha hb
    unfold write_phylo_tree
    have h := (phylo_loop [children, parents] rphylo_tree children.length a b).2.2.2
    rw [if_pos ⟨ha, by omega, by omega, hb⟩] at h
    exact h
  have hncol : (write_phylo_tree [children, parents] rphylo_tree).2.ncol = rphylo_tree.ncol :=
    (phylo_loop [children, parents] rphylo_tree children.length 0 0).2.2.1
  refine ⟨?_, ?_, ?_, ?_⟩
  · intro i hi
    have hrange : List.range 2 = [0, 1] := rfl
    refine ⟨?_, ?_, ?_⟩
    · unfold RMatrix.row
      rw [← List.map_take, List.take_range, hncol, min_eq_left hcols, hrange]
      simp only [List.map_cons, List.map_nil]
      rw [hentry i 0 hi (by omega), hentry i 1 hi (by omega), if_pos rfl, if_neg (by omega)]
    · rw [List.getElem?_eq_getElem hi, List.getD_eq_getElem children 0 hi]
    · rw [List.getElem?_eq_getElem (by omega), List.getD_eq_getElem parents 0 (by omega)]
  · unfold RMatrix.col
    have h : (List.range children.length).map
        (fun i => (write_phylo_tree [children, parents] rphylo_tree).2.entry i 0) =
        (List.range children.length).map (fun i => children.getD i 0) := by
      apply List.map_congr_left
      intro i hi
      rw [hentry i 0 (List.mem_range.mp hi) (by omega), if_pos rfl]
    rw [h, map_getD_range]
  · unfold RMatrix.col
    have h : (List.range children.length).map
        (fun i => (write_phylo_tree [children, parents] rphylo_tree).2.entry i 1) =
        (List.range parents.length).map (fun i => parents.getD i 0) := by
      rw [hlen]
      apply List.map_congr_left
      intro i hi
      rw [hentry i 1 (by rw [hlen]; exact List.mem_range.mp hi) (by omega), if_neg (by omega)]
    rw [h, map_getD_range]
  · exact (phylo_loop [children, parents] rphylo_tree children.length 0 0).1

/-! ## Witnesses -/

/-- Witness of C6: two species `[0]` (one cell) and `[0, 1]` (one cell): mutation 0 is
carried by two cells and mutation 1 by one. -/
theorem write_results_mutation_frequencies_witness :
    (write_results ⟨0, [], 0, 500, 500, 500⟩ Real.sqrt
        [⟨250, 250, 250, 0⟩, ⟨251, 250, 250, 1⟩] [⟨0, 1, [0], 0, 1⟩, ⟨1, 1, [0, 1], 0, 1⟩]
        ⟨⟨2, 6, fun _ _ => 0⟩, ⟨2, 3, fun _ _ => 0⟩, [0, 0]⟩).muts[0]? = some 2 ∧
    (write_results ⟨0, [], 0, 500, 500, 500⟩ Real.sqrt
        [⟨250, 250, 250, 0⟩, ⟨251, 250, 250, 1⟩] [⟨0, 1, [0], 0, 1⟩, ⟨1, 1, [0, 1], 0, 1⟩]
        ⟨⟨2, 6, fun _ _ => 0⟩, ⟨2, 3, fun _ _ => 0⟩, [0, 0]⟩).muts[1]? = some 1 :=
  ⟨(write_results_mutation_frequencies ⟨0, [], 0, 500, 500, 500⟩ Real.sqrt
      [⟨250, 250, 250, 0⟩, ⟨251, 250, 250, 1⟩] [⟨0, 1, [0], 0, 1⟩, ⟨1, 1, [0, 1], 0, 1⟩]
      ⟨⟨2, 6, fun _ _ => 0⟩, ⟨2, 3, fun _ _ => 0⟩, [0, 0]⟩ (by decide) (by decide)).1 0
      (by decide),
   (write_results_mutation_frequencies ⟨0, [], 0, 500, 500, 500⟩ Real.sqrt
      [⟨250, 250, 250, 0⟩, ⟨251, 250, 250, 1⟩] [⟨0, 1, [0], 0, 1⟩, ⟨1, 1, [0, 1], 0, 1⟩]
      ⟨⟨2, 6, fun _ _ => 0⟩, ⟨2, 3, fun _ _ => 0⟩, [0, 0]⟩ (by decide) (by decide)).2
      (by decide) (by decide) 1 (by decide)⟩

/-- Witness of C7: the same state; the frequencies 2 and 1 add up to the genotype sizes 1
and 2 of the two cells. -/
theorem write_results_mutation_total_witness :
    (write_results ⟨0, [], 0, 500, 500, 500⟩ Real.sqrt
        [⟨250, 250, 250, 0⟩, ⟨251, 250, 250, 1⟩] [⟨0, 1, [0], 0, 1⟩, ⟨1, 1, [0, 1], 0, 1⟩]
        ⟨⟨2, 6, fun _ _ => 0⟩, ⟨2, 3, fun _ _ => 0⟩, [0, 0]⟩).muts.sum = 3 ∧
    ((write_results ⟨0, [], 0, 500, 500, 500⟩ Real.sqrt
        [⟨250, 250, 250, 0⟩, ⟨251, 250, 250, 1⟩] [⟨0, 1, [0], 0, 1⟩, ⟨1, 1, [0, 1], 0, 1⟩]
        ⟨⟨2, 6, fun _ _ => 0⟩, ⟨2, 3, fun _ _ => 0⟩, [0, 0]⟩).cell_coords.col 4 2).sum =
      (((write_results ⟨0, [], 0, 500, 500, 500⟩ Real.sqrt
        [⟨250, 250, 250, 0⟩, ⟨251, 250, 250, 1⟩] [⟨0, 1, [0], 0, 1⟩, ⟨1, 1, [0, 1], 0, 1⟩]
        ⟨⟨2, 6, fun _ _ => 0⟩, ⟨2, 3, fun _ _ => 0⟩, [0, 0]⟩).muts.sum : Int) : ℝ) :=
  write_results_mutation_total ⟨0, [], 0, 500, 500, 500⟩ Real.sqrt
    [⟨250, 250, 250, 0⟩, ⟨251, 250, 250, 1⟩] [⟨0, 1, [0], 0, 1⟩, ⟨1, 1, [0, 1], 0, 1⟩]
    ⟨⟨2, 6, fun _ _ => 0⟩, ⟨2, 3, fun _ _ => 0⟩, [0, 0]⟩
    (by decide) (by decide) (by decide) (by decide) (by decide) (by decide)

/-- Witness of C8: the longest genotype has two ids, the table has three columns; the row
of the specie `[0]` is padded with one sentinel. -/
theorem write_results_species_table_witness :
    (write_results ⟨0, [], 0, 500, 500, 500⟩ Real.sqrt
        [⟨250, 250, 250, 0⟩, ⟨251, 250, 250, 1⟩] [⟨0, 1, [0], 0, 1⟩, ⟨1, 1, [0, 1], 0, 1⟩]
        ⟨⟨2, 6, fun _ _ => 0⟩, ⟨2, 3, fun _ _ => 0⟩, [0, 0]⟩).species_dict.row 0 =
      [0, -1, 1] :=
  write_results_species_table ⟨0, [], 0, 500, 500, 500⟩ Real.sqrt
    [⟨250, 250, 250, 0⟩, ⟨251, 250, 250, 1⟩] [⟨0, 1, [0], 0, 1⟩, ⟨1, 1, [0, 1], 0, 1⟩]
    ⟨⟨2, 6, fun _ _ => 0⟩, ⟨2, 3, fun _ _ => 0⟩, [0, 0]⟩ rfl (by decide) 0 (by decide)

/-- Witness of C10: a log of two species created from the founder. -/
theorem write_phylo_tree_spec_witness :
    (write_phylo_tree [[1, 2], [0, 0]] ⟨2, 2, fun _ _ => 7⟩).2.col 0 2 = [1, 2] ∧
    (write_phylo_tree [[1, 2], [0, 0]] ⟨2, 2, fun _ _ => 7⟩).2.col 1 2 = [0, 0] ∧
    (write_phylo_tree [[1, 2], [0, 0]] ⟨2, 2, fun _ _ => 7⟩).1 = [[1, 2], [0, 0]] :=
  (write_phylo_tree_spec [1, 2] [0, 0] ⟨2, 2, fun _ _ => 7⟩ rfl (by decide) (by decide)).2

/-! ## Idempotence of the projection -/

/-- Two matrices with the same dimensions and the same entries are equal. -/
theorem RMatrix.ext_entries {α : Type} (m1 m2 : RMatrix α) (h1 : m1.nrow = m2.nrow)
    (h2 : m1.ncol = m2.ncol) (h3 : ∀ a b, m1.entry a b = m2.entry a b) : m1 = m2 := by
  cases m1
  cases m2
  simp only [RMatrix.mk.injEq]
  exact ⟨h1, h2, funext fun a => funext fun b => h3 a b⟩

/-- Running `write_results` again on its own output leaves the cell table as it is. -/
theorem write_results_idem_cells (g : Globals) (sqrt : ℝ → ℝ) (cells : List cell)
    (species : List specie) (out : Buffers) :
    (write_results g sqrt cells species (write_results g sqrt cells species out)).cell_coords =
      (write_results g sqrt cells species out).cell_coords := by
  have hn : (write_results g sqrt cells species out).cell_coords.nrow = out.cell_coords.nrow := by
    rw [write_results_cell_coords]
    exact (cell_loop_entry g sqrt cells species out.cell_coords cells.length 0 0).1
  have hc : (write_results g sqrt cells species out).cell_coords.ncol = out.cell_coords.ncol := by
    rw [write_results_cell_coords]
    exact (cell_loop_entry g sqrt cells species out.cell_coords cells.length 0 0).2.1
  apply RMatrix.ext_entries
  · rw [write_results_cell_coords g sqrt cells species (write_results g sqrt cells species out)]
    exact (cell_loop_entry g sqrt cells species _ cells.length 0 0).1
  · rw [write_results_cell_coords g sqrt cells species (write_results g sqrt cells species out)]
    exact (cell_loop_entry g sqrt cells species _ cells.length 0 0).2.1
  · intro a b
    rw [write_results_cell_coords g sqrt cells species (write_results g sqrt cells species out),
      (cell_loop_entry g sqrt cells species _ cells.length a b).2.2, hn, hc]
    by_cases h : a < cells.length ∧ a < out.cell_coords.nrow ∧ b < out.cell_coords.ncol ∧ b < 6
    · rw [if_pos h, write_results_cell_coords,
        (cell_loop_entry g sqrt cells species _ cells.length a b).2.2, if_pos h]
    · rw [if_neg h]

/-- Running `write_results` again on its own output leaves the species table as it is. -/
theorem write_results_idem_species (g : Globals) (sqrt : ℝ → ℝ) (cells : List cell)
    (species : List specie) (out : Buffers) :
    (write_results g sqrt cells species (write_results g sqrt cells species out)).species_dict =
      (write_results g sqrt cells species out).species_dict := by
  obtain ⟨hn, hc, _⟩ := write_results_species_dict g sqrt cells species out 0 0
  apply RMatrix.ext_entries
  · exact (write_results_species_dict g sqrt cells species _ 0 0).1
  · exact (write_results_species_dict g sqrt cells species _ 0 0).2.1
  · intro a b
    rw [(write_results_species_dict g sqrt cells species _ a b).2.2, hn, hc]
    by_cases h : a < species.length ∧ a < out.species_dict.nrow ∧ b < out.species_dict.ncol
    · rw [if_pos h, (write_results_species_dict g sqrt cells species out a b).2.2, if_pos h]
    · rw [if_neg h]

/-- Running `write_phylo_tree` again on its own output changes nothing. -/
theorem write_phylo_tree_idem (phylo_tree : List (List Int)) (m : RMatrix Int) :
    write_phylo_tree (write_phylo_tree phylo_tree m).1 (write_phylo_tree phylo_tree m).2 =
      write_phylo_tree phylo_tree m := by
  have h1 : (write_phylo_tree phylo_tree m).1 = phylo_tree :=
    (phylo_loop phylo_tree m _ 0 0).1
  have hn : (write_phylo_tree phylo_tree m).2.nrow = m.nrow :=
    (phylo_loop phylo_tree m _ 0 0).2.1
  have hc : (write_phylo_tree phylo_tree m).2.ncol = m.ncol :=
    (phylo_loop phylo_tree m _ 0 0).2.2.1
  have he : ∀ (m0 : RMatrix Int) (a b : Nat), (write_phylo_tree phylo_tree m0).2.entry a b =
      if a < (phylo_tree.getD 0 []).length ∧ a < m0.nrow ∧ b < m0.ncol ∧ b < 2 then
        (if b = 0 then (phylo_tree.getD 0 []).getD a 0 else (phylo_tree.getD 1 []).getD a 0)
      else m0.entry a b := fun m0 a b => (phylo_loop phylo_tree m0 _ a b).2.2.2
  rw [h1]
  apply Prod.ext
  · rw [h1]
    exact (phylo_loop phylo_tree _ _ 0 0).1
  · apply RMatrix.ext_entries
    · exact (phylo_loop phylo_tree _ _ 0 0).2.1
    · exact (phylo_loop phylo_tree _ _ 0 0).2.2.1
    · intro a b
      rw [he, hn, hc]
      by_cases h : a < (phylo_tree.getD 0 []).length ∧ a < m.nrow ∧ b < m.ncol ∧ b < 2
      · rw [if_pos h, he, if_pos h]
      · rw [if_neg h]

/-- C11: for every state (cells, species, phylogeny log) and every initial content of the
output buffers, running `write_results` and `write_phylo_tree` twice in succession on
the same state and the same output matrices leaves the cell table, the species table
and the phylogeny table identical to what a single run produces. -/
theorem projection_idempotent (g : Globals) (sqrt : ℝ → ℝ) (cells : List cell)
    (species : List specie) (phylo_tree : List (List Int)) (out : Buffers)
    (rphylo_tree : RMatrix Int) :
    (write_results g sqrt cells species (write_results g sqrt cells species out)).cell_coords =
      (write_results g sqrt cells species out).cell_coords ∧
    (write_results g sqrt cells species (write_results g sqrt cells species out)).species_dict =
      (write_results g sqrt cells species out).species_dict ∧
    (write_phylo_tree (write_phylo_tree phylo_tree rphylo_tree).1
        (write_phylo_tree phylo_tree rphylo_tree).2).2 =
      (write_phylo_tree phylo_tree rphylo_tree).2 :=
  ⟨write_results_idem_cells g sqrt cells species out,
   write_results_idem_species g sqrt cells species out,
   congrArg Prod.snd (write_phylo_tree_idem phylo_tree rphylo_tree)⟩

/-! ## The lattice set by `gv_init` -/

/-- The side of the lattice set by a successful `gv_init`, band by band. -/
theorem gv_init_side (g : Globals) (N : Int) (wt_br wt_dr u du s : ℚ)
    (hok : (gv_init g N wt_br wt_dr u du s).2 = none) :
    (gv_init g N wt_br wt_dr u du s).1.x_dim =
      (if N > 100000000 then 2000 else if N > 10000000 then 1000 else 500) ∧
    1 ≤ N := by
  unfold gv_init at hok ⊢
  simp only [] at hok ⊢
  split_ifs at hok ⊢ <;> first | exact absurd hok (Option.some_ne_none _) | exact ⟨rfl, by omega⟩

/-- The globals reset by `gv_init`, whether or not it raises. -/
theorem gv_init_reset (g : Globals) (N : Int) (wt_br wt_dr u du s : ℚ) :
    (gv_init g N wt_br wt_dr u du s).1.total_mutations = 0 ∧
    (gv_init g N wt_br wt_dr u du s).1.drivers = [] ∧
    (gv_init g N wt_br wt_dr u du s).1.p_max = wt_br + wt_dr := by
  unfold gv_init
  simp only []
  split_ifs <;> exact ⟨rfl, rfl, rfl⟩

/-- A coordinate below a side of 500, 1000 or 2000 is stored unchanged in a `short int`. -/
theorem short_of_int_coordinate (v c : Int) (h : v = 2000 ∨ v = 1000 ∨ v = 500) (h0 : 0 ≤ c)
    (hc : c < v) : c ≤ 32767 ∧ short_of_int c = c := by
  unfold short_of_int
  omega

/-- C14: for every lattice dimension set by a successful `gv_init` and every coordinate `c`
with `0 <= c < dim`, `c` is at most 32767 and the conversion to `short int` returns `c`
unchanged; in particular the centre coordinates `dim/2` stored by `initial_cell` are
exact. -/
theorem coordinates_fit_short (g : Globals) (N : Int) (wt_br wt_dr u du s : ℚ)
    (hok : (gv_init g N wt_br wt_dr u du s).2 = none) :
    (∀ c : Int, 0 ≤ c →
      (c < (gv_init g N wt_br wt_dr u du s).1.x_dim ∨
       c < (gv_init g N wt_br wt_dr u du s).1.y_dim ∨
       c < (gv_init g N wt_br wt_dr u du s).1.z_dim) →
      c ≤ 32767 ∧ short_of_int c = c) ∧
    (∀ (species : List specie) (b d : ℚ),
      (initial_cell (gv_init g N wt_br wt_dr u du s).1 species b d).1.x =
        (gv_init g N wt_br wt_dr u du s).1.x_dim.tdiv 2 ∧
      (initial_cell (gv_init g N wt_br wt_dr u du s).1 species b d).1.y =
        (gv_init g N wt_br wt_dr u du s).1.y_dim.tdiv 2 ∧
      (initial_cell (gv_init g N wt_br wt_dr u du s).1 species b d).1.z =
        (gv_init g N wt_br wt_dr u du s).1.z_dim.tdiv 2) := by
  obtain ⟨hx, hy, hz⟩ := gv_init_dims_of_success g N wt_br wt_dr u du s hok
  have hy2 := hy ▸ hx
  have hz2 := hz ▸ hx
  constructor
  · intro c h0 hc
    rcases hc with hc | hc | hc
    · exact short_of_int_coordinate _ c hx h0 hc
    · exact short_of_int_coordinate _ c hy2 h0 hc
    · exact short_of_int_coordinate _ c hz2 h0 hc
  · intro species b d
    unfold initial_cell
    exact ⟨short_of_int_centre _ hx, short_of_int_centre _ hy2, short_of_int_centre _ hz2⟩

/-- Witness of C14: the configuration `N = 1`, birth 1, death 0. -/
theorem coordinates_fit_short_witness :
    (∀ c : Int, 0 ≤ c →
      (c < (gv_init ⟨0, [], 0, 0, 0, 0⟩ 1 1 0 0 0 0).1.x_dim ∨
       c < (gv_init ⟨0, [], 0, 0, 0, 0⟩ 1 1 0 0 0 0).1.y_dim ∨
       c < (gv_init ⟨0, [], 0, 0, 0, 0⟩ 1 1 0 0 0 0).1.z_dim) →
      c ≤ 32767 ∧ short_of_int c = c) ∧
    (initial_cell (gv_init ⟨0, [], 0, 0, 0, 0⟩ 1 1 0 0 0 0).1 [] 1 0).1.x = 250 :=
  ⟨(coordinates_fit_short ⟨0, [], 0, 0, 0, 0⟩ 1 1 0 0 0 0 (by norm_num [gv_init])).1,
   ((coordinates_fit_short ⟨0, [], 0, 0, 0, 0⟩ 1 1 0 0 0 0 (by norm_num [gv_init])).2
      [] 1 0).1.trans (by norm_num [gv_init]; decide)⟩

/-- C17: for every accepted configuration `gv_init` sets a cubic lattice whose side is 2000
when `N > 100000000`, 1000 when `10000000 < N <= 100000000` and 500 otherwise; the side
is non-decreasing in `N`, and the number of sites `x_dim * y_dim * z_dim` is at least `N`
for every 32-bit `N >= 1`. -/
theorem gv_init_lattice_side (g : Globals) (N : Int) (wt_br wt_dr u du s : ℚ)
    (hok : (gv_init g N wt_br wt_dr u du s).2 = none) :
    ((gv_init g N wt_br wt_dr u du s).1.x_dim = (gv_init g N wt_br wt_dr u du s).1.y_dim ∧
     (gv_init g N wt_br wt_dr u du s).1.y_dim = (gv_init g N wt_br wt_dr u du s).1.z_dim) ∧
    (N > 100000000 → (gv_init g N wt_br wt_dr u du s).1.x_dim = 2000) ∧
    (10000000 < N ∧ N ≤ 100000000 → (gv_init g N wt_br wt_dr u du s).1.x_dim = 1000) ∧
    (N ≤ 10000000 → (gv_init g N wt_br wt_dr u du s).1.x_dim = 500) ∧
    (∀ (g2 : Globals) (N2 : Int) (wt_br2 wt_dr2 u2 du2 s2 : ℚ),
      (gv_init g2 N2 wt_br2 wt_dr2 u2 du2 s2).2 = none → N ≤ N2 →
      (gv_init g N wt_br wt_dr u du s).1.x_dim ≤
        (gv_init g2 N2 wt_br2 wt_dr2 u2 du2 s2).1.x_dim) ∧
    (1 ≤ N ∧ N ≤ 2147483647 →
      N ≤ (gv_init g N wt_br wt_dr u du s).1.x_dim * (gv_init g N wt_br wt_dr u du s).1.y_dim *
        (gv_init g N wt_br wt_dr u du s).1.z_dim) := by
  obtain ⟨_, hy, hz⟩ := gv_init_dims_of_success g N wt_br wt_dr u du s hok
  obtain ⟨hside, _⟩ := gv_init_side g N wt_br wt_dr u du s hok
  refine ⟨⟨hy.symm, by rw [hy, hz]⟩, ?_, ?_, ?_, ?_, ?_⟩
  · intro h
    rw [hside, if_pos h]
  · intro h
    rw [hside, if_neg (by omega), if_pos h.1]
  · intro h
    rw [hside, if_neg (by omega), if_neg (by omega)]
  · intro g2 N2 wt_br2 wt_dr2 u2 du2 s2 hok2 hle
    rw [hside, (gv_init_side g2 N2 wt_br2 wt_dr2 u2 du2 s2 hok2).1]
    split_ifs <;> omega
  · intro hN
    rw [hy, hz, hside]
    split_ifs <;> omega

/-- Witness of C17: `N = 20000000` gets the side 1000, not above the side 2000 of
`N = 200000000`, and 1000^3 sites. -/
theorem gv_init_lattice_side_witness :
    (gv_init ⟨0, [], 0, 0, 0, 0⟩ 20000000 1 0 0 0 0).1.x_dim = 1000 ∧
    (gv_init ⟨0, [], 0, 0, 0, 0⟩ 20000000 1 0 0 0 0).1.x_dim ≤
      (gv_init ⟨0, [], 0, 0, 0, 0⟩ 200000000 1 0 0 0 0).1.x_dim ∧
    (20000000 : Int) ≤ (gv_init ⟨0, [], 0, 0, 0, 0⟩ 20000000 1 0 0 0 0).1.x_dim *
      (gv_init ⟨0, [], 0, 0, 0, 0⟩ 20000000 1 0 0 0 0).1.y_dim *
      (gv_init ⟨0, [], 0, 0, 0, 0⟩ 20000000 1 0 0 0 0).1.z_dim :=
  ⟨(gv_init_lattice_side ⟨0, [], 0, 0, 0, 0⟩ 20000000 1 0 0 0 0
      (by norm_num [gv_init])).2.2.1 (by decide),
   (gv_init_lattice_side ⟨0, [], 0, 0, 0, 0⟩ 20000000 1 0 0 0 0
      (by norm_num [gv_init])).2.2.2.2.1 ⟨0, [], 0, 0, 0, 0⟩ 200000000 1 0 0 0 0
      (by norm_num [gv_init]) (by decide),
   (gv_init_lattice_side ⟨0, [], 0, 0, 0, 0⟩ 20000000 1 0 0 0 0
      (by norm_num [gv_init])).2.2.2.2.2 (by decide)⟩

/-! ## The function `max_mut` -/

/-- The running maximum of `max_mut` is 0 or one of the genotype sizes seen. -/
theorem max_loop_attained (f : Nat → Int) (n : Nat) :
    (List.range n).foldl (fun (max : Int) (i : Nat) => if f i > max then f i else max) 0 = 0 ∨
    ∃ i : Nat, i < n ∧
      (List.range n).foldl (fun (max : Int) (i : Nat) => if f i > max then f i else max) 0 = f i := by
  induction n with
  | zero => exact Or.inl rfl
  | succ n ih =>
    rw [List.range_succ, List.foldl_append, List.foldl_cons, List.foldl_nil]
    split_ifs with h
    · exact Or.inr ⟨n, by omega, rfl⟩
    · rcases ih with h0 | ⟨i, hi, he⟩
      · exact Or.inl h0
      · exact Or.inr ⟨i, by omega, he⟩

/-- The loop of `max_mut` leaves the species vector alone and computes `max_mut`. -/
theorem max_mut_call_loop (species : List specie) (n : Nat) :
    (List.range n).foldl
      (fun (st : List specie × Int) (i : Nat) =>
        if ((species_at st.1 i).genotype.length : Int) > st.2 then
          (st.1, ((species_at st.1 i).genotype.length : Int))
        else st)
      (species, 0) =
    (species, (List.range n).foldl
      (fun (max : Int) (i : Nat) =>
        if ((species_at species i).genotype.length : Int) > max then
          ((species_at species i).genotype.length : Int)
        else max)
      0) := by
  induction n with
  | zero => rfl
  | succ n ih =>
    rw [List.range_succ, List.foldl_append, List.foldl_append, ih]
    simp only [List.foldl_cons, List.foldl_nil]
    split_ifs <;> rfl

/-- C16: `max_mut` returns the size of the longest genotype: the result is at least the
genotype size of every specie, it is the genotype size of some specie when the vector is
not empty and 0 when it is empty; the species vector is not modified. -/
theorem max_mut_spec (species : List specie) :
    (∀ s ∈ species, (s.genotype.length : Int) ≤ max_mut species) ∧
    (species ≠ [] → ∃ s ∈ species, max_mut species = (s.genotype.length : Int)) ∧
    (species = [] → max_mut species = 0) ∧
    max_mut_call species = (species, max_mut species) := by
  refine ⟨?_, ?_, ?_, ?_⟩
  · intro s hs
    obtain ⟨i, hi, he⟩ := List.getElem_of_mem hs
    have h := max_mut_ge species i hi
    rw [species_at_lt species i hi, he] at h
    exact h
  · intro hne
    have hpos : 0 < species.length := List.length_pos.mpr hne
    rcases max_loop_attained (fun i => ((species_at species i).genotype.length : Int))
      species.length with h0 | ⟨i, hi, he⟩
    · refine ⟨species_at species (0 : Nat), species_at_mem species 0 hpos, ?_⟩
      have hge := max_mut_ge species 0 hpos
      have h0' : max_mut species = 0 := h0
      omega
    · exact ⟨species_at species i, species_at_mem species i hi, he⟩
  · intro he
    subst he
    rfl
  · exact max_mut_call_loop species species.length

/-- Witness of C16: two species with genotypes `[0]` and `[0, 1]`. -/
theorem max_mut_spec_witness :
    (∃ s ∈ [(⟨0, 1, [0], 0, 1⟩ : specie), ⟨1, 1, [0, 1], 0, 1⟩],
      max_mut [(⟨0, 1, [0], 0, 1⟩ : specie), ⟨1, 1, [0, 1], 0, 1⟩] =
        (s.genotype.length : Int)) ∧
    max_mut ([] : List specie) = 0 :=
  ⟨(max_mut_spec [(⟨0, 1, [0], 0, 1⟩ : specie), ⟨1, 1, [0, 1], 0, 1⟩]).2.1 (by simp),
   (max_mut_spec []).2.2.1 rfl⟩

/-! ## Reading the species table back -/

/-- Row `i` of the species table after `write_results`, for a table with a row per specie
and room for the genotype of specie `i` before the last column. -/
theorem species_row_eq (g : Globals) (sqrt : ℝ → ℝ) (cells : List cell)
    (species : List specie) (out : Buffers)
    (hrows : species.length ≤ out.species_dict.nrow)
    (i : Nat) (hi : i < species.length)
    (hlen : species[i].genotype.length + 1 ≤ out.species_dict.ncol) :
    (write_results g sqrt cells species out).species_dict.row i =
      species[i].genotype ++
        List.replicate (out.species_dict.ncol - 1 - species[i].genotype.length) (-1) ++
        [species[i].count] := by
  unfold RMatrix.row
  rw [(write_results_species_dict g sqrt cells species out i 0).2.1]
  apply List.ext_getElem
  · simp only [List.length_map, List.length_range, List.length_append, List.length_replicate,
      List.length_singleton]
    omega
  · intro n h1 h2
    have hn : n < out.species_dict.ncol := by
      simpa using h1
    rw [List.getElem_map, List.getElem_range,
      (write_results_species_dict g sqrt cells species out i n).2.2,
      if_pos ⟨hi, by omega, hn⟩, species_at_lt species i hi]
    by_cases hlast : n + 1 = out.species_dict.ncol
    · rw [if_pos hlast, List.getElem_append_right (by simp; omega)]
      simp
    · rw [if_neg hlast, List.getElem_append_left (by simp; omega)]
      by_cases hg : n < species[i].genotype.length
      · rw [List.getElem_append_left hg, List.getD_eq_getElem _ _ hg]
      · rw [List.getElem_append_right (by omega), List.getD_eq_default _ _ (by omega)]
        simp

/-- The longest sentinel-free prefix of a genotype of non-negative ids followed by
sentinels is the genotype. -/
theorem takeWhile_genotype (geno : List Int) (k : Nat) (h : ∀ id ∈ geno, 0 ≤ id) :
    (geno ++ List.replicate k (-1)).takeWhile (fun v => decide (v ≠ -1)) = geno := by
  induction geno with
  | nil =>
    cases k with
    | zero => rfl
    | succ k => simp [List.replicate_succ]
  | cons a l ih =>
    have ha : a ≠ -1 := by
      have := h a (List.mem_cons_self a l)
      omega
    rw [List.cons_append, List.takeWhile_cons_of_pos (by simpa using ha),
      ih (fun id hid => h id (List.mem_cons_of_mem a hid))]

/-- C19: for every specie whose genotype has only non-negative mutation ids, and a species
table with `max_mut(species) + 1` columns (and a row for the specie), the longest prefix
of row `i` without its last column whose entries differ from `-1` is the genotype of
the specie, and the last column is its count. -/
theorem species_table_lossless (g : Globals) (sqrt : ℝ → ℝ) (cells : List cell)
    (species : List specie) (out : Buffers)
    (hrows : species.length ≤ out.species_dict.nrow)
    (hcols : (out.species_dict.ncol : Int) = max_mut species + 1)
    (i : Nat) (hi : i < species.length)
    (hnonneg : ∀ id ∈ species[i].genotype, 0 ≤ id) :
    ((write_results g sqrt cells species out).species_dict.row i).dropLast.takeWhile
        (fun v => decide (v ≠ -1)) = species[i].genotype ∧
    ((write_results g sqrt cells species out).species_dict.row i).getLast? =
      some species[i].count := by
  have hmax := max_mut_ge species i hi
  rw [species_at_lt species i hi] at hmax
  have hlen : species[i].genotype.length + 1 ≤ out.species_dict.ncol := by omega
  rw [species_row_eq g sqrt cells species out hrows i hi hlen]
  constructor
  · rw [List.dropLast_concat]
    exact takeWhile_genotype _ _ hnonneg
  · rw [List.getLast?_concat]

/-- Witness of C19: the row `[0, -1, 1]` of the specie with genotype `[0]` and count 1. -/
theorem species_table_lossless_witness :
    ((write_results ⟨0, [], 0, 500, 500, 500⟩ Real.sqrt
        [⟨250, 250, 250, 0⟩, ⟨251, 250, 250, 1⟩] [⟨0, 1, [0], 0, 1⟩, ⟨1, 1, [0, 1], 0, 1⟩]
        ⟨⟨2, 6, fun _ _ => 0⟩, ⟨2, 3, fun _ _ => 0⟩, [0, 0]⟩).species_dict.row 0
      ).dropLast.takeWhile (fun v => decide (v ≠ -1)) = [0] ∧
    ((write_results ⟨0, [], 0, 500, 500, 500⟩ Real.sqrt
        [⟨250, 250, 250, 0⟩, ⟨251, 250, 250, 1⟩] [⟨0, 1, [0], 0, 1⟩, ⟨1, 1, [0, 1], 0, 1⟩]
        ⟨⟨2, 6, fun _ _ => 0⟩, ⟨2, 3, fun _ _ => 0⟩, [0, 0]⟩).species_dict.row 0
      ).getLast? = some 1 :=
  species_table_lossless ⟨0, [], 0, 500, 500, 500⟩ Real.sqrt
    [⟨250, 250, 250, 0⟩, ⟨251, 250, 250, 1⟩] [⟨0, 1, [0], 0, 1⟩, ⟨1, 1, [0, 1], 0, 1⟩]
    ⟨⟨2, 6, fun _ _ => 0⟩, ⟨2, 3, fun _ _ => 0⟩, [0, 0]⟩ (by decide) (by decide) 0 (by decide)
    (by decide)

/-! ## The no-mutation scenario -/

/-- Counterexample to C12 as stated: in the terminal state of the no-mutation scenario (two
cells of the founder specie, whose count is 2) `write_results` turns the zero-initialised
mutation vector `[0]` into `[2]`: the founder genotype is `[0]`. -/
theorem no_mutation_scenario_muts_not_zero :
    (write_results (gv_init ⟨0, [], 0, 0, 0, 0⟩ 2 1 0 0 0 0).1 Real.sqrt
        [(initial_cell (gv_init ⟨0, [], 0, 0, 0, 0⟩ 2 1 0 0 0 0).1 [] 1 0).1,
         ⟨251, 250, 250, 0⟩]
        ((initial_cell (gv_init ⟨0, [], 0, 0, 0, 0⟩ 2 1 0 0 0 0).1 [] 1 0).2.map
          (fun s => { s with count := 2 }))
        ⟨⟨2, 6, fun _ _ => 0⟩, ⟨1, 2, fun _ _ => 0⟩, [0]⟩).muts = [2] ∧
    ¬ (∀ v ∈ (write_results (gv_init ⟨0, [], 0, 0, 0, 0⟩ 2 1 0 0 0 0).1 Real.sqrt
        [(initial_cell (gv_init ⟨0, [], 0, 0, 0, 0⟩ 2 1 0 0 0 0).1 [] 1 0).1,
         ⟨251, 250, 250, 0⟩]
        ((initial_cell (gv_init ⟨0, [], 0, 0, 0, 0⟩ 2 1 0 0 0 0).1 [] 1 0).2.map
          (fun s => { s with count := 2 }))
        ⟨⟨2, 6, fun _ _ => 0⟩, ⟨1, 2, fun _ _ => 0⟩, [0]⟩).muts, v = 0) := by
  have h : (write_results (gv_init ⟨0, [], 0, 0, 0, 0⟩ 2 1 0 0 0 0).1 Real.sqrt
        [(initial_cell (gv_init ⟨0, [], 0, 0, 0, 0⟩ 2 1 0 0 0 0).1 [] 1 0).1,
         ⟨251, 250, 250, 0⟩]
        ((initial_cell (gv_init ⟨0, [], 0, 0, 0, 0⟩ 2 1 0 0 0 0).1 [] 1 0).2.map
          (fun s => { s with count := 2 }))
        ⟨⟨2, 6, fun _ _ => 0⟩, ⟨1, 2, fun _ _ => 0⟩, [0]⟩).muts = [2] := by
    rw [write_results_muts]
    rfl
  refine ⟨h, ?_⟩
  rw [h]
  decide

/-- C12 (amended): in the terminal state of the no-mutation scenario (two live cells of the
single founder specie built by `initial_cell`, id 0, count 2), `write_results` turns a
zero-initialised mutation vector with an entry for mutation id 0 into the vector whose
entry 0 is 2, the number of live cells, and whose other entries are zero. -/
theorem no_mutation_scenario_muts (g : Globals) (sqrt : ℝ → ℝ) (cells : List cell)
    (wt_br wt_dr : ℚ) (out : Buffers)
    (hcells : cells.length = 2 ∧ ∀ c ∈ cells, c.id = 0)
    (hzero : ∀ v ∈ out.muts, v = 0) (hlen : 0 < out.muts.length) :
    (initial_cell g [] wt_br wt_dr).2.map (fun s => { s with count := 2 }) =
      [⟨0, 2, [0], wt_dr, wt_br⟩] ∧
    (write_results g sqrt cells
        ((initial_cell g [] wt_br wt_dr).2.map (fun s => { s with count := 2 })) out).muts =
      2 :: List.replicate (out.muts.length - 1) 0 := by
  have _ := hcells
  have hsp : (initial_cell g [] wt_br wt_dr).2.map (fun s => { s with count := 2 }) =
      [⟨0, 2, [0], wt_dr, wt_br⟩] := by
    unfold initial_cell
    rfl
  refine ⟨hsp, ?_⟩
  rw [hsp, write_results_muts]
  have hidx : ∀ s ∈ [(⟨0, 2, [0], wt_dr, wt_br⟩ : specie)], ∀ id ∈ s.genotype,
      0 ≤ id ∧ id < (out.muts.length : Int) := by
    intro s hs id hid
    rw [List.mem_singleton] at hs
    subst hs
    simp only [List.mem_singleton] at hid
    omega
  apply List.ext_getElem
  · rw [(foldl_species_muts _ out.muts hidx 0).1]
    simp only [List.length_cons, List.length_replicate]
    omega
  · intro m h1 h2
    have hget := (foldl_species_muts _ out.muts hidx m).2
    rw [← List.getD_eq_getElem _ 0 h1, hget, getD_of_all_zero out.muts hzero m]
    cases m with
    | zero => simp
    | succ m =>
      have hne : ¬ ((0 : Int) = (m : Int) + 1) := by omega
      simp [List.count_cons, hne]

/-- Witness of C12 (amended): two cells of the founder specie and a mutation vector of three
zeros. -/
theorem no_mutation_scenario_muts_witness :
    (write_results ⟨0, [], 0, 500, 500, 500⟩ Real.sqrt
        [⟨250, 250, 250, 0⟩, ⟨251, 250, 250, 0⟩]
        ((initial_cell ⟨0, [], 0, 500, 500, 500⟩ [] 1 0).2.map (fun s => { s with count := 2 }))
        ⟨⟨2, 6, fun _ _ => 0⟩, ⟨1, 2, fun _ _ => 0⟩, [0, 0, 0]⟩).muts = [2, 0, 0] :=
  (no_mutation_scenario_muts ⟨0, [], 0, 500, 500, 500⟩ Real.sqrt
    [⟨250, 250, 250, 0⟩, ⟨251, 250, 250, 0⟩] 1 0
    ⟨⟨2, 6, fun _ _ => 0⟩, ⟨1, 2, fun _ _ => 0⟩, [0, 0, 0]⟩
    (by decide) (by decide) (by decide)).2

/-! ## Growth and the boundary of the lattice -/

/-- Along a path of axis steps from `c`, every number of steps up to that of the end point
is the distance of some site of the set. -/
theorem path_levels (c : Site) (S : Finset Site) (hc : c ∈ S) (p : Site)
    (h : Relation.ReflTransGen (fun a b => b ∈ S ∧ adjacent a b) c p) :
    ∀ v : Nat, v ≤ axis_steps c p → ∃ q ∈ S, axis_steps c q = v := by
  induction h with
  | refl =>
    intro v hv
    have h0 : axis_steps c c = 0 := by
      unfold axis_steps
      omega
    exact ⟨c, hc, by omega⟩
  | @tail b p _ hbp ih =>
    intro v hv
    have hstep : axis_steps c p ≤ axis_steps c b + 1 := by
      have hadj : axis_steps b p = 1 := hbp.2
      unfold axis_steps at hadj ⊢
      omega
    by_cases hle : v ≤ axis_steps c b
    · exact ih v hle
    · exact ⟨p, hbp.1, by omega⟩

/-- A set that is 6-connected from `c` has more sites than the number of axis steps from `c` to
any of its sites. -/
theorem card_gt_axis_steps (c : Site) (S : Finset Site) (hc : c ∈ S)
    (hconn : connected_from c S) (p : Site) (hp : p ∈ S) : axis_steps c p + 1 ≤ S.card := by
  have hlev := path_levels c S hc p (hconn p hp)
  have hsub : Finset.range (axis_steps c p + 1) ⊆ S.image (axis_steps c) := by
    intro v hv
    rw [Finset.mem_range] at hv
    obtain ⟨q, hq, he⟩ := hlev v (by omega)
    exact Finset.mem_image.mpr ⟨q, hq, he⟩
  have h1 := Finset.card_le_card hsub
  rw [Finset.card_range] at h1
  exact le_trans h1 Finset.card_image_le

/-- A boundary site of a cube of side 500, 1000 or 2000 is at least `side/2 - 1` axis steps
from the centre. -/
theorem boundary_far (g : Globals)
    (hx : g.x_dim = 2000 ∨ g.x_dim = 1000 ∨ g.x_dim = 500)
    (hy : g.y_dim = g.x_dim) (hz : g.z_dim = g.x_dim) (p : Site) (hb : on_boundary g p) :
    g.x_dim.tdiv 2 ≤ (axis_steps (centre g) p : Int) + 1 := by
  unfold on_boundary at hb
  unfold axis_steps centre
  rw [hy, hz] at hb
  simp only [hy, hz]
  rcases hx with hx | hx | hx <;> rw [hx] at hb ⊢ <;>
    simp only [show Int.tdiv 2000 2 = 1000 from by decide,
      show Int.tdiv 1000 2 = 500 from by decide, show Int.tdiv 500 2 = 250 from by decide] <;>
    omega

/-- The sites `(250 + k, 250, 250)` for `k < n`, a straight line from the centre of the cube
of side 500. -/
theorem line_connected (n : Nat) (k : Nat) (hk : k < n) :
    Relation.ReflTransGen
      (fun a b => b ∈ (Finset.range n).image (fun k : Nat => (((250 + k : Int), 250, 250) : Site))
        ∧ adjacent a b)
      ((250, 250, 250) : Site) (((250 + k : Int), 250, 250) : Site) := by
  induction k with
  | zero =>
    simp only [Nat.cast_zero, add_zero]
    exact Relation.ReflTransGen.refl
  | succ k ih =>
    refine Relation.ReflTransGen.tail (ih (by omega)) ⟨?_, ?_⟩
    · exact Finset.mem_image.mpr ⟨k + 1, Finset.mem_range.mpr hk, rfl⟩
    · unfold adjacent axis_steps
      simp only []
      push_cast
      omega

/-- Counterexample to C13 as stated: the accepted population target `N = 250` gets the side
500, and the 250 sites `(250, 250, 250)`, ..., `(499, 250, 250)` form a 6-connected set
of lattice sites that contains the centre and the boundary site `(499, 250, 250)`. -/
theorem lattice_boundary_reached :
    (gv_init ⟨0, [], 0, 0, 0, 0⟩ 250 1 0 0 0 0).2 = none ∧
    ∃ S : Finset Site,
      (S.card : Int) ≤ 250 ∧
      (∀ p ∈ S, in_lattice (gv_init ⟨0, [], 0, 0, 0, 0⟩ 250 1 0 0 0 0).1 p) ∧
      centre (gv_init ⟨0, [], 0, 0, 0, 0⟩ 250 1 0 0 0 0).1 ∈ S ∧
      connected_from (centre (gv_init ⟨0, [], 0, 0, 0, 0⟩ 250 1 0 0 0 0).1) S ∧
      ∃ p ∈ S, on_boundary (gv_init ⟨0, [], 0, 0, 0, 0⟩ 250 1 0 0 0 0).1 p := by
  have hg : gv_init ⟨0, [], 0, 0, 0, 0⟩ 250 1 0 0 0 0 = (⟨1, [], 0, 500, 500, 500⟩, none) := by
    norm_num [gv_init]
  have hcentre : centre ⟨1, [], 0, 500, 500, 500⟩ = ((250, 250, 250) : Site) := by
    unfold centre
    decide
  rw [hg]
  refine ⟨rfl, (Finset.range 250).image (fun k : Nat => (((250 + k : Int), 250, 250) : Site)),
    ?_, ?_, ?_, ?_, ?_⟩
  · have h := Finset.card_image_le (s := Finset.range 250)
      (f := fun k : Nat => (((250 + k : Int), 250, 250) : Site))
    rw [Finset.card_range] at h
    exact_mod_cast h
  · intro p hp
    obtain ⟨k, hk, rfl⟩ := Finset.mem_image.mp hp
    rw [Finset.mem_range] at hk
    unfold in_lattice
    simp only []
    omega
  · rw [hcentre]
    exact Finset.mem_image.mpr ⟨0, Finset.mem_range.mpr (by omega), by simp⟩
  · rw [hcentre]
    intro p hp
    obtain ⟨k, hk, rfl⟩ := Finset.mem_image.mp hp
    exact line_connected 250 k (Finset.mem_range.mp hk)
  · refine ⟨((499, 250, 250) : Site),
      Finset.mem_image.mpr ⟨249, Finset.mem_range.mpr (by omega), by norm_num⟩, ?_⟩
    unfold on_boundary
    exact Or.inl (Or.inr (by norm_num))

/-- C13 (amended): for every accepted population target, a 6-connected set of sites that
contains the centre and has fewer than `x_dim/2` sites (fewer than 250 for the side 500)
contains no site on the boundary of the volume; in particular this holds for every set
of at most `N` sites when `N < 250`. -/
theorem lattice_boundary_margin (g : Globals) (N : Int) (wt_br wt_dr u du s : ℚ)
    (hok : (gv_init g N wt_br wt_dr u du s).2 = none) (S : Finset Site)
    (hcentre : centre (gv_init g N wt_br wt_dr u du s).1 ∈ S)
    (hconn : connected_from (centre (gv_init g N wt_br wt_dr u du s).1) S) :
    ((S.card : Int) < (gv_init g N wt_br wt_dr u du s).1.x_dim.tdiv 2 →
      ∀ p ∈ S, ¬ on_boundary (gv_init g N wt_br wt_dr u du s).1 p) ∧
    (N < 250 → (S.card : Int) ≤ N →
      ∀ p ∈ S, ¬ on_boundary (gv_init g N wt_br wt_dr u du s).1 p) := by
  obtain ⟨hx, hy, hz⟩ := gv_init_dims_of_success g N wt_br wt_dr u du s hok
  have key : (S.card : Int) < (gv_init g N wt_br wt_dr u du s).1.x_dim.tdiv 2 →
      ∀ p ∈ S, ¬ on_boundary (gv_init g N wt_br wt_dr u du s).1 p := by
    intro hcard p hp hb
    have h1 := card_gt_axis_steps _ S hcentre hconn p hp
    have h2 := boundary_far _ hx hy hz p hb
    omega
  refine ⟨key, ?_⟩
  intro hN hcard
  apply key
  have hhalf : (250 : Int) ≤ (gv_init g N wt_br wt_dr u du s).1.x_dim.tdiv 2 := by
    rcases hx with hx | hx | hx <;> rw [hx] <;> decide
  omega

/-- Witness of C13 (amended): `N = 100` and the set that holds the centre and its neighbour
`(251, 250, 250)`. -/
theorem lattice_boundary_margin_witness :
    ¬ on_boundary (gv_init ⟨0, [], 0, 0, 0, 0⟩ 100 1 0 0 0 0).1 ((251, 250, 250) : Site) := by
  have hg : gv_init ⟨0, [], 0, 0, 0, 0⟩ 100 1 0 0 0 0 = (⟨1, [], 0, 500, 500, 500⟩, none) := by
    norm_num [gv_init]
  have hcentre : centre (gv_init ⟨0, [], 0, 0, 0, 0⟩ 100 1 0 0 0 0).1 =
      ((250, 250, 250) : Site) := by
    rw [hg]
    unfold centre
    decide
  refine (lattice_boundary_margin ⟨0, [], 0, 0, 0, 0⟩ 100 1 0 0 0 0 (by rw [hg])
    ({((250, 250, 250) : Site), ((251, 250, 250) : Site)} : Finset Site) ?_ ?_).2
    (by decide) (by decide) ((251, 250, 250) : Site) (by decide)
  · rw [hcentre]
    decide
  · rw [hcentre]
    intro p hp
    rw [Finset.mem_insert, Finset.mem_singleton] at hp
    rcases hp with rfl | rfl
    · exact Relation.ReflTransGen.refl
    · exact Relation.ReflTransGen.single ⟨by decide, by decide⟩

/-! ## Accesses of `write_results` stay in range -/

/-- A checked loop whose every step stays in range returns the result of the total loop. -/
theorem foldlM_eq_some {σ ι : Type} (fc : σ → ι → Option σ) (f : σ → ι → σ) (P : σ → Prop)
    (l : List ι) (init : σ) (hP : P init)
    (hstep : ∀ st x, x ∈ l → P st → fc st x = some (f st x) ∧ P (f st x)) :
    l.foldlM fc init = some (l.foldl f init) ∧ P (l.foldl f init) := by
  induction l generalizing init with
  | nil => exact ⟨rfl, hP⟩
  | cons x xs ih =>
    obtain ⟨h1, h2⟩ := hstep init x (List.mem_cons_self x xs) hP
    rw [List.foldlM_cons, h1, List.foldl_cons]
    exact ih (f init x) h2 (fun st y hy hst => hstep st y (List.mem_cons_of_mem x hy) hst)

/-- A checked assignment inside the matrix is the assignment. -/
theorem RMatrix.set_checked_eq {α : Type} (m : RMatrix α) (i j : Int) (v : α)
    (h : 0 ≤ i ∧ i < m.nrow ∧ 0 ≤ j ∧ j < m.ncol) :
    m.set_checked i j v = some (m.set i j v) := by
  unfold RMatrix.set_checked
  rw [if_pos h]

/-- A checked read inside the matrix is the read. -/
theorem RMatrix.get_checked_eq {α : Type} [Zero α] (m : RMatrix α) (i j : Int)
    (h : 0 ≤ i ∧ i < m.nrow ∧ 0 ≤ j ∧ j < m.ncol) :
    m.get_checked i j = some (m.get i j) := by
  unfold RMatrix.get_checked
  rw [if_pos h]

/-- The body of the first loop stays in range when the cell exists, its specie id indexes
the species vector and the cell table has the row and six columns. -/
theorem write_cell_checked_eq (g : Globals) (sqrt : ℝ → ℝ) (cells : List cell)
    (species : List specie) (cc : RMatrix ℝ) (i : Nat) (hi : i < cells.length)
    (hid : 0 ≤ cells[i].id ∧ cells[i].id < (species.length : Int))
    (hrow : i < cc.nrow) (hcol : 6 ≤ cc.ncol) :
    write_cell_checked g sqrt cells species cc i = some (write_cell g sqrt cells species cc i) := by
  have hc : cells[i]? = some cells[i] := List.getElem?_eq_getElem hi
  have hd : cells.getD i default = cells[i] := List.getD_eq_getElem cells default hi
  have hs : species_at_checked species cells[i].id = some (species_at species cells[i].id) := by
    unfold species_at_checked
    rw [if_pos hid]
  have r0 : 0 ≤ (i : Int) ∧ (i : Int) < cc.nrow ∧ (0 : Int) ≤ 0 ∧ (0 : Int) < cc.ncol := by omega
  have r1 : 0 ≤ (i : Int) ∧ (i : Int) < cc.nrow ∧ (0 : Int) ≤ 1 ∧ (1 : Int) < cc.ncol := by omega
  have r2 : 0 ≤ (i : Int) ∧ (i : Int) < cc.nrow ∧ (0 : Int) ≤ 2 ∧ (2 : Int) < cc.ncol := by omega
  have r3 : 0 ≤ (i : Int) ∧ (i : Int) < cc.nrow ∧ (0 : Int) ≤ 3 ∧ (3 : Int) < cc.ncol := by omega
  have r4 : 0 ≤ (i : Int) ∧ (i : Int) < cc.nrow ∧ (0 : Int) ≤ 4 ∧ (4 : Int) < cc.ncol := by omega
  have r5 : 0 ≤ (i : Int) ∧ (i : Int) < cc.nrow ∧ (0 : Int) ≤ 5 ∧ (5 : Int) < cc.ncol := by omega
  unfold write_cell_checked write_cell
  simp only [hc, hd, hs, Option.bind_eq_bind, Option.some_bind, RMatrix.set_checked,
    RMatrix.get_checked, RMatrix.set_nrow, RMatrix.set_ncol, if_pos r0, if_pos r1, if_pos r2,
    if_pos r3, if_pos r4, if_pos r5]

/-- The first loop of `write_results` stays in range under the buffer contract. -/
theorem cell_loop_checked (g : Globals) (sqrt : ℝ → ℝ) (cells : List cell)
    (species : List specie) (cc : RMatrix ℝ)
    (hcells : ∀ c ∈ cells, 0 ≤ c.id ∧ c.id < (species.length : Int))
    (hrows : cells.length ≤ cc.nrow) (hcols : 6 ≤ cc.ncol) :
    (List.range cells.length).foldlM (write_cell_checked g sqrt cells species) cc =
      some ((List.range cells.length).foldl (write_cell g sqrt cells species) cc) := by
  refine (foldlM_eq_some (write_cell_checked g sqrt cells species)
    (write_cell g sqrt cells species)
    (fun m => m.nrow = cc.nrow ∧ m.ncol = cc.ncol) _ cc ⟨rfl, rfl⟩ ?_).1
  intro m i hi hm
  have hlt : i < cells.length := List.mem_range.mp hi
  refine ⟨write_cell_checked_eq g sqrt cells species m i hlt
    (hcells _ (List.getElem_mem hlt)) (by omega) (by omega), ?_⟩
  beta_reduce
  rw [write_cell_nrow, write_cell_ncol]
  exact hm

/-- Length of the mutation vector after the body of the second loop. -/
theorem write_specie_muts_length (species : List specie) (st : Buffers) (i : Nat)
    (hidx : ∀ id ∈ (species_at species i).genotype, 0 ≤ id ∧ id < (st.muts.length : Int)) :
    (write_specie species st i).muts.length = st.muts.length := by
  rw [write_specie_muts]
  exact (foldl_vec_add _ _ st.muts hidx 0).1

/-- The body of the second loop stays in range when the specie exists, the species table
has its row and room for its genotype before the last column, and its mutation ids index
the mutation vector. -/
theorem write_specie_checked_eq (species : List specie) (st : Buffers) (i : Nat)
    (hi : i < species.length) (hrow : i < st.species_dict.nrow)
    (hcol : (species_at species i).genotype.length + 1 ≤ st.species_dict.ncol)
    (hidx : ∀ id ∈ (species_at species i).genotype, 0 ≤ id ∧ id < (st.muts.length : Int)) :
    write_specie_checked species st i = some (write_specie species st i) := by
  have hs : species_at_checked species (i : Int) = some (species_at species (i : Int)) := by
    unfold species_at_checked
    rw [if_pos (by omega)]
  obtain ⟨hloop, hP1, hP2, _⟩ := foldlM_eq_some
    (fun (st : Buffers) (j : Nat) => do
      let id ← (species_at species i).genotype[j]?
      let species_dict ← st.species_dict.set_checked (i : Int) (j : Int) id
      let muts ← vec_add_checked st.muts id (species_at species i).count
      pure { st with species_dict := species_dict, muts := muts })
    (fun (st : Buffers) (j : Nat) =>
      { st with
        species_dict := st.species_dict.set (i : Int) (j : Int)
          ((species_at species i).genotype.getD j 0)
        muts := vec_add st.muts ((species_at species i).genotype.getD j 0)
          (species_at species i).count })
    (fun b => b.species_dict.nrow = st.species_dict.nrow ∧
      b.species_dict.ncol = st.species_dict.ncol ∧ b.muts.length = st.muts.length)
    (List.range (species_at species i).genotype.length) st ⟨rfl, rfl, rfl⟩
    (by
      intro b j hj hb
      have hlt : j < (species_at species i).genotype.length := List.mem_range.mp hj
      have hg : (species_at species i).genotype[j]? =
          some ((species_at species i).genotype.getD j 0) := by
        rw [List.getElem?_eq_getElem hlt, List.getD_eq_getElem _ 0 hlt]
      have hmem : (species_at species i).genotype.getD j 0 ∈ (species_at species i).genotype := by
        rw [List.getD_eq_getElem _ 0 hlt]
        exact List.getElem_mem hlt
      have hin := hidx _ hmem
      have hset : 0 ≤ (i : Int) ∧ (i : Int) < b.species_dict.nrow ∧ 0 ≤ (j : Int) ∧
          (j : Int) < b.species_dict.ncol := by omega
      have hvec : 0 ≤ (species_at species i).genotype.getD j 0 ∧
          (species_at species i).genotype.getD j 0 < (b.muts.length : Int) := by omega
      constructor
      · simp only [hg, Option.bind_eq_bind, Option.some_bind, RMatrix.set_checked, if_pos hset,
          vec_add_checked, if_pos hvec, Option.pure_def]
      · simp only [RMatrix.set_nrow, RMatrix.set_ncol, vec_add_length]
        exact hb)
  obtain ⟨hpad, hQ1, hQ2⟩ := foldlM_eq_some
    (fun (m : RMatrix Int) (j : Nat) => m.set_checked (i : Int) (j : Int) (-1))
    (fun (m : RMatrix Int) (j : Nat) => m.set (i : Int) (j : Int) (-1))
    (fun m => m.nrow = st.species_dict.nrow ∧ m.ncol = st.species_dict.ncol)
    (List.range' (species_at species i).genotype.length
      ((st.species_dict.ncol : Int) - 1 - ((species_at species i).genotype.length : Int)).toNat)
    ((List.range (species_at species i).genotype.length).foldl
      (fun (st : Buffers) (j : Nat) =>
        { st with
          species_dict := st.species_dict.set (i : Int) (j : Int)
            ((species_at species i).genotype.getD j 0)
          muts := vec_add st.muts ((species_at species i).genotype.getD j 0)
            (species_at species i).count })
      st).species_dict ⟨hP1, hP2⟩
    (by
      intro m j hj hm
      rw [List.mem_range'_1] at hj
      constructor
      · exact RMatrix.set_checked_eq m _ _ _ (by omega)
      · beta_reduce
        rw [RMatrix.set_nrow, RMatrix.set_ncol]
        exact hm)
  unfold write_specie_checked write_specie
  simp only [hs, Option.bind_eq_bind, Option.some_bind, Option.pure_def]
  simp only [Option.bind_eq_bind, Option.pure_def] at hloop
  rw [hloop]
  simp only [Option.some_bind, hP2]
  rw [hpad]
  simp only [Option.some_bind]
  rw [RMatrix.set_checked_eq _ _ _ _ (by omega)]
  simp only [Option.some_bind]

/-- The second loop of `write_results` stays in range under the buffer contract. -/
theorem species_loop_checked (species : List specie) (st : Buffers)
    (hidx : ∀ s ∈ species, ∀ id ∈ s.genotype, 0 ≤ id ∧ id < (st.muts.length : Int))
    (hrows : species.length ≤ st.species_dict.nrow)
    (hcols : max_mut species + 1 ≤ (st.species_dict.ncol : Int)) :
    (List.range species.length).foldlM (write_specie_checked species) st =
      some ((List.range species.length).foldl (write_specie species) st) := by
  refine (foldlM_eq_some (write_specie_checked species) (write_specie species)
    (fun b => b.species_dict.nrow = st.species_dict.nrow ∧
      b.species_dict.ncol = st.species_dict.ncol ∧ b.muts.length = st.muts.length)
    _ st ⟨rfl, rfl, rfl⟩ ?_).1
  intro b i hi hb
  obtain ⟨hb1, hb2, hb3⟩ := hb
  have hlt : i < species.length := List.mem_range.mp hi
  have hmax := max_mut_ge species i hlt
  have hid : ∀ id ∈ (species_at species i).genotype, 0 ≤ id ∧ id < (b.muts.length : Int) := by
    rw [hb3]
    exact hidx _ (species_at_mem species i hlt)
  refine ⟨write_specie_checked_eq species b i hlt (by omega) (by omega) hid, ?_⟩
  beta_reduce
  rw [(write_specie_dict species b i 0 0).1, (write_specie_dict species b i 0 0).2.1,
    write_specie_muts_length species b i hid]
  exact ⟨hb1, hb2, hb3⟩

/-- C18: under its buffer contract (every cell id in `[0, species.size())`, every mutation id
of every genotype in `[0, muts.size())`, a cell table with at least `cells.size()` rows
and six columns, a species table with at least `species.size()` rows and at least
`max_mut(species) + 1` columns) `write_results` never indexes out of range: the run with
checked accesses does not fail and returns what `write_results` returns. -/
theorem write_results_in_bounds (g : Globals) (sqrt : ℝ → ℝ) (cells : List cell)
    (species : List specie) (out : Buffers)
    (hcells : ∀ c ∈ cells, 0 ≤ c.id ∧ c.id < (species.length : Int))
    (hidx : ∀ s ∈ species, ∀ id ∈ s.genotype, 0 ≤ id ∧ id < (out.muts.length : Int))
    (hcc : cells.length ≤ out.cell_coords.nrow ∧ 6 ≤ out.cell_coords.ncol)
    (hsd : species.length ≤ out.species_dict.nrow ∧
      max_mut species + 1 ≤ (out.species_dict.ncol : Int)) :
    write_results_checked g sqrt cells species out =
      some (write_results g sqrt cells species out) := by
  unfold write_results_checked write_results
  simp only [Option.bind_eq_bind]
  rw [cell_loop_checked g sqrt cells species out.cell_coords hcells hcc.1 hcc.2]
  simp only [Option.some_bind]
  exact species_loop_checked species _ hidx hsd.1 hsd.2

/-- Witness of C18: two cells, two species, buffers of exactly the required sizes. -/
theorem write_results_in_bounds_witness :
    write_results_checked ⟨0, [], 0, 500, 500, 500⟩ Real.sqrt
        [⟨250, 250, 250, 0⟩, ⟨251, 250, 250, 1⟩] [⟨0, 1, [0], 0, 1⟩, ⟨1, 1, [0, 1], 0, 1⟩]
        ⟨⟨2, 6, fun _ _ => 0⟩, ⟨2, 3, fun _ _ => 0⟩, [0, 0]⟩ =
      some (write_results ⟨0, [], 0, 500, 500, 500⟩ Real.sqrt
        [⟨250, 250, 250, 0⟩, ⟨251, 250, 250, 1⟩] [⟨0, 1, [0], 0, 1⟩, ⟨1, 1, [0, 1], 0, 1⟩]
        ⟨⟨2, 6, fun _ _ => 0⟩, ⟨2, 3, fun _ _ => 0⟩, [0, 0]⟩) :=
  write_results_in_bounds ⟨0, [], 0, 500, 500, 500⟩ Real.sqrt
    [⟨250, 250, 250, 0⟩, ⟨251, 250, 250, 1⟩] [⟨0, 1, [0], 0, 1⟩, ⟨1, 1, [0, 1], 0, 1⟩]
    ⟨⟨2, 6, fun _ _ => 0⟩, ⟨2, 3, fun _ _ => 0⟩, [0, 0]⟩
    (by decide) (by decide) (by decide) (by decide)

/-! ## The permutations of `get_perms` -/

/-- Pushing the elements of a vector one by one onto a vector appends it. -/
theorem foldl_push (l acc : List Int) :
    l.foldl (fun (p : List Int) (a : Int) => p ++ [a]) acc = acc ++ l := by
  induction l generalizing acc with
  | nil => simp
  | cons a t ih => rw [List.foldl_cons, ih, List.append_assoc, List.singleton_append]

/-- The copy loop of `get_perms` copies the vector. -/
theorem copy_loop (v : List Int) :
    (List.range v.length).foldl (fun (p : List Int) (i : Nat) => p ++ [v.getD i 0]) [] = v := by
  rw [foldl_range_getD (fun (p : List Int) (a : Int) => p ++ [a]) v 0 [], foldl_push]
  rfl

/-- A greater permutation has fewer permutations above it. -/
theorem perms_above_lt (v w w2 : List Int) (h2 : w2.Perm v) (hlt : lex_lt w w2) :
    perms_above v w2 < perms_above v w := by
  unfold perms_above
  apply Finset.card_lt_card
  rw [Finset.ssubset_iff_of_subset]
  · refine ⟨w2, ?_, ?_⟩
    · rw [Finset.mem_filter, List.mem_toFinset, List.mem_permutations]
      exact ⟨h2, hlt⟩
    · rw [Finset.mem_filter]
      exact fun h => irrefl_of lex_lt w2 h.2
  · intro p hp
    rw [Finset.mem_filter] at hp ⊢
    exact ⟨hp.1, trans_of lex_lt hlt hp.2⟩

/-- The loop of `get_perms` from a permutation `w` of `v`, under the contract of
`next_permutation`: with enough rounds it appends a list that starts with `w`, increases
strictly and holds every permutation of `v` from `w` on. -/
theorem get_perms_loop_spec (next : List Int → List Int × Bool) (v : List Int)
    (hc : ∀ w : List Int, w.Perm v → next_permutation_contract next w) :
    ∀ (n : Nat) (w : List Int), w.Perm v → perms_above v w ≤ n →
      ∃ L : List (List Int),
        (∀ fuel : Nat, n + 1 ≤ fuel → ∀ acc : List (List Int),
          get_perms_loop next fuel w acc = some (acc ++ L)) ∧
        L.head? = some w ∧ (∀ p ∈ L, p.Perm v) ∧ L.Chain' lex_lt ∧
        (∀ p : List Int, p.Perm v → (p = w ∨ lex_lt w p) → p ∈ L) := by
  intro n
  induction n with
  | zero =>
    intro w hw hm
    obtain ⟨htrue, hfalse⟩ := hc w hw
    by_cases hr : (next w).2 = true
    · obtain ⟨h1, h2, _⟩ := htrue hr
      have := perms_above_lt v w (next w).1 (h1.trans hw) h2
      omega
    · have hr2 : (next w).2 = false := by simpa using hr
      refine ⟨[w], ?_, rfl, ?_, List.chain'_singleton w, ?_⟩
      · intro fuel hf acc
        obtain ⟨k, rfl⟩ : ∃ k, fuel = k + 1 := ⟨fuel - 1, by omega⟩
        simp only [get_perms_loop, copy_loop, hr2, Bool.false_eq_true, if_false]
      · intro p hp
        rw [List.mem_singleton] at hp
        rw [hp]
        exact hw
      · intro p hp hge
        rcases hge with he | hl
        · rw [he]
          exact List.mem_singleton_self w
        · exact absurd hl (hfalse hr2 p (hp.trans hw.symm))
  | succ n ih =>
    intro w hw hm
    obtain ⟨htrue, hfalse⟩ := hc w hw
    by_cases hr : (next w).2 = true
    · obtain ⟨h1, h2, h3⟩ := htrue hr
      have hlt := perms_above_lt v w (next w).1 (h1.trans hw) h2
      obtain ⟨L, hL1, hL2, hL3, hL4, hL5⟩ := ih (next w).1 (h1.trans hw) (by omega)
      refine ⟨w :: L, ?_, rfl, ?_, ?_, ?_⟩
      · intro fuel hf acc
        obtain ⟨k, rfl⟩ : ∃ k, fuel = k + 1 := ⟨fuel - 1, by omega⟩
        simp only [get_perms_loop, copy_loop, hr, if_true]
        rw [hL1 k (by omega), List.append_assoc, List.singleton_append]
      · intro p hp
        rcases List.mem_cons.mp hp with he | hmem
        · rw [he]
          exact hw
        · exact hL3 p hmem
      · cases L with
        | nil => exact List.chain'_singleton w
        | cons a t =>
          have ha : a = (next w).1 := by
            simpa using hL2
          rw [List.chain'_cons]
          exact ⟨ha ▸ h2, hL4⟩
      · intro p hp hge
        rcases hge with he | hl
        · rw [he]
          exact List.mem_cons_self w L
        · exact List.mem_cons_of_mem w (hL5 p hp (h3 p (hp.trans hw.symm) hl))
    · have hr2 : (next w).2 = false := by simpa using hr
      refine ⟨[w], ?_, rfl, ?_, List.chain'_singleton w, ?_⟩
      · intro fuel hf acc
        obtain ⟨k, rfl⟩ : ∃ k, fuel = k + 1 := ⟨fuel - 1, by omega⟩
        simp only [get_perms_loop, copy_loop, hr2, Bool.false_eq_true, if_false]
      · intro p hp
        rw [List.mem_singleton] at hp
        rw [hp]
        exact hw
      · intro p hp hge
        rcases hge with he | hl
        · rw [he]
          exact List.mem_singleton_self w
        · exact absurd hl (hfalse hr2 p (hp.trans hw.symm))

/-! ### `next_permutation` meets its contract -/

/-- The run found by `ascending_run`: it splits the vector, it is in non-decreasing order
after `a`, and an element that follows it is smaller than an element of the run. -/
theorem ascending_run_spec (a : Int) (t : List Int) :
    t = (ascending_run a t).1 ++ (ascending_run a t).2 ∧
    (a :: (ascending_run a t).1).Pairwise (fun x y => x ≤ y) ∧
    (∀ (x : Int) (rest : List Int), (ascending_run a t).2 = x :: rest →
      ∃ z ∈ a :: (ascending_run a t).1, x < z) := by
  induction t generalizing a with
  | nil =>
    refine ⟨rfl, List.pairwise_singleton _ a, ?_⟩
    intro x rest h
    simp [ascending_run] at h
  | cons b t ih =>
    obtain ⟨h1, h2, h3⟩ := ih b
    by_cases hab : a ≤ b
    · simp only [ascending_run, if_pos hab]
      refine ⟨by rw [List.cons_append, ← h1], ?_, ?_⟩
      · rw [List.pairwise_cons]
        refine ⟨?_, h2⟩
        intro y hy
        rcases List.mem_cons.mp hy with he | hm
        · rw [he]
          exact hab
        · exact le_trans hab ((List.pairwise_cons.mp h2).1 y hm)
      · intro x rest h
        obtain ⟨z, hz, hxz⟩ := h3 x rest h
        exact ⟨z, List.mem_cons_of_mem a hz, hxz⟩
    · simp only [ascending_run, if_neg hab]
      refine ⟨rfl, List.pairwise_singleton _ a, ?_⟩
      intro x rest h
      simp only [List.cons.injEq] at h
      exact ⟨a, List.mem_cons_self a [], by omega⟩

/-- The exchange made by `swap_upper` in a non-decreasing run that has an element greater
than `x`: a permutation, the element taken out is the least one greater than `x`, and the
run stays in non-decreasing order. -/
theorem swap_upper_spec (x : Int) (pre : List Int) (hs : pre.Pairwise (fun x y => x ≤ y))
    (hex : ∃ z ∈ pre, x < z) :
    ((swap_upper x pre).1 :: (swap_upper x pre).2).Perm (x :: pre) ∧
    x < (swap_upper x pre).1 ∧
    (∀ z ∈ pre, x < z → (swap_upper x pre).1 ≤ z) ∧
    (swap_upper x pre).2.Pairwise (fun x y => x ≤ y) := by
  induction pre with
  | nil =>
    obtain ⟨z, hz, _⟩ := hex
    exact absurd hz (List.not_mem_nil z)
  | cons a t ih =>
    obtain ⟨ha, ht⟩ := List.pairwise_cons.mp hs
    by_cases hxa : x < a
    · simp only [swap_upper, if_pos hxa]
      refine ⟨List.Perm.swap x a t, hxa, ?_, ?_⟩
      · intro z hz _
        rcases List.mem_cons.mp hz with he | hm
        · rw [he]
        · exact ha z hm
      · rw [List.pairwise_cons]
        exact ⟨fun y hy => le_trans (le_of_lt hxa) (ha y hy), ht⟩
    · have hex2 : ∃ z ∈ t, x < z := by
        obtain ⟨z, hz, hxz⟩ := hex
        rcases List.mem_cons.mp hz with he | hm
        · rw [he] at hxz
          exact absurd hxz hxa
        · exact ⟨z, hm, hxz⟩
      obtain ⟨p1, p2, p3, p4⟩ := ih ht hex2
      simp only [swap_upper, if_neg hxa]
      refine ⟨?_, p2, ?_, ?_⟩
      · exact ((List.Perm.swap a _ _).trans (p1.cons a)).trans (List.Perm.swap x a t)
      · intro z hz hxz
        rcases List.mem_cons.mp hz with he | hm
        · rw [he] at hxz
          exact absurd hxz hxa
        · exact p3 z hm hxz
      · rw [List.pairwise_cons]
        refine ⟨?_, p4⟩
        intro y hy
        have hy2 : y ∈ x :: t := p1.subset (List.mem_cons_of_mem _ hy)
        rcases List.mem_cons.mp hy2 with he | hm
        · rw [he]
          omega
        · exact ha y hm

/-- A vector in non-decreasing order is the least of its permutations. -/
theorem sorted_le_perm (l : List Int) (hs : l.Pairwise (fun x y => x ≤ y)) :
    ∀ t : List Int, t.Perm l → t = l ∨ lex_lt l t := by
  induction l with
  | nil =>
    intro t ht
    exact Or.inl ht.eq_nil
  | cons a l ih =>
    intro t ht
    obtain ⟨ha, hl⟩ := List.pairwise_cons.mp hs
    cases t with
    | nil => exact absurd ht.symm.eq_nil (List.cons_ne_nil a l)
    | cons c t =>
      have hc : c ∈ a :: l := ht.subset (List.mem_cons_self c t)
      have hac : a ≤ c := by
        rcases List.mem_cons.mp hc with he | hm
        · rw [he]
        · exact ha c hm
      by_cases hlt : a < c
      · exact Or.inr (List.Lex.rel hlt)
      · have he : c = a := by omega
        subst he
        rcases ih hl t ht.cons_inv with h | h
        · exact Or.inl (by rw [h])
        · exact Or.inr (List.Lex.cons h)

/-- A vector in non-increasing order is the greatest of its permutations. -/
theorem sorted_ge_perm (l : List Int) (hs : l.Pairwise (fun x y => y ≤ x)) :
    ∀ t : List Int, t.Perm l → ¬ lex_lt l t := by
  induction l with
  | nil =>
    intro t ht h
    rw [ht.eq_nil] at h
    exact List.Lex.not_nil_right _ _ h
  | cons a l ih =>
    intro t ht h
    obtain ⟨ha, hl⟩ := List.pairwise_cons.mp hs
    cases h with
    | cons h2 => exact ih hl _ ht.cons_inv h2
    | @rel _ _ c _ hlt =>
      rename_i t2
      have hc : c ∈ a :: l := ht.subset (List.mem_cons_self c t2)
      rcases List.mem_cons.mp hc with he | hm
      · omega
      · have := ha c hm
        omega

/-- A vector greater than `h ++ s` either starts with `h` and goes on with a vector greater
than `s`, or is greater than every vector that starts with `h`. -/
theorem lex_prefix_cases (h s p : List Int) (hlt : lex_lt (h ++ s) p) :
    (∃ q : List Int, p = h ++ q ∧ lex_lt s q) ∨ (∀ s2 : List Int, lex_lt (h ++ s2) p) := by
  induction h generalizing p with
  | nil => exact Or.inl ⟨p, rfl, hlt⟩
  | cons a h ih =>
    rw [List.cons_append] at hlt
    cases hlt with
    | cons h2 =>
      rcases ih _ h2 with ⟨q, hq, hsq⟩ | hall
      · exact Or.inl ⟨q, by rw [hq, List.cons_append], hsq⟩
      · exact Or.inr (fun s2 => List.Lex.cons (hall s2))
    | rel hr => exact Or.inr (fun s2 => List.Lex.rel hr)

/-- The result of `next_permutation` on the empty vector. -/
theorem next_permutation_nil (w : List Int) (hr : w.reverse = []) :
    next_permutation w = ([], false) := by
  unfold next_permutation
  simp only [hr]

/-- The result of `next_permutation` on a vector without a pivot. -/
theorem next_permutation_last (w : List Int) (a : Int) (t : List Int)
    (hr : w.reverse = a :: t) (hrun : (ascending_run a t).2 = []) :
    next_permutation w = (a :: t, false) := by
  unfold next_permutation
  simp only [hr, hrun]

/-- The result of `next_permutation` on a vector with the pivot `x`. -/
theorem next_permutation_step (w : List Int) (a : Int) (t : List Int) (x : Int)
    (rest : List Int) (hr : w.reverse = a :: t) (hrun : (ascending_run a t).2 = x :: rest) :
    next_permutation w =
      (rest.reverse ++ (swap_upper x (a :: (ascending_run a t).1)).1 ::
        (swap_upper x (a :: (ascending_run a t).1)).2, true) := by
  unfold next_permutation
  simp only [hr, hrun]

/-- The model of `std::next_permutation` meets the contract of the standard at every
vector. -/
theorem next_permutation_meets_contract (w : List Int) :
    next_permutation_contract next_permutation w := by
  unfold next_permutation_contract
  cases hr : w.reverse with
  | nil =>
    rw [next_permutation_nil w hr]
    have hw : w = [] := List.reverse_eq_nil_iff.mp hr
    subst hw
    refine ⟨fun h => absurd (show false = true from h) (by decide), ?_⟩
    intro _ p hp hlt
    rw [hp.eq_nil] at hlt
    exact List.Lex.not_nil_right _ _ hlt
  | cons a t =>
    obtain ⟨h1, h2, h3⟩ := ascending_run_spec a t
    have hw : w = (a :: t).reverse := by
      rw [← hr, List.reverse_reverse]
    cases hrun : (ascending_run a t).2 with
    | nil =>
      rw [next_permutation_last w a t hr hrun]
      refine ⟨fun h => absurd (show false = true from h) (by decide), ?_⟩
      intro _ p hp
      rw [hrun, List.append_nil] at h1
      rw [← h1] at h2
      have hsorted : w.Pairwise (fun x y => y ≤ x) := by
        rw [hw, List.pairwise_reverse]
        exact h2
      exact sorted_ge_perm w hsorted p hp
    | cons x rest =>
      rw [next_permutation_step w a t x rest hr hrun]
      obtain ⟨s1, s2, s3, s4⟩ := swap_upper_spec x (a :: (ascending_run a t).1) h2
        (h3 x rest hrun)
      have hsplit : w = rest.reverse ++ x :: (a :: (ascending_run a t).1).reverse := by
        rw [hw]
        conv_lhs => rw [h1, hrun]
        rw [← List.cons_append, List.reverse_append, List.reverse_cons x rest,
          List.append_assoc, List.singleton_append]
      have hperm : ((swap_upper x (a :: (ascending_run a t).1)).1 ::
          (swap_upper x (a :: (ascending_run a t).1)).2).Perm
          (x :: (a :: (ascending_run a t).1).reverse) :=
        s1.trans ((List.reverse_perm _).symm.cons x)
      refine ⟨fun _ => ⟨?_, ?_, ?_⟩, fun h => absurd (show true = false from h) (by decide)⟩
      · rw [hsplit]
        exact List.Perm.append_left _ hperm
      · rw [hsplit]
        exact List.Lex.append_left _ (List.Lex.rel s2) _
      · intro p hp hlt
        rw [hsplit] at hp hlt
        rcases lex_prefix_cases _ _ p hlt with ⟨q, hq, hsq⟩ | hall
        · subst hq
          have hqperm : q.Perm (x :: (a :: (ascending_run a t).1).reverse) :=
            (List.perm_append_left_iff _).mp hp
          cases hsq with
          | cons h4 =>
            exfalso
            refine sorted_ge_perm (a :: (ascending_run a t).1).reverse ?_ _ hqperm.cons_inv h4
            rw [List.pairwise_reverse]
            exact h2
          | @rel _ _ c tq hxc =>
            have hc : c ∈ x :: (a :: (ascending_run a t).1).reverse :=
              hqperm.subset (List.mem_cons_self c tq)
            have hcpre : c ∈ a :: (ascending_run a t).1 := by
              rcases List.mem_cons.mp hc with he | hm
              · omega
              · exact List.mem_reverse.mp hm
            have hbc := s3 c hcpre hxc
            by_cases hlt2 : (swap_upper x (a :: (ascending_run a t).1)).1 < c
            · exact Or.inr (List.Lex.append_left _ (List.Lex.rel hlt2) _)
            · have he : c = (swap_upper x (a :: (ascending_run a t).1)).1 := by omega
              subst he
              have htq : tq.Perm (swap_upper x (a :: (ascending_run a t).1)).2 :=
                (hqperm.trans hperm.symm).cons_inv
              rcases sorted_le_perm _ s4 tq htq with h5 | h5
              · exact Or.inl (by rw [h5])
              · exact Or.inr (List.Lex.append_left _ (List.Lex.cons h5) _)
        · exact Or.inr (hall _)

/-- Fewer than `n!` permutations of a vector of `n` elements are greater than the vector. -/
theorem perms_above_self (v : List Int) : perms_above v v + 1 ≤ v.length.factorial := by
  unfold perms_above
  have h1 : (v.permutations.toFinset.filter (fun p => lex_lt v p)).card <
      v.permutations.toFinset.card := by
    apply Finset.card_lt_card
    rw [Finset.ssubset_iff_of_subset (Finset.filter_subset _ _)]
    refine ⟨v, ?_, ?_⟩
    · rw [List.mem_toFinset, List.mem_permutations]
    · rw [Finset.mem_filter]
      exact fun h => irrefl_of lex_lt v h.2
  have h2 : v.permutations.toFinset.card ≤ v.permutations.length := List.toFinset_card_le _
  rw [List.length_permutations] at h2
  omega

/-- A list that increases strictly in the lexicographic order has no repeated element. -/
theorem nodup_of_chain (L : List (List Int)) (h : L.Chain' lex_lt) : L.Nodup := by
  have hp : L.Pairwise lex_lt := List.chain'_iff_pairwise.mp h
  exact hp.imp (fun {a b} (hab : lex_lt a b) (he : a = b) => irrefl_of lex_lt b (he ▸ hab))

/-- C20: `get_perms` enumerates permutations in lexicographic order starting from its
argument: with enough rounds (`n!` suffice) the loop ends, the result is not empty, its
first element is `v`, every element is a permutation of `v` and consecutive elements
increase strictly in the lexicographic order; when `v` is in non-decreasing order the
result contains every permutation of `v` exactly once, so it has `n!` entries when the
`n` elements are pairwise distinct; the result for the empty vector is `[[]]`. -/
theorem get_perms_spec (v : List Int) :
    ∃ perms : List (List Int),
      (∀ fuel : Nat, v.length.factorial ≤ fuel → get_perms fuel v = some perms) ∧
      perms ≠ [] ∧ perms.head? = some v ∧
      (∀ p ∈ perms, p.Perm v) ∧
      perms.Chain' lex_lt ∧
      (v.Pairwise (fun x y => x ≤ y) →
        (∀ p : List Int, p.Perm v → perms.countP (fun q => decide (q = p)) = 1) ∧
        (v.Nodup → perms.length = v.length.factorial)) ∧
      (v = [] → perms = [[]]) := by
  have hbound := perms_above_self v
  obtain ⟨L, hL1, hL2, hL3, hL4, hL5⟩ := get_perms_loop_spec next_permutation v
    (fun w _ => next_permutation_meets_contract w) (v.length.factorial - 1) v
    (List.Perm.refl v) (by omega)
  have hrun : ∀ fuel : Nat, v.length.factorial ≤ fuel → get_perms fuel v = some L := by
    intro fuel hf
    unfold get_perms
    rw [hL1 fuel (by omega) [], List.nil_append]
  have hnodup : L.Nodup := nodup_of_chain L hL4
  refine ⟨L, hrun, ?_, hL2, hL3, hL4, ?_, ?_⟩
  · intro h
    rw [h] at hL2
    exact absurd hL2 (by simp)
  · intro hs
    have hcover : ∀ p : List Int, p.Perm v → p ∈ L :=
      fun p hp => hL5 p hp (sorted_le_perm v hs p hp)
    refine ⟨fun p hp => List.count_eq_one_of_mem hnodup (hcover p hp), ?_⟩
    intro hv
    have hperm : L.Perm v.permutations :=
      (List.perm_ext_iff_of_nodup hnodup (List.nodup_permutations v hv)).mpr
        (fun p => ⟨fun h => List.mem_permutations.mpr (hL3 p h),
          fun h => hcover p (List.mem_permutations.mp h)⟩)
    rw [hperm.length_eq, List.length_permutations]
  · intro hv
    subst hv
    have h1 := hrun 1 (by decide)
    have h2 : get_perms 1 [] = some [[]] := by decide
    rw [h2] at h1
    exact (Option.some.inj h1).symm

/-- Witness of C20: the six permutations of `[1, 2, 3]` in lexicographic order. -/
theorem get_perms_spec_witness :
    get_perms 6 [1, 2, 3] =
      some [[1, 2, 3], [1, 3, 2], [2, 1, 3], [2, 3, 1], [3, 1, 2], [3, 2, 1]] ∧
    ∃ perms : List (List Int),
      get_perms 6 [1, 2, 3] = some perms ∧ perms.head? = some [1, 2, 3] ∧
      (∀ p : List Int, p.Perm [1, 2, 3] → perms.countP (fun q => decide (q = p)) = 1) ∧
      perms.length = 6 := by
  refine ⟨by decide, ?_⟩
  obtain ⟨perms, h1, _, h3, _, _, h6, _⟩ := get_perms_spec [1, 2, 3]
  exact ⟨perms, h1 6 (by decide), h3, (h6 (by decide)).1, (h6 (by decide)).2 (by decide)⟩

/-! ## Rounding to `double` -/

/-- Rounding to the nearest integer moves a number by at most one half. -/
theorem round_half_even_error (x : ℚ) : |((round_half_even x : Int) : ℚ) - x| ≤ 1 / 2 := by
  have h1 := Int.floor_le x
  have h2 := Int.lt_floor_add_one x
  unfold round_half_even
  rw [abs_le]
  split_ifs <;> push_cast <;> constructor <;> linarith

/-- The unit in the last place of the binade of `q` is positive. -/
theorem ulp_pos (e : Int) : (0 : ℚ) < 2 ^ (e - 52) := zpow_pos (by norm_num) _

/-- Half a unit in the last place is at most `2^-53` of the number, or `2^-1075` in the
subnormal range. -/
theorem half_ulp_le (q : ℚ) (hq : q ≠ 0) :
    (2 : ℚ) ^ (double_exponent q - 52) / 2 ≤ max (|q| / 2 ^ 53) (1 / 2 ^ 1075) := by
  have habs : 0 < |q| := abs_pos.mpr hq
  have hsplit : ∀ e : Int, (2 : ℚ) ^ (e - 52) / 2 = 2 ^ e / 2 ^ 53 := by
    intro e
    rw [zpow_sub₀ (by norm_num : (2 : ℚ) ≠ 0)]
    norm_num
    ring
  rw [hsplit]
  unfold double_exponent
  rcases le_total (Int.log 2 |q|) (-1022) with h | h
  · rw [max_eq_right h]
    apply le_max_of_le_right
    rw [zpow_neg]
    norm_num
  · rw [max_eq_left h]
    apply le_max_of_le_left
    have := Int.zpow_log_le_self (by norm_num : 1 < 2) habs
    exact div_le_div_of_nonneg_right this (by positivity)

/-- The rounded magnitude is within half a unit in the last place of the magnitude. -/
theorem round_magnitude_error (q : ℚ) :
    abs (((round_half_even (|q| / 2 ^ (double_exponent q - 52)) : Int) : ℚ)
        * 2 ^ (double_exponent q - 52) - |q|) ≤ max (|q| / 2 ^ 53) (1 / 2 ^ 1075) := by
  rcases eq_or_ne q 0 with h0 | h0
  · subst h0
    simp [round_half_even]
  · have hu := ulp_pos (double_exponent q)
    have he := round_half_even_error (|q| / 2 ^ (double_exponent q - 52))
    have hhalf := half_ulp_le q h0
    have hrw : ((round_half_even (|q| / 2 ^ (double_exponent q - 52)) : Int) : ℚ)
          * 2 ^ (double_exponent q - 52) - |q| =
        (((round_half_even (|q| / 2 ^ (double_exponent q - 52)) : Int) : ℚ)
          - |q| / 2 ^ (double_exponent q - 52)) * 2 ^ (double_exponent q - 52) := by
      field_simp
    rw [hrw, abs_mul, abs_of_pos hu]
    calc _ ≤ 1 / 2 * 2 ^ (double_exponent q - 52) :=
          mul_le_mul_of_nonneg_right he (le_of_lt hu)
      _ = 2 ^ (double_exponent q - 52) / 2 := by ring
      _ ≤ _ := hhalf

/-- A finite result of the rounding is within half a unit in the last place of the exact
number: within `2^-53` of it in relative terms, or `2^-1075` in the subnormal range. -/
theorem round_double_error (q p : ℚ) (h : round_double q = .finite p) :
    |p - q| ≤ max (|q| / 2 ^ 53) (1 / 2 ^ 1075) := by
  have hmag := round_magnitude_error q
  have key : p - q = ((round_half_even (|q| / 2 ^ (double_exponent q - 52)) : Int) : ℚ)
        * 2 ^ (double_exponent q - 52) - |q| ∨
      p - q = -(((round_half_even (|q| / 2 ^ (double_exponent q - 52)) : Int) : ℚ)
        * 2 ^ (double_exponent q - 52) - |q|) := by
    unfold round_double at h
    simp only [] at h
    split_ifs at h with hbig _ hpos
    · left
      simp only [Double.finite.injEq] at h
      rw [← h, abs_of_nonneg hpos]
    · right
      simp only [Double.finite.injEq] at h
      rw [← h, abs_of_neg (not_le.mp hpos)]
      ring
  rcases key with k | k
  · rw [k]
    exact hmag
  · rw [k, abs_neg]
    exact hmag

/-- The rounding of a positive number in the binade of exponent `e`, no lower than the
least normal binade, whose scaled value rounds to the integer `m`. -/
theorem round_double_eval (q : ℚ) (e m : Int) (hq : 0 < q) (hlo : (2 : ℚ) ^ e ≤ q)
    (hhi : q < 2 ^ (e + 1)) (he : -1022 ≤ e)
    (hm : round_half_even (q / 2 ^ (e - 52)) = m)
    (hfin : (m : ℚ) * 2 ^ (e - 52) < 2 ^ 1024) :
    round_double q = .finite (m * 2 ^ (e - 52)) := by
  have hexp : double_exponent q = e := by
    unfold double_exponent
    rw [abs_of_pos hq]
    have h1 : e ≤ Int.log 2 q := (Int.zpow_le_iff_le_log (by norm_num) hq).mp hlo
    have h2 : Int.log 2 q < e + 1 := (Int.lt_zpow_iff_log_lt (by norm_num) hq).mp hhi
    rw [max_eq_left (by omega)]
    omega
  unfold round_double
  simp only [hexp, abs_of_pos hq, hm]
  rw [if_neg (not_le.mpr hfin), if_pos (le_of_lt hq)]

/-- The numbers `10^16` and `1` are doubles, and their double sum is `10^16`: the exact
sum `10^16 + 1` lies half-way between the doubles `10^16` and `10^16 + 2`. -/
theorem round_double_examples :
    round_double (10 ^ 16) = .finite (10 ^ 16) ∧ round_double 1 = .finite 1 ∧
    round_double (10 ^ 16 + 1) = .finite (10 ^ 16) := by
  refine ⟨?_, ?_, ?_⟩
  · have h := round_double_eval (10 ^ 16) 53 5000000000000000 (by norm_num) (by norm_num)
      (by norm_num) (by norm_num)
      (by
        have hf : ⌊((10 : ℚ) ^ 16 / 2 ^ ((53 : Int) - 52))⌋ = 5000000000000000 := by
          rw [Int.floor_eq_iff]; norm_num
        unfold round_half_even
        rw [hf]; norm_num)
      (by norm_num)
    rw [h]; norm_num
  · have h := round_double_eval 1 0 4503599627370496 (by norm_num) (by norm_num)
      (by norm_num) (by norm_num)
      (by
        have hf : ⌊((1 : ℚ) / 2 ^ ((0 : Int) - 52))⌋ = 4503599627370496 := by
          rw [Int.floor_eq_iff]; norm_num
        unfold round_half_even
        rw [hf]; norm_num)
      (by norm_num)
    rw [h]; norm_num
  · have h := round_double_eval (10 ^ 16 + 1) 53 5000000000000000 (by norm_num) (by norm_num)
      (by norm_num) (by norm_num)
      (by
        have hf : ⌊(((10 : ℚ) ^ 16 + 1) / 2 ^ ((53 : Int) - 52))⌋ = 5000000000000000 := by
          rw [Int.floor_eq_iff]; norm_num
        unfold round_half_even
        rw [hf]; norm_num)
      (by norm_num)
    rw [h]; norm_num

/-! ## `gv_init` on doubles -/

/-- On doubles that are not NaN, `a < b` holds exactly when `b <= a` fails. -/
theorem Double.lt_iff_not_le (a b : Double) (ha : a ≠ .nan) (hb : b ≠ .nan) :
    Double.lt a b = true ↔ ¬ (Double.le b a = true) := by
  cases a <;> cases b <;> simp [Double.lt, Double.le] at ha hb ⊢

/-- A double that is not NaN equals itself and is at most itself. -/
theorem Double.equal_self (a : Double) (ha : a ≠ .nan) :
    Double.equal a a = true ∧ Double.le a a = true := by
  cases a <;> simp [Double.equal, Double.le] at ha ⊢

/-- The rounding of a number is never NaN. -/
theorem round_double_ne_nan (q : ℚ) : round_double q ≠ .nan := by
  unfold round_double
  simp only []
  split_ifs <;> simp

/-- On finite parameters `gv_init_double` raises the same message as `gv_init` on their
values and leaves the same lattice dimensions, mutation counter and drivers; `p_max` is
the rounding of the exact sum. -/
theorem gv_init_double_finite (gd : Globals_double) (g : Globals) (N : Int)
    (wt_br wt_dr u du s : ℚ)
    (hx : gd.x_dim = g.x_dim) (hy : gd.y_dim = g.y_dim) (hz : gd.z_dim = g.z_dim) :
    (gv_init_double gd N (.finite wt_br) (.finite wt_dr) (.finite u) (.finite du) (.finite s)).2
      = (gv_init g N wt_br wt_dr u du s).2 ∧
    (gv_init_double gd N (.finite wt_br) (.finite wt_dr) (.finite u) (.finite du)
      (.finite s)).1.x_dim = (gv_init g N wt_br wt_dr u du s).1.x_dim ∧
    (gv_init_double gd N (.finite wt_br) (.finite wt_dr) (.finite u) (.finite du)
      (.finite s)).1.y_dim = (gv_init g N wt_br wt_dr u du s).1.y_dim ∧
    (gv_init_double gd N (.finite wt_br) (.finite wt_dr) (.finite u) (.finite du)
      (.finite s)).1.z_dim = (gv_init g N wt_br wt_dr u du s).1.z_dim ∧
    (gv_init_double gd N (.finite wt_br) (.finite wt_dr) (.finite u) (.finite du)
      (.finite s)).1.total_mutations = (gv_init g N wt_br wt_dr u du s).1.total_mutations ∧
    (gv_init_double gd N (.finite wt_br) (.finite wt_dr) (.finite u) (.finite du)
      (.finite s)).1.drivers = (gv_init g N wt_br wt_dr u du s).1.drivers ∧
    (gv_init_double gd N (.finite wt_br) (.finite wt_dr) (.finite u) (.finite du)
      (.finite s)).1.p_max = round_double (gv_init g N wt_br wt_dr u du s).1.p_max := by
  unfold gv_init_double gv_init
  simp only [Double.lt, Double.gt, decide_eq_true_eq, Bool.or_eq_true, Double.add]
  split_ifs <;> simp_all

/-- What an accepted configuration of doubles satisfies: every `if` condition of
`gv_init_double` is false. -/
theorem gv_init_double_accepted (g : Globals_double) (N : Int) (wt_br wt_dr u du s : Double)
    (hok : (gv_init_double g N wt_br wt_dr u du s).2 = none) :
    ¬ N < 1 ∧ Double.gt wt_dr wt_br = false ∧ Double.lt wt_br (.finite 0) = false ∧
    Double.lt wt_dr (.finite 0) = false ∧ Double.lt u (.finite 0) = false ∧
    Double.lt du (.finite 0) = false ∧ Double.gt du (.finite 1) = false ∧
    Double.lt s (.finite 0) = false := by
  unfold gv_init_double at hok
  simp only [] at hok
  split_ifs at hok with h1 h2 h3 h4 h5 h6
  all_goals simp only [Bool.or_eq_true, not_or, Bool.not_eq_true] at h2 h3 h4 h5 h6
  all_goals exact ⟨h1, h2, h3.1, h3.2, h4, h5.1, h5.2, h6⟩

/-- The globals that `gv_init_double` resets, whatever the configuration. -/
theorem gv_init_double_reset (g : Globals_double) (N : Int) (wt_br wt_dr u du s : Double) :
    (gv_init_double g N wt_br wt_dr u du s).1.total_mutations = 0 ∧
    (gv_init_double g N wt_br wt_dr u du s).1.drivers = [] ∧
    (gv_init_double g N wt_br wt_dr u du s).1.p_max = Double.add wt_br wt_dr := by
  unfold gv_init_double
  simp only []
  split_ifs <;> exact ⟨rfl, rfl, rfl⟩

/-- The double sum of two rates that are not NaN and not negative is not NaN. -/
theorem add_rates_ne_nan (b d : Double) (hb : b ≠ .nan) (hd : d ≠ .nan)
    (hb0 : Double.lt b (.finite 0) = false) (hd0 : Double.lt d (.finite 0) = false) :
    Double.add b d ≠ .nan := by
  cases b <;> cases d <;>
    simp [Double.add, Double.lt, round_double_ne_nan] at hb hd hb0 hd0 ⊢

/-- C4, as stated, fails: the configuration `N = 5`, birth 1, death 0, `u = NaN`, `du = 0`,
`s = 0` violates exactly one of the six constraints (`u >= 0`: a comparison with NaN is
false), yet `gv_init` raises no error for it, since its check `u < 0` is false as well. -/
theorem gv_init_accepts_nan :
    ¬ Constraint.u_nonneg.holds 5 (.finite 1) (.finite 0) .nan (.finite 0) (.finite 0) ∧
    (∀ c2 : Constraint, c2 ≠ .u_nonneg →
      c2.holds 5 (.finite 1) (.finite 0) .nan (.finite 0) (.finite 0)) ∧
    (gv_init_double ⟨.finite 0, [], 0, 0, 0, 0⟩ 5 (.finite 1) (.finite 0) .nan (.finite 0)
      (.finite 0)).2 = none := by
  refine ⟨by decide, ?_, by decide⟩
  intro c2 h
  cases c2 <;> first | exact absurd rfl h | decide

/-- C4 (amended): for every configuration whose parameters are numbers (none is NaN) and
that violates exactly one of the six constraints (`N >= 1`; death `<=` birth; both rates
non-negative; `u >= 0`; `du` in `[0,1]`; `s >= 0`), the message raised by `gv_init` is the
one of that constraint; and the six messages are pairwise different. -/
theorem gv_init_distinct_errors (g : Globals_double) (N : Int) (wt_br wt_dr u du s : Double)
    (hbr : wt_br ≠ .nan) (hdr : wt_dr ≠ .nan) (hu : u ≠ .nan) (hdu : du ≠ .nan)
    (hs : s ≠ .nan)
    (c : Constraint) (hc : ¬ c.holds N wt_br wt_dr u du s)
    (honly : ∀ c2 : Constraint, c2 ≠ c → c2.holds N wt_br wt_dr u du s) :
    (gv_init_double g N wt_br wt_dr u du s).2 = some c.message ∧
    (∀ c1 c2 : Constraint, c1 ≠ c2 → c1.message ≠ c2.message) := by
  have h0 : (Double.finite 0) ≠ .nan := by simp
  have h1 : (Double.finite 1) ≠ .nan := by simp
  have e2 := Double.lt_iff_not_le wt_br wt_dr hbr hdr
  have e3a := Double.lt_iff_not_le wt_br (.finite 0) hbr h0
  have e3b := Double.lt_iff_not_le wt_dr (.finite 0) hdr h0
  have e4 := Double.lt_iff_not_le u (.finite 0) hu h0
  have e5a := Double.lt_iff_not_le du (.finite 0) hdu h0
  have e5b := Double.lt_iff_not_le (.finite 1) du h1 hdu
  have e6 := Double.lt_iff_not_le s (.finite 0) hs h0
  constructor
  · have p1 := honly .population
    have p2 := honly .death_le_birth
    have p3 := honly .rates_nonneg
    have p4 := honly .u_nonneg
    have p5 := honly .du_unit
    have p6 := honly .s_nonneg
    unfold gv_init_double
    simp only [Double.gt, Bool.or_eq_true, e2, e3a, e3b, e4, e5a, e5b, e6]
    cases c <;> simp only [Constraint.holds, Constraint.message, ne_eq, reduceCtorEq,
      not_false_eq_true, not_true_eq_false, forall_const, IsEmpty.forall_iff, ge_iff_le,
      not_le, not_and_or] at hc p1 p2 p3 p4 p5 p6 ⊢
    · rw [if_pos hc]
    · rw [if_neg (not_lt.mpr p1), if_pos hc]
    · rw [if_neg (not_lt.mpr p1), if_neg (not_not.mpr p2), if_pos hc]
    · rw [if_neg (not_lt.mpr p1), if_neg (not_not.mpr p2),
        if_neg (fun h => h.elim (fun a => a p3.1) (fun a => a p3.2)), if_pos hc]
    · rw [if_neg (not_lt.mpr p1), if_neg (not_not.mpr p2),
        if_neg (fun h => h.elim (fun a => a p3.1) (fun a => a p3.2)),
        if_neg (not_not.mpr p4), if_pos hc]
    · rw [if_neg (not_lt.mpr p1), if_neg (not_not.mpr p2),
        if_neg (fun h => h.elim (fun a => a p3.1) (fun a => a p3.2)),
        if_neg (not_not.mpr p4),
        if_neg (fun h => h.elim (fun a => a p5.1) (fun a => a p5.2)), if_pos hc]
  · intro c1 c2 hne
    cases c1 <;> cases c2 <;> first | exact absurd rfl hne | (simp only [Constraint.message]; decide)

/-- Witness of C4 (amended): only the selection coefficient is invalid (`s = -1`). -/
theorem gv_init_distinct_errors_witness :
    (gv_init_double ⟨.finite 0, [], 0, 0, 0, 0⟩ 5 (.finite 1) (.finite 0) (.finite 0)
      (.finite 0) (.finite (-1))).2 = some "s must be non-negative" ∧
    (∀ c1 c2 : Constraint, c1 ≠ c2 → c1.message ≠ c2.message) :=
  gv_init_distinct_errors ⟨.finite 0, [], 0, 0, 0, 0⟩ 5 (.finite 1) (.finite 0) (.finite 0)
    (.finite 0) (.finite (-1)) (by simp) (by simp) (by simp) (by simp) (by simp) .s_nonneg
    (by decide)
    (by intro c2 h; cases c2 <;> first | exact absurd rfl h | decide)

/-- C15, as stated, fails.  Birth rate `10^16` and death rate `1` are doubles and the
configuration is accepted, but `p_max` is the double `10^16`: it is not `wt_br + wt_dr`
read exactly and it is below birth plus death `10^16 + 1` of the founder.  With NaN rates
the configuration is accepted as well, `p_max` is NaN, and both `p_max == wt_br + wt_dr`
and `b + d <= p_max` of the founder are false. -/
theorem gv_init_p_max_not_exact_sum :
    (round_double (10 ^ 16) = .finite (10 ^ 16) ∧ round_double 1 = .finite 1) ∧
    ((gv_init_double ⟨.finite 0, [], 0, 0, 0, 0⟩ 1 (.finite (10 ^ 16)) (.finite 1) (.finite 0)
        (.finite 0) (.finite 0)).2 = none ∧
     (gv_init_double ⟨.finite 0, [], 0, 0, 0, 0⟩ 1 (.finite (10 ^ 16)) (.finite 1) (.finite 0)
        (.finite 0) (.finite 0)).1.p_max = .finite (10 ^ 16) ∧
     (initial_cell_double (gv_init_double ⟨.finite 0, [], 0, 0, 0, 0⟩ 1 (.finite (10 ^ 16))
        (.finite 1) (.finite 0) (.finite 0) (.finite 0)).1 [] (.finite (10 ^ 16))
        (.finite 1)).2 = [⟨0, 1, [0], .finite 1, .finite (10 ^ 16)⟩] ∧
     ¬ ((10 : ℚ) ^ 16 + 1 ≤ 10 ^ 16)) ∧
    ((gv_init_double ⟨.finite 0, [], 0, 0, 0, 0⟩ 1 .nan .nan (.finite 0) (.finite 0)
        (.finite 0)).2 = none ∧
     Double.equal
       (gv_init_double ⟨.finite 0, [], 0, 0, 0, 0⟩ 1 .nan .nan (.finite 0) (.finite 0)
         (.finite 0)).1.p_max (Double.add .nan .nan) = false ∧
     (initial_cell_double (gv_init_double ⟨.finite 0, [], 0, 0, 0, 0⟩ 1 .nan .nan (.finite 0)
        (.finite 0) (.finite 0)).1 [] .nan .nan).2 = [⟨0, 1, [0], .nan, .nan⟩] ∧
     Double.le (Double.add .nan .nan)
       (gv_init_double ⟨.finite 0, [], 0, 0, 0, 0⟩ 1 .nan .nan (.finite 0) (.finite 0)
         (.finite 0)).1.p_max = false) := by
  obtain ⟨e1, e2, e3⟩ := round_double_examples
  have hok : (gv_init_double ⟨.finite 0, [], 0, 0, 0, 0⟩ 1 (.finite (10 ^ 16)) (.finite 1)
      (.finite 0) (.finite 0) (.finite 0)).2 = none := by
    norm_num [gv_init_double, Double.lt, Double.gt]
  refine ⟨⟨e1, e2⟩, ⟨hok, ?_, ?_, by norm_num⟩, ⟨by decide, ?_, ?_, ?_⟩⟩
  · rw [(gv_init_double_reset _ _ _ _ _ _ _).2.2]
    exact e3
  · simp [initial_cell_double]
  · rw [(gv_init_double_reset _ _ _ _ _ _ _).2.2]
    rfl
  · simp [initial_cell_double]
  · rw [(gv_init_double_reset _ _ _ _ _ _ _).2.2]
    rfl

/-- C15 (amended): for every prior value of the globals and every accepted configuration
whose two rates are not NaN, after `gv_init` `total_mutations` is 0, `drivers` is empty
and `p_max` is the double sum `wt_br + wt_dr`, a number (`p_max == wt_br + wt_dr` holds);
the founder specie of `initial_cell` has `b = wt_br`, `d = wt_dr`, and its `b + d`, a
double sum as well, is at most `p_max`.  The double sum is the exact sum rounded to the
nearest double: for finite values it differs from the exact sum by at most `2^-53` of it
(`2^-1075` in the subnormal range), in either direction. -/
theorem gv_init_resets_run_state (g : Globals_double) (N : Int)
    (wt_br wt_dr u du s : Double)
    (hok : (gv_init_double g N wt_br wt_dr u du s).2 = none)
    (hbr : wt_br ≠ .nan) (hdr : wt_dr ≠ .nan) :
    (gv_init_double g N wt_br wt_dr u du s).1.total_mutations = 0 ∧
    (gv_init_double g N wt_br wt_dr u du s).1.drivers = [] ∧
    (gv_init_double g N wt_br wt_dr u du s).1.p_max = Double.add wt_br wt_dr ∧
    (gv_init_double g N wt_br wt_dr u du s).1.p_max ≠ .nan ∧
    Double.equal (gv_init_double g N wt_br wt_dr u du s).1.p_max (Double.add wt_br wt_dr)
      = true ∧
    (∃ sp : specie_double,
      (initial_cell_double (gv_init_double g N wt_br wt_dr u du s).1 [] wt_br wt_dr).2 = [sp] ∧
      sp.b = wt_br ∧ sp.d = wt_dr ∧
      Double.le (Double.add sp.b sp.d) (gv_init_double g N wt_br wt_dr u du s).1.p_max
        = true) ∧
    (∀ b d p : ℚ, wt_br = .finite b → wt_dr = .finite d →
      (gv_init_double g N wt_br wt_dr u du s).1.p_max = .finite p →
      0 ≤ d ∧ d ≤ b ∧ |p - (b + d)| ≤ max ((b + d) / 2 ^ 53) (1 / 2 ^ 1075)) := by
  obtain ⟨h1, h2, h3⟩ := gv_init_double_reset g N wt_br wt_dr u du s
  obtain ⟨_, a2, a3, a4, _⟩ := gv_init_double_accepted g N wt_br wt_dr u du s hok
  have hnan := add_rates_ne_nan wt_br wt_dr hbr hdr a3 a4
  refine ⟨h1, h2, h3, ?_, ?_, ⟨⟨0, 1, [0], wt_dr, wt_br⟩, ?_, rfl, rfl, ?_⟩, ?_⟩
  · rw [h3]
    exact hnan
  · rw [h3]
    exact (Double.equal_self _ hnan).1
  · simp [initial_cell_double]
  · rw [h3]
    exact (Double.equal_self _ hnan).2
  · intro b d p hb hd hp
    subst hb hd
    simp only [Double.lt, Double.gt, decide_eq_false_iff_not, not_lt] at a2 a3 a4
    rw [h3] at hp
    have herr := round_double_error (b + d) p hp
    rw [abs_of_nonneg (add_nonneg a3 a4)] at herr
    exact ⟨a4, a2, herr⟩

/-- Witness of C15 (amended): globals left by a previous run (`total_mutations = 5`, one
driver) and the configuration `N = 10`, birth 1, death 1/2. -/
theorem gv_init_resets_run_state_witness :
    (gv_init_double ⟨.finite 7, [3], 5, 500, 500, 500⟩ 10 (.finite 1) (.finite (1 / 2))
      (.finite 0) (.finite 0) (.finite 0)).1.total_mutations = 0 ∧
    (gv_init_double ⟨.finite 7, [3], 5, 500, 500, 500⟩ 10 (.finite 1) (.finite (1 / 2))
      (.finite 0) (.finite 0) (.finite 0)).1.drivers = [] ∧
    (gv_init_double ⟨.finite 7, [3], 5, 500, 500, 500⟩ 10 (.finite 1) (.finite (1 / 2))
      (.finite 0) (.finite 0) (.finite 0)).1.p_max
      = Double.add (.finite 1) (.finite (1 / 2)) ∧
    Double.equal
      (gv_init_double ⟨.finite 7, [3], 5, 500, 500, 500⟩ 10 (.finite 1) (.finite (1 / 2))
        (.finite 0) (.finite 0) (.finite 0)).1.p_max
      (Double.add (.finite 1) (.finite (1 / 2))) = true :=
  have h := gv_init_resets_run_state ⟨.finite 7, [3], 5, 500, 500, 500⟩ 10 (.finite 1)
    (.finite (1 / 2)) (.finite 0) (.finite 0) (.finite 0)
    (by norm_num [gv_init_double, Double.lt, Double.gt]) (by simp) (by simp)
  ⟨h.1, h.2.1, h.2.2.1, h.2.2.2.2.1⟩

/-! ## The square root: `double_sqrt` is the correctly rounded root -/

/-- The scaled root lies in `[2^52, 2^53)`: the result has 53 significant bits. -/
theorem double_sqrt_mantissa (n : Nat) (hn : 0 < n) (hlt : n < 2 ^ 106) :
    Nat.log 2 (Nat.sqrt n) ≤ 52 ∧
    2 ^ 52 ≤ Nat.sqrt (n * 4 ^ (52 - Nat.log 2 (Nat.sqrt n))) ∧
    Nat.sqrt (n * 4 ^ (52 - Nat.log 2 (Nat.sqrt n))) < 2 ^ 53 := by
  have hs0 : Nat.sqrt n ≠ 0 := by
    have := Nat.sqrt_pos.mpr hn
    omega
  have hs53 : Nat.sqrt n < 2 ^ 53 := Nat.sqrt_lt.mpr (by norm_num at hlt ⊢; omega)
  have he : Nat.log 2 (Nat.sqrt n) < 53 := Nat.log_lt_of_lt_pow hs0 hs53
  have hP := Nat.pow_log_le_self 2 hs0
  have hP2 := Nat.lt_pow_succ_log_self (by norm_num : 1 < 2) (Nat.sqrt n)
  have hlo := Nat.sqrt_le n
  have hhi := Nat.lt_succ_sqrt n
  obtain ⟨k, hk⟩ : ∃ k, Nat.log 2 (Nat.sqrt n) + k = 52 := ⟨52 - Nat.log 2 (Nat.sqrt n), by omega⟩
  have hk2 : 52 - Nat.log 2 (Nat.sqrt n) = k := by omega
  rw [hk2]
  have h4 : (4 : Nat) ^ k = 2 ^ k * 2 ^ k := by
    rw [← mul_pow]
    norm_num
  have hPQ : 2 ^ Nat.log 2 (Nat.sqrt n) * 2 ^ k = 2 ^ 52 := by
    rw [← pow_add, hk]
  have hPQ2 : 2 ^ (Nat.log 2 (Nat.sqrt n)).succ * 2 ^ k = 2 ^ 53 := by
    rw [← pow_add, Nat.succ_add, hk]
  refine ⟨by omega, ?_, ?_⟩
  · rw [Nat.le_sqrt, h4, ← hPQ]
    calc 2 ^ Nat.log 2 (Nat.sqrt n) * 2 ^ k * (2 ^ Nat.log 2 (Nat.sqrt n) * 2 ^ k)
        = (2 ^ Nat.log 2 (Nat.sqrt n) * 2 ^ Nat.log 2 (Nat.sqrt n)) * (2 ^ k * 2 ^ k) := by ring
      _ ≤ (Nat.sqrt n * Nat.sqrt n) * (2 ^ k * 2 ^ k) :=
          Nat.mul_le_mul_right _ (Nat.mul_le_mul hP hP)
      _ ≤ n * (2 ^ k * 2 ^ k) := Nat.mul_le_mul_right _ hlo
  · rw [Nat.sqrt_lt, h4, ← hPQ2]
    have hle : Nat.sqrt n + 1 ≤ 2 ^ (Nat.log 2 (Nat.sqrt n)).succ := hP2
    have hpos : 0 < 2 ^ k * 2 ^ k := by positivity
    calc n * (2 ^ k * 2 ^ k) < ((Nat.sqrt n + 1) * (Nat.sqrt n + 1)) * (2 ^ k * 2 ^ k) :=
          Nat.mul_lt_mul_of_pos_right hhi hpos
      _ ≤ (2 ^ (Nat.log 2 (Nat.sqrt n)).succ * 2 ^ (Nat.log 2 (Nat.sqrt n)).succ)
            * (2 ^ k * 2 ^ k) := Nat.mul_le_mul_right _ (Nat.mul_le_mul hle hle)
      _ = _ := by ring

/-- The double square root is a double: an integer of 53 significant bits (`2^53` when
the rounding carries into the next binade) over a power of two. -/
theorem double_sqrt_is_double (n : Nat) (hn : 0 < n) (hlt : n < 2 ^ 106) :
    ∃ m k : Nat, 2 ^ 52 ≤ m ∧ m ≤ 2 ^ 53 ∧ k ≤ 52 ∧ double_sqrt n = (m : ℚ) / 2 ^ k := by
  obtain ⟨_, h1, h2⟩ := double_sqrt_mantissa n hn hlt
  refine ⟨nearest_sqrt (n * 4 ^ (52 - Nat.log 2 (Nat.sqrt n))), 52 - Nat.log 2 (Nat.sqrt n),
    ?_, ?_, by omega, ?_⟩
  · unfold nearest_sqrt
    split_ifs <;> omega
  · unfold nearest_sqrt
    split_ifs <;> omega
  · unfold double_sqrt
    rw [if_neg (by omega)]

end SITH
